import Mathlib

/-!
Kruskal / Prim clustering (Algorithms/Kruskal Prim/main.cpp)

A shallow embedding of the graph model, of executarPrim / agruparPrim and of executarKruskal,
together with the properties proved about them.

Conventions of the embedding

* double values are modelled by rationals (every finite double is a rational); the program
  only compares weights, it never adds or multiplies them once they are computed;
* the expression sqrt(pow(dx, 2) + pow(dy, 2)) of adicionarVertice is floating point
  arithmetic and is taken as a parameter dist of the construction; nothing is assumed of it
  unless a theorem says so. A square beyond the largest double is +infinity in the program,
  and so are the sum and the root taken of it: the embedding holds +infinity as a rational
  above pesoMax (infinito), which compares with every finite weight and with itself as
  +infinity does, and distDupla is a concrete distance with this overflow;
* std::vector accesses in executarPrim and agruparPrim are checked: an access outside the
  vector, or a dereference of the end iterator of the MST list, yields Erro.foraDosLimites;
* the two loops whose termination is not syntactic (the Prim loop and the recursion of
  agruparPrim) carry a fuel argument; running out of fuel yields Erro.semCombustivel, and
  the theorems show that the fuel supplied by executarPrim is always enough.
-/

namespace KruskalPrim

/-- The value of std::numeric_limits<double>::max(), that is 2^1024 - 2^971. -/
def pesoMax : ℚ := 179769313486231570814527423731704356798070567525844996598917476803157260780028538760589558632766878171540458953514382464234321326889464182768467546703537516986049910576551282076245490090389328944075868508455133942304583236903222948165808559332123348274797826204144723168738177180919299881250404026184124858368

/-- Failures of the embedded program. -/
inductive Erro where
  | foraDosLimites
  | semCombustivel
  deriving DecidableEq

/-- Checked element access of a std::vector. -/
def obter {α : Type} (xs : List α) (i : Nat) : Except Erro α :=
  match xs[i]? with
  | some x => .ok x
  | none => .error .foraDosLimites

/-- In-place update of the element at position i (no effect outside the vector). -/
def alterar {α : Type} (xs : List α) (i : Nat) (f : α → α) : List α :=
  match xs[i]? with
  | some x => xs.set i (f x)
  | none => xs

/-- struct Aresta: weight, origin and destination. -/
structure Aresta where
  peso : ℚ := -1
  origem : Nat
  destino : Nat
  deriving DecidableEq

/-- struct Vertice. The member arestas holds pointers to nodes of the MST list; a pointer is
modelled by the allocation number of the node it points to. -/
structure Vertice where
  adjacentes : List (ℚ × Nat) := []
  peso : ℚ := pesoMax
  pai : Int := -1
  naMst : Bool := false
  coordX : ℚ := 0
  coordY : ℚ := 0
  grupo : Nat := 0
  arestas : List Nat := []
  deriving DecidableEq

/-- struct Grafo. The std::list arestasMST is modelled by its nodes, nosMST (the node allocated
i-th is at position i and never moves), and by the order in which the list links them,
arestasMST (a list of node numbers). -/
structure Grafo where
  vertices : List Vertice := []
  arestas : List Aresta := []
  nosMST : List Aresta := []
  arestasMST : List Nat := []
  kruskal : Bool := false
  deriving DecidableEq

namespace Grafo

/-- Grafo::size. -/
def size (g : Grafo) : Nat := g.vertices.length

/-- Grafo::adicionarAresta. -/
def adicionarAresta (g : Grafo) (peso : ℚ) (verticeA verticeB : Nat) : Grafo :=
  if g.kruskal then
    { g with arestas := g.arestas ++ [Aresta.mk peso verticeA verticeB] }
  else
    let vs := alterar g.vertices verticeA
      (fun v => { v with adjacentes := v.adjacentes ++ [(peso, verticeB)] })
    let ws := alterar vs verticeB
      (fun v => { v with adjacentes := v.adjacentes ++ [(peso, verticeA)] })
    { g with vertices := ws }

/-- One turn of the loop of adicionarVertice: the edge between the new vertex, the last one,
and an earlier vertex; dist p q stands for the double computed by
sqrt(pow(p.x - q.x, 2) + pow(p.y - q.y, 2)). -/
def ligarNovo (dist : ℚ × ℚ → ℚ × ℚ → ℚ) (coordX coordY : ℚ) (g : Grafo) (vertice : Nat) :
    Grafo :=
  match g.vertices[vertice]? with
  | some v =>
    g.adicionarAresta (dist (coordX, coordY) (v.coordX, v.coordY)) (g.vertices.length - 1) vertice
  | none => g

/-- Grafo::adicionarVertice. -/
def adicionarVertice (dist : ℚ × ℚ → ℚ × ℚ → ℚ) (g : Grafo) (coordX coordY : ℚ) : Grafo :=
  let g1 := { g with vertices := g.vertices ++ [{ coordX := coordX, coordY := coordY }] }
  (List.range (g1.vertices.length - 1)).foldl (ligarNovo dist coordX coordY) g1

/-- Grafo::adicionarArestaMST: a new node at the back of the MST list, and a pointer to it in
both end points. -/
def adicionarArestaMST (g : Grafo) (peso : ℚ) (verticeA verticeB : Nat) : Except Erro Grafo := do
  let no := g.nosMST.length
  let g1 := { g with nosMST := g.nosMST ++ [Aresta.mk peso verticeA verticeB],
                     arestasMST := g.arestasMST ++ [no] }
  let va ← obter g1.vertices verticeA
  let g2 := { g1 with vertices := g1.vertices.set verticeA { va with arestas := va.arestas ++ [no] } }
  let vb ← obter g2.vertices verticeB
  pure { g2 with vertices := g2.vertices.set verticeB { vb with arestas := vb.arestas ++ [no] } }

end Grafo

/-- The graph main builds: the constructor Grafo(kruskal) followed by one adicionarVertice
per input point. -/
def construir (dist : ℚ × ℚ → ℚ × ℚ → ℚ) (kruskal : Bool) (pontos : List (ℚ × ℚ)) : Grafo :=
  pontos.foldl (fun g p => g.adicionarVertice dist p.1 p.2) { kruskal := kruskal }

/-- Modelled from the spec: FilaDePrioridade.h is not part of the sources. The spec describes
a min-oriented priority structure over (cost, vertex) pairs with insertion and
removal-of-minimum and no deletion by key; it is modelled by the list of pending pairs. -/
structure FilaDePrioridade where
  pendentes : List (ℚ × Nat) := []
  deriving DecidableEq

namespace FilaDePrioridade

/-- Modelled from the spec: insertion of a pair. -/
def push (f : FilaDePrioridade) (par : ℚ × Nat) : FilaDePrioridade :=
  { pendentes := f.pendentes ++ [par] }

/-- Modelled from the spec: whether no pair is pending. -/
def empty (f : FilaDePrioridade) : Bool := f.pendentes.isEmpty

/-- The first pair of minimum weight of a non-empty list of pairs. -/
def minimo : ℚ × Nat → List (ℚ × Nat) → ℚ × Nat
  | m, [] => m
  | m, p :: ps => if p.1 < m.1 then minimo p ps else minimo m ps

/-- Modelled from the spec: the pending pair of minimum weight (among pairs of equal weight,
the one pushed first). -/
def top (f : FilaDePrioridade) : Option (ℚ × Nat) :=
  match f.pendentes with
  | [] => none
  | p :: ps => some (minimo p ps)

/-- Modelled from the spec: removal of the pair returned by top. -/
def pop (f : FilaDePrioridade) : FilaDePrioridade :=
  match f.top with
  | none => f
  | some p => { pendentes := f.pendentes.erase p }

end FilaDePrioridade

/-- One turn of the loop over grafo.vertices[indice].arestas in agruparPrim, given the
function to call on the other end point. -/
def agruparPasso (rec : Grafo → Nat → Except Erro Grafo) (indice : Nat) (g : Grafo) (no : Nat) :
    Except Erro Grafo := do
  let aresta ← obter g.nosMST no
  if aresta.peso ≥ 0 then
    if aresta.origem = indice then rec g aresta.destino else rec g aresta.origem
  else pure g

/-- The function agruparPrim; the first argument bounds the depth of the recursion. -/
def agruparPrim : Nat → Grafo → Nat → Nat → Except Erro Grafo
  | 0, _, _, _ => .error .semCombustivel
  | fuel + 1, g, indice, grupo => do
    let v ← obter g.vertices indice
    if v.grupo = 0 then
      let g1 := { g with vertices := g.vertices.set indice { v with grupo := grupo } }
      v.arestas.foldlM (agruparPasso (fun g2 i => agruparPrim fuel g2 i grupo) indice) g1
    else pure g

/-- One turn of the loop over the adjacent vertices in executarPrim. -/
def relaxar (vertice : Nat) (s : Grafo × FilaDePrioridade) (adjacente : ℚ × Nat) :
    Except Erro (Grafo × FilaDePrioridade) := do
  let a ← obter s.1.vertices adjacente.2
  if !a.naMst && adjacente.1 < a.peso then
    pure ({ s.1 with vertices :=
              s.1.vertices.set adjacente.2 { a with peso := adjacente.1, pai := (vertice : Int) } },
          s.2.push adjacente)
  else pure s

/-- The while loop of executarPrim; the first argument bounds the number of turns. -/
def primLaco : Nat → Grafo → FilaDePrioridade → Except Erro Grafo
  | 0, _, _ => .error .semCombustivel
  | fuel + 1, g, fila =>
    match fila.top with
    | none => pure g
    | some par => do
      let vertice := par.2
      let fila1 := fila.pop
      let v ← obter g.vertices vertice
      if v.naMst then primLaco fuel g fila1
      else
        let g1 ← if v.pai ≥ 0 ∧ v.naMst = false then
                   g.adicionarArestaMST v.peso v.pai.toNat vertice
                 else pure g
        let v1 ← obter g1.vertices vertice
        let g2 := { g1 with vertices := g1.vertices.set vertice { v1 with naMst := true } }
        let s ← v1.adjacentes.foldlM (relaxar vertice) (g2, fila1)
        primLaco fuel s.1 s.2

/-- The call arestasMST.sort with the comparison arestaA.peso > arestaB.peso; std::list::sort
is stable and relinks the nodes without moving them. -/
def ordenarMST (nos : List Aresta) (ordem : List Nat) : List Nat :=
  ordem.insertionSort
    (fun a b => ((nos[a]?).map (·.peso)).getD 0 ≥ ((nos[b]?).map (·.peso)).getD 0)

/-- The pruning loop of executarPrim: i counts the turns left, it is the iterator. -/
def podar : Nat → List Nat → List Aresta → Except Erro (List Aresta)
  | 0, _, nos => pure nos
  | _ + 1, [], _ => .error .foraDosLimites
  | i + 1, no :: it, nos => podar i it (alterar nos no (fun a => { a with peso := -1 }))

/-- The labelling loop of executarPrim over the vertex numbers still to visit. -/
def rotular (fuel : Nat) : List Nat → Grafo → Nat → Except Erro (Grafo × Nat)
  | [], g, grupo => pure (g, grupo)
  | indice :: resto, g, grupo => do
    let v ← obter g.vertices indice
    if v.grupo = 0 then
      let g1 ← agruparPrim fuel g indice (grupo + 1)
      rotular fuel resto g1 (grupo + 1)
    else rotular fuel resto g grupo

/-- Fuel for the Prim loop: one turn per pushed pair, plus the turn that finds the queue
empty. -/
def combustivelPrim (g : Grafo) : Nat :=
  2 + (g.vertices.map (fun v => v.adjacentes.length)).sum

/-- The first part of executarPrim: seed vertex 0 and run the Prim loop. -/
def primMST (g : Grafo) : Except Erro Grafo := do
  let fila := (FilaDePrioridade.mk []).push (0, 0)
  let v0 ← obter g.vertices 0
  let g1 := { g with vertices := g.vertices.set 0 { v0 with peso := 0 } }
  primLaco (combustivelPrim g1) g1 fila

/-- The second part of executarPrim: sort the MST edges by decreasing weight and overwrite
the weight of the first numArestasRemover of them with -1. -/
def podarMST (g : Grafo) (numArestasRemover : Int) : Except Erro Grafo := do
  let ordem := ordenarMST g.nosMST g.arestasMST
  let nos ← podar numArestasRemover.toNat ordem g.nosMST
  pure { g with nosMST := nos, arestasMST := ordem }

/-- The third part of executarPrim: label the groups. -/
def rotularGrupos (g : Grafo) : Except Erro Grafo := do
  let r ← rotular (g.size + 1) (List.range g.size) g 0
  pure r.1

/-- The function executarPrim. -/
def executarPrim (g : Grafo) (numArestasRemover : Int) : Except Erro Grafo := do
  let g1 ← primMST g
  let g2 ← podarMST g1 numArestasRemover
  rotularGrupos g2

/-- Modelled from the spec: UnionFind.h is not part of the sources. The spec describes an
array mapping each vertex index to a parent index, a find that follows parents to the
canonical root, and a union by index that is a no-op when both roots agree. -/
structure UnionFind where
  pai : List Nat
  deriving DecidableEq

namespace UnionFind

/-- Modelled from the spec: the constructor UnionFind(n), every index its own root. -/
def criar (n : Nat) : UnionFind := { pai := List.range n }

/-- Follow parent links at most fuel times. -/
def subir (pai : List Nat) : Nat → Nat → Nat
  | 0, x => x
  | fuel + 1, x =>
    match pai[x]? with
    | some p => if p = x then x else subir pai fuel p
    | none => x

/-- Modelled from the spec: find, the canonical representative of the component of x. -/
def find (u : UnionFind) (x : Nat) : Nat := subir u.pai u.pai.length x

/-- Modelled from the spec: Union merges two components, by index: the root of larger index
is linked below the root of smaller index; no-op when the roots agree. -/
def Union (u : UnionFind) (a b : Nat) : UnionFind :=
  let ra := u.find a
  let rb := u.find b
  if ra = rb then u
  else if ra < rb then { pai := u.pai.set rb ra }
  else { pai := u.pai.set ra rb }

end UnionFind

/-- The call std::sort with the comparison arestaA.peso < arestaB.peso: the list sorted by
weight. The standard leaves the order of edges of equal weight to the implementation; here
they keep their original order, which is what libstdc++ does on ranges of up to 16 elements,
where it runs an insertion sort. On longer lists with equal weights the program may leave
the equal edges in another order. The theorems about executarKruskal use only that the
result is a permutation of the list, sorted by weight (mem_ordenarArestas,
ordenarArestas_sorted), and every example evaluated on edges of equal weight has at most 16
edges. -/
def ordenarArestas (arestas : List Aresta) : List Aresta :=
  arestas.insertionSort (fun a b => a.peso ≤ b.peso)

/-- The scan loop of executarKruskal over the edges still to visit; returns the union-find
and qtdGruposAtual. -/
def kruskalLaco (numGrupos : Int) : List Aresta → UnionFind → Int → UnionFind × Int
  | [], u, qtdGruposAtual => (u, qtdGruposAtual)
  | aresta :: resto, u, qtdGruposAtual =>
    if qtdGruposAtual = numGrupos then (u, qtdGruposAtual)
    else
      let raizOrigem := u.find aresta.origem
      let raizDestino := u.find aresta.destino
      if raizOrigem ≠ raizDestino then
        kruskalLaco numGrupos resto (u.Union aresta.origem aresta.destino) (qtdGruposAtual - 1)
      else kruskalLaco numGrupos resto u qtdGruposAtual

/-- The function executarKruskal. -/
def executarKruskal (g : Grafo) (numGrupos : Int) : Grafo :=
  let arestas := ordenarArestas g.arestas
  let r := kruskalLaco numGrupos arestas (UnionFind.criar g.size) (g.size : Int)
  { g with arestas := arestas,
           vertices := (List.range g.size).foldl
             (fun vs indice => alterar vs indice (fun v => { v with grupo := r.1.find indice }))
             g.vertices }

/-- The group written on each vertex, in input order. -/
def grupos (g : Grafo) : List Nat := g.vertices.map (fun v => v.grupo)

/-- The groups written by executarPrim, when it completes. -/
def gruposPrim (r : Except Erro Grafo) : Option (List Nat) :=
  match r with
  | .ok g => some (grupos g)
  | .error _ => none

/-- The failure of executarPrim, when it does not complete. -/
def erroPrim (r : Except Erro Grafo) : Option Erro :=
  match r with
  | .ok _ => none
  | .error e => some e

/-- Integer square root by bisection. -/
def raizAux : Nat → Nat → Nat → Nat → Nat
  | 0, lo, _, _ => lo
  | f + 1, lo, hi, n =>
    let mid := (lo + hi + 1) / 2
    if mid * mid ≤ n then raizAux f mid hi n else raizAux f lo (mid - 1) n

/-- A concrete distance for points with integer coordinates: the Euclidean distance in
thousandths, rounded down. -/
def distMili (p q : ℚ × ℚ) : ℚ :=
  ((raizAux 64 0 (((p.1.num - q.1.num) ^ 2 + (p.2.num - q.2.num) ^ 2).toNat * 1000000)
      (((p.1.num - q.1.num) ^ 2 + (p.2.num - q.2.num) ^ 2).toNat * 1000000) : Nat) : ℚ)

/-- The graph a part of executarPrim leaves, when it completes. -/
def grafoPrim (r : Except Erro Grafo) : Option Grafo :=
  match r with
  | .ok g => some g
  | .error _ => none

/-- The MST edges recorded by the Prim part of executarPrim, when it completes. -/
def nosPrim (r : Except Erro Grafo) : Option (List Aresta) :=
  match r with
  | .ok g => some g.nosMST
  | .error _ => none

/-- How the embedding holds the double +infinity, the value pow(d, 2) takes once d * d is
beyond the largest double, and with it the sum and the square root of adicionarVertice: a
rational above pesoMax (2^1024). The program only compares weights, and +infinity compares
as a number above every finite double and not below itself. -/
def infinito : ℚ := 179769313486231590772930519078902473361797697894230657273430081157732675805500963132708477322407536021120113879871393357658789768814416622492847430639474124377767893424865485276302219601246094119453082952085005768838150682342462881473913110540827237163350510684586298239947245938479716304835356329624224137216

/-- The coordinate 1e200 of the examples with overflow: its square is beyond the largest
double. -/
def longe : ℚ := 100000000000000000000000000000000000000000000000000000000000000000000000000000000000000000000000000000000000000000000000000000000000000000000000000000000000000000000000000000000000000000000000000000000

/-- The distance of adicionarVertice for points with integer coordinates, overflow included:
infinito once the sum of the two squares is beyond the largest double, and the Euclidean
distance in thousandths (distMili) otherwise. -/
def distDupla (p q : ℚ × ℚ) : ℚ :=
  if pesoMax < ((((p.1.num - q.1.num) ^ 2 + (p.2.num - q.2.num) ^ 2).toNat : Nat) : ℚ) then
    infinito
  else distMili p q

end KruskalPrim

namespace KruskalPrim

/-- The weight main gives the pair of vertices i, j: adicionarVertice computes it once, when
the later of the two points is added, with the new point as first argument. -/
def pesoPar (dist : ℚ × ℚ → ℚ × ℚ → ℚ) (pontos : List (ℚ × ℚ)) (i j : Nat) : ℚ :=
  dist (pontos.getD (max i j) (0, 0)) (pontos.getD (min i j) (0, 0))

/-- The edges of the complete graph on the input points, in the order in which
adicionarVertice creates them in Kruskal mode. -/
def completo (dist : ℚ × ℚ → ℚ × ℚ → ℚ) (pontos : List (ℚ × ℚ)) : List Aresta :=
  (List.range pontos.length).flatMap
    (fun i => (List.range i).map (fun j => Aresta.mk (pesoPar dist pontos i j) i j))

/-- The adjacency list adicionarVertice builds for vertex i in Prim mode. -/
def adjacentesDe (dist : ℚ × ℚ → ℚ × ℚ → ℚ) (pontos : List (ℚ × ℚ)) (i : Nat) : List (ℚ × Nat) :=
  ((List.range pontos.length).filter (fun j => j ≠ i)).map
    (fun j => (pesoPar dist pontos i j, j))

/-- The vertex record adicionarVertice leaves for input point i in Prim mode. -/
def verticeDe (dist : ℚ × ℚ → ℚ × ℚ → ℚ) (pontos : List (ℚ × ℚ)) (i : Nat) : Vertice :=
  { coordX := (pontos.getD i (0, 0)).1, coordY := (pontos.getD i (0, 0)).2,
    adjacentes := adjacentesDe dist pontos i }

/-- The coordinates stored in vertex j. -/
def coordDe (vs : List Vertice) (j : Nat) : ℚ × ℚ :=
  (vs[j]?.map (fun v : Vertice => (v.coordX, v.coordY))).getD (0, 0)

/-- Append entries to the adjacency list of a vertex. -/
def maisAdj (extra : List (ℚ × Nat)) (v : Vertice) : Vertice :=
  { v with adjacentes := v.adjacentes ++ extra }

/-- Two vertices are linked by a path of (undirected) edges of the list. -/
def Ligados (es : List (Nat × Nat)) (u v : Nat) : Prop :=
  Relation.EqvGen (fun a b => (a, b) ∈ es) u v

/-- An edge list is acyclic when every edge is a bridge: without it, its end points are no
longer linked. -/
def Aciclico (es : List (Nat × Nat)) : Prop :=
  ∀ i (h : i < es.length), ¬ Ligados (es.eraseIdx i) (es.get ⟨i, h⟩).1 (es.get ⟨i, h⟩).2

/-- A spanning tree of the complete graph on the vertices 0..n-1: an acyclic list of edges
between vertices of the graph that links all of them. -/
def ArvoreGeradora (n : Nat) (M : List (Nat × Nat)) : Prop :=
  (∀ e ∈ M, e.1 < n ∧ e.2 < n) ∧ Aciclico M ∧ ∀ u v, u < n → v < n → Ligados M u v

/-- The sum of the weights the graph gives the edges of a list. -/
def pesoTotal (dist : ℚ × ℚ → ℚ × ℚ → ℚ) (pontos : List (ℚ × ℚ)) (M : List (Nat × Nat)) : ℚ :=
  (M.map (fun e => pesoPar dist pontos e.1 e.2)).sum

/-- A forest built edge by edge: every edge joins two vertices not yet linked. -/
def Floresta : List (Nat × Nat) → Prop
  | [] => True
  | e :: es => ¬ Ligados es e.1 e.2 ∧ Floresta es

/-- Relabel the class of a with the label of b. -/
def fundir (a b : Nat) (r : Nat → Nat) : Nat → Nat :=
  fun x => if r x = r a then r b else r x

/-- A representative for the component of each vertex under the edges of the list. -/
def rotulos : List (Nat × Nat) → Nat → Nat
  | [] => id
  | e :: es => fundir e.1 e.2 (rotulos es)

/-- The number of components into which the edges of the list split the vertices 0..n-1. -/
def numComponentes (n : Nat) (es : List (Nat × Nat)) : Nat :=
  ((Finset.range n).image (rotulos es)).card

/-- The end points of the edges of a list. -/
def pares (as : List Aresta) : List (Nat × Nat) := as.map (fun a => (a.origem, a.destino))

/-- Every parent link of the union-find points to an index that is not larger. -/
def UnionFind.Valido (u : UnionFind) : Prop :=
  ∀ (i p : Nat), u.pai[i]? = some p → p ≤ i

/-- The edges on which the scan loop of executarKruskal calls Union, in scan order. -/
def kruskalUnioes (numGrupos : Int) : List Aresta → UnionFind → Int → List Aresta
  | [], _, _ => []
  | aresta :: resto, u, qtdGruposAtual =>
    if qtdGruposAtual = numGrupos then []
    else if u.find aresta.origem ≠ u.find aresta.destino then
      aresta :: kruskalUnioes numGrupos resto (u.Union aresta.origem aresta.destino)
        (qtdGruposAtual - 1)
    else kruskalUnioes numGrupos resto u qtdGruposAtual

/-- The end points of the edges of weight at most the threshold. -/
def ate (θ : ℚ) (as : List Aresta) : List (Nat × Nat) :=
  pares (as.filter (fun a => decide (a.peso ≤ θ)))

/-- Vertex i is marked as part of the MST. -/
def emMST (g : Grafo) (i : Nat) : Prop :=
  ∃ v, g.vertices[i]? = some v ∧ v.naMst = true

/-- The number of adjacency entries of the vertices not yet in the MST. -/
def porVisitar (vs : List Vertice) : Nat :=
  (vs.map (fun v => if v.naMst then 0 else v.adjacentes.length)).sum

/-- The measure that decreases at every turn of the Prim loop. -/
def medida (g : Grafo) (fila : FilaDePrioridade) : Nat :=
  fila.pendentes.length + porVisitar g.vertices

/-- The invariant of the Prim loop, apart from the bound on the tentative weights. -/
structure PrimBase (dist : ℚ × ℚ → ℚ × ℚ → ℚ) (pts : List (ℚ × ℚ)) (g : Grafo)
    (fila : FilaDePrioridade) : Prop where
  hlen : g.vertices.length = pts.length
  hest : ∀ (i : Nat) (v : Vertice), g.vertices[i]? = some v →
    v.adjacentes = adjacentesDe dist pts i ∧ v.grupo = 0
  hord : g.arestasMST = List.range g.nosMST.length
  hnos : ∀ a ∈ g.nosMST, emMST g a.origem ∧ emMST g a.destino ∧
    a.peso = pesoPar dist pts a.origem a.destino ∧ a.origem ≠ a.destino ∧
    ∃ vd, g.vertices[a.destino]? = some vd ∧ vd.pai = (a.origem : Int)
  hares : ∀ (i : Nat) (v : Vertice), g.vertices[i]? = some v → ∀ no : Nat,
    (no ∈ v.arestas ↔ ∃ a, g.nosMST[no]? = some a ∧ (a.origem = i ∨ a.destino = i))
  hflor : Floresta (pares g.nosMST).reverse
  hcon : ∀ x, emMST g x → Ligados (pares g.nosMST) 0 x
  hmm : ∀ (θ : ℚ) (x y : Nat), emMST g x → emMST g y →
    Ligados (ate θ (completo dist pts)) x y → Ligados (ate θ g.nosMST) x y
  h0 : emMST g 0
  hpai : ∀ (b : Nat) (vb : Vertice), g.vertices[b]? = some vb → vb.naMst = false →
    (vb.pai = -1 ∧ vb.peso = pesoMax) ∨
      (∃ u, emMST g u ∧ vb.pai = (u : Int) ∧ vb.peso = pesoPar dist pts u b)
  hpend : ∀ (b : Nat) (vb : Vertice), g.vertices[b]? = some vb → vb.naMst = false →
    0 ≤ vb.pai → (vb.peso, b) ∈ fila.pendentes
  hfila : ∀ p ∈ fila.pendentes, ∃ vb, g.vertices[p.2]? = some vb ∧
    (vb.naMst = true ∨ (vb.peso ≤ p.1 ∧ 0 ≤ vb.pai))

/-- The tentative weight of a vertex outside the MST is at most the weight of its edge to
each vertex of the MST selected by P. -/
def Chave (dist : ℚ × ℚ → ℚ × ℚ → ℚ) (pts : List (ℚ × ℚ)) (g : Grafo)
    (P : Nat → Nat → Prop) : Prop :=
  ∀ (b : Nat) (vb : Vertice), g.vertices[b]? = some vb → vb.naMst = false →
    ∀ u, emMST g u → P u b → vb.peso ≤ pesoPar dist pts u b

/-- The group written on vertex i (0 outside the graph). -/
def grupoDe (g : Grafo) (i : Nat) : Nat :=
  (g.vertices[i]?.map (fun v => v.grupo)).getD 0

/-- The end points of the MST edges that agruparPrim follows: those of weight at least 0. -/
def vivas (g : Grafo) : List (Nat × Nat) :=
  pares (g.nosMST.filter (fun a => decide (a.peso ≥ 0)))

/-- The end points of the MST edges whose weight is not the sentinel -1. -/
def arestasVivas (g : Grafo) : List (Nat × Nat) :=
  pares (g.nosMST.filter (fun a => decide (a.peso ≠ -1)))

/-- The vertices that have no group yet. -/
def semRotulo (g : Grafo) : Finset Nat :=
  (Finset.range g.vertices.length).filter (fun x => grupoDe g x = 0)

/-- An MST edge that agruparPrim follows joins x and y. -/
def Viz (g : Grafo) (x y : Nat) : Prop :=
  ∃ a ∈ g.nosMST, a.peso ≥ 0 ∧ ((a.origem = x ∧ a.destino = y) ∨ (a.destino = x ∧ a.origem = y))

/-- What agruparPrim relies on: the pointers stored in a vertex are exactly the MST edges
that touch it, and the end points of every MST edge are vertices of the graph. -/
structure Estrutura (n : Nat) (g : Grafo) : Prop where
  hlen : g.vertices.length = n
  hares : ∀ (i : Nat) (v : Vertice), g.vertices[i]? = some v → ∀ no : Nat,
    (no ∈ v.arestas ↔ ∃ a, g.nosMST[no]? = some a ∧ (a.origem = i ∨ a.destino = i))
  hlim : ∀ a ∈ g.nosMST, a.origem < n ∧ a.destino < n

/-- Two graphs that differ at most in the groups of their vertices. -/
def Mesma (g g' : Grafo) : Prop :=
  g'.nosMST = g.nosMST ∧ g'.arestasMST = g.arestasMST ∧ g'.arestas = g.arestas ∧
  g'.kruskal = g.kruskal ∧ g'.vertices.length = g.vertices.length ∧
  ∀ (i : Nat) (v : Vertice), g.vertices[i]? = some v →
    ∃ v', g'.vertices[i]? = some v' ∧ v = { v' with grupo := v.grupo }

/-- What a call of agruparPrim from vertex i with group c, or a part of its loop, does to
the graph: groups already written stay, the vertices it labels get group c and are linked
to i, and every neighbour of a vertex it labels has a group when it returns. -/
structure Inundou (g g' : Grafo) (i c : Nat) : Prop where
  mesma : Mesma g g'
  fica : ∀ x, grupoDe g x ≠ 0 → grupoDe g' x = grupoDe g x
  novo : ∀ x, grupoDe g x = 0 → grupoDe g' x ≠ 0 → grupoDe g' x = c ∧ Ligados (vivas g) i x
  fecho : ∀ x, grupoDe g x = 0 → grupoDe g' x ≠ 0 → ∀ y, Viz g x y → grupoDe g' y ≠ 0

/-- The invariant of the labelling loop of executarPrim: g0 is the graph before the loop,
pos the next vertex to visit and c the last group used. -/
structure Rotulado (g0 g : Grafo) (pos c : Nat) : Prop where
  mesma : Mesma g0 g
  fechado : ∀ x, grupoDe g x ≠ 0 → ∀ y, Viz g0 x y → grupoDe g y = grupoDe g x
  ligado : ∀ x y, grupoDe g x ≠ 0 → grupoDe g x = grupoDe g y → Ligados (vivas g0) x y
  limite : ∀ x, grupoDe g x ≤ c
  usado : ∀ l, 1 ≤ l → l ≤ c → ∃ x, x < g0.vertices.length ∧ grupoDe g x = l
  feitos : ∀ x, x < pos → grupoDe g x ≠ 0
  primeiro : 0 < pos → grupoDe g 0 = 1
  inicio : pos = 0 → c = 0

end KruskalPrim

namespace KruskalPrim

/-- The seed of executarPrim: the pair (0, 0) is pushed and the tentative weight of vertex 0
is set to 0. -/
def primInicio (g : Grafo) : Except Erro (Grafo × FilaDePrioridade) := do
  let fila := (FilaDePrioridade.mk []).push (0, 0)
  let v0 ← obter g.vertices 0
  pure ({ g with vertices := g.vertices.set 0 { v0 with peso := 0 } }, fila)

/-- The body of the while loop of executarPrim, for the pair par at the top of the queue:
the state in which the next turn starts. -/
def primPasso (g : Grafo) (fila : FilaDePrioridade) (par : ℚ × Nat) :
    Except Erro (Grafo × FilaDePrioridade) := do
  let vertice := par.2
  let fila1 := fila.pop
  let v ← obter g.vertices vertice
  if v.naMst then pure (g, fila1)
  else
    let g1 ← if v.pai ≥ 0 ∧ v.naMst = false then
               g.adicionarArestaMST v.peso v.pai.toNat vertice
             else pure g
    let v1 ← obter g1.vertices vertice
    let g2 := { g1 with vertices := g1.vertices.set vertice { v1 with naMst := true } }
    v1.adjacentes.foldlM (relaxar vertice) (g2, fila1)

/-- The state of the while loop of executarPrim after t turns; once the queue is empty the
loop has ended and the state stays. -/
def primEstado : Nat → Grafo → FilaDePrioridade → Except Erro (Grafo × FilaDePrioridade)
  | 0, g, fila => pure (g, fila)
  | t + 1, g, fila =>
    match fila.top with
    | none => pure (g, fila)
    | some par => do
      let s ← primPasso g fila par
      primEstado t s.1 s.2

/-- What the loop over the adjacent vertices of the vertex being expanded does to the state
of the Prim loop: no tentative weight increases; a vertex whose tentative weight changed was
outside the MST, has the expanded vertex as parent and its pair (weight, vertex) is pending;
nothing else changes in a vertex, pending pairs stay pending and the MST list is the same. -/
structure Relaxou (vertice : Nat) (g : Grafo) (fila : FilaDePrioridade) (g' : Grafo)
    (fila' : FilaDePrioridade) : Prop where
  hnos : g'.nosMST = g.nosMST
  hlen : g'.vertices.length = g.vertices.length
  hfila : ∀ x ∈ fila.pendentes, x ∈ fila'.pendentes
  hvert : ∀ (b : Nat) (vb : Vertice), g.vertices[b]? = some vb →
    ∃ vb', g'.vertices[b]? = some vb' ∧ vb'.peso ≤ vb.peso ∧
      (vb'.peso = vb.peso → vb' = vb) ∧
      (vb'.peso ≠ vb.peso → vb.naMst = false ∧
        vb' = { vb with peso := vb'.peso, pai := (vertice : Int) } ∧
        (vb'.peso, b) ∈ fila'.pendentes)

/-- No tentative weight is above pesoMax, the value every vertex starts with. -/
def Teto (g : Grafo) : Prop := ∀ v ∈ g.vertices, v.peso ≤ pesoMax

/-- The union-find and qtdGruposAtual of executarKruskal after the scan loop has visited the
first i edges of the sorted list (the state when the loop ends, if it ends sooner). -/
def kruskalEstado (g : Grafo) (numGrupos : Int) (i : Nat) : UnionFind × Int :=
  kruskalLaco numGrupos ((ordenarArestas g.arestas).take i) (UnionFind.criar g.size)
    (g.size : Int)

/-- The edges on which executarKruskal has called Union when the scan loop has visited the
first i edges of the sorted list. -/
def kruskalAceitas (g : Grafo) (numGrupos : Int) (i : Nat) : List Aresta :=
  kruskalUnioes numGrupos ((ordenarArestas g.arestas).take i) (UnionFind.criar g.size)
    (g.size : Int)

end KruskalPrim

namespace KruskalPrim

/-! ## Connectivity -/

theorem Ligados.refl (es : List (Nat × Nat)) (u : Nat) : Ligados es u u :=
  Relation.EqvGen.refl u

theorem Ligados.symm {es : List (Nat × Nat)} {u v : Nat} (h : Ligados es u v) :
    Ligados es v u :=
  Relation.EqvGen.symm _ _ h

theorem Ligados.trans {es : List (Nat × Nat)} {u v w : Nat} (h1 : Ligados es u v)
    (h2 : Ligados es v w) : Ligados es u w :=
  Relation.EqvGen.trans _ _ _ h1 h2

theorem Ligados.aresta {es : List (Nat × Nat)} {u v : Nat} (h : (u, v) ∈ es) :
    Ligados es u v :=
  Relation.EqvGen.rel _ _ h

/-- Linked vertices stay linked when every edge of the first list is a path of the second. -/
theorem Ligados.mono_ligados {es fs : List (Nat × Nat)}
    (h : ∀ a b, (a, b) ∈ es → Ligados fs a b) {u v : Nat} (huv : Ligados es u v) :
    Ligados fs u v := by
  induction huv with
  | rel a b hab => exact h a b hab
  | refl a => exact Ligados.refl _ _
  | symm a b _ ih => exact ih.symm
  | trans a b c _ _ ih1 ih2 => exact ih1.trans ih2

theorem Ligados.mono {es fs : List (Nat × Nat)} (h : ∀ e, e ∈ es → e ∈ fs) {u v : Nat}
    (huv : Ligados es u v) : Ligados fs u v :=
  Ligados.mono_ligados (fun a b hab => Ligados.aresta (h _ hab)) huv

/-- A set of vertices that no edge leaves is closed under paths. -/
theorem Ligados.fechado {es : List (Nat × Nat)} (S : Nat → Prop)
    (h : ∀ a b, (a, b) ∈ es → (S a ↔ S b)) {u v : Nat} (huv : Ligados es u v) :
    (S u ↔ S v) := by
  induction huv with
  | rel a b hab => exact h a b hab
  | refl a => exact Iff.rfl
  | symm a b _ ih => exact ih.symm
  | trans a b c _ _ ih1 ih2 => exact ih1.trans ih2

/-- Paths of a list with one more edge. -/
theorem ligados_cons {e : Nat × Nat} {es : List (Nat × Nat)} {u v : Nat} :
    Ligados (e :: es) u v ↔
      Ligados es u v ∨ (Ligados es u e.1 ∧ Ligados es e.2 v) ∨
        (Ligados es u e.2 ∧ Ligados es e.1 v) := by
  constructor
  · intro h
    induction h with
    | rel a b hab =>
      rcases List.mem_cons.1 hab with h1 | h1
      · right; left
        subst h1
        exact ⟨Ligados.refl _ _, Ligados.refl _ _⟩
      · left; exact Ligados.aresta h1
    | refl a => left; exact Ligados.refl _ _
    | symm a b _ ih =>
      rcases ih with h1 | ⟨h1, h2⟩ | ⟨h1, h2⟩
      · left; exact h1.symm
      · right; right; exact ⟨h2.symm, h1.symm⟩
      · right; left; exact ⟨h2.symm, h1.symm⟩
    | trans a b c _ _ ih1 ih2 =>
      rcases ih1 with h1 | ⟨h1, h2⟩ | ⟨h1, h2⟩
      · rcases ih2 with k1 | ⟨k1, k2⟩ | ⟨k1, k2⟩
        · left; exact h1.trans k1
        · right; left; exact ⟨h1.trans k1, k2⟩
        · right; right; exact ⟨h1.trans k1, k2⟩
      · rcases ih2 with k1 | ⟨k1, k2⟩ | ⟨k1, k2⟩
        · right; left; exact ⟨h1, h2.trans k1⟩
        · right; left; exact ⟨h1, k2⟩
        · left; exact h1.trans k2
      · rcases ih2 with k1 | ⟨k1, k2⟩ | ⟨k1, k2⟩
        · right; right; exact ⟨h1, h2.trans k1⟩
        · left; exact h1.trans k2
        · right; right; exact ⟨h1, k2⟩
  · intro h
    have hm : ∀ {a b}, Ligados es a b → Ligados (e :: es) a b :=
      fun hab => Ligados.mono (fun x hx => List.mem_cons_of_mem _ hx) hab
    have he : Ligados (e :: es) e.1 e.2 := Ligados.aresta (List.mem_cons_self _ _)
    rcases h with h1 | ⟨h1, h2⟩ | ⟨h1, h2⟩
    · exact hm h1
    · exact (hm h1).trans (he.trans (hm h2))
    · exact (hm h1).trans (he.symm.trans (hm h2))

/-! ## Component labels -/

theorem fundir_eq_iff (a b : Nat) (r : Nat → Nat) (x y : Nat) :
    fundir a b r x = fundir a b r y ↔
      r x = r y ∨ (r x = r a ∧ r b = r y) ∨ (r x = r b ∧ r a = r y) := by
  unfold fundir
  generalize r x = p
  generalize r y = q
  generalize r a = c
  generalize r b = d
  split_ifs <;> omega

/-- Two vertices carry the same label exactly when they are linked. -/
theorem rotulos_eq_iff (es : List (Nat × Nat)) (x y : Nat) :
    rotulos es x = rotulos es y ↔ Ligados es x y := by
  induction es generalizing x y with
  | nil =>
    simp only [rotulos, id]
    constructor
    · intro h; rw [h]; exact Ligados.refl _ _
    · intro h
      have := @Ligados.fechado [] (fun z => z = x) (by simp) _ _ h
      exact (this.1 rfl).symm
  | cons e es ih =>
    simp only [rotulos]
    rw [fundir_eq_iff, ligados_cons, ih, ih, ih, ih, ih]

theorem ligados_rotulos (es : List (Nat × Nat)) (x : Nat) : Ligados es x (rotulos es x) := by
  induction es generalizing x with
  | nil => exact Ligados.refl _ _
  | cons e es ih =>
    simp only [rotulos, fundir]
    split
    · next h =>
      rw [rotulos_eq_iff] at h
      exact ligados_cons.2 (Or.inr (Or.inl ⟨h, ih _⟩))
    · exact ligados_cons.2 (Or.inl (ih x))

/-! ## Counting components -/

theorem numComponentes_nil (n : Nat) : numComponentes n [] = n := by
  simp [numComponentes, rotulos]

/-- Fewer links, more components. -/
theorem numComponentes_anti (n : Nat) {es fs : List (Nat × Nat)}
    (h : ∀ x y, Ligados es x y → Ligados fs x y) :
    numComponentes n fs ≤ numComponentes n es := by
  unfold numComponentes
  have : (Finset.range n).image (rotulos fs) =
      ((Finset.range n).image (rotulos es)).image (rotulos fs) := by
    rw [Finset.image_image]
    apply Finset.image_congr
    intro x _
    simp only [Function.comp]
    exact (rotulos_eq_iff fs _ _).2 (h _ _ (ligados_rotulos es x))
  rw [this]
  exact Finset.card_image_le

theorem numComponentes_congr (n : Nat) {es fs : List (Nat × Nat)}
    (h : ∀ x y, Ligados es x y ↔ Ligados fs x y) :
    numComponentes n fs = numComponentes n es :=
  le_antisymm (numComponentes_anti n (fun x y => (h x y).1))
    (numComponentes_anti n (fun x y => (h x y).2))

/-- The label of a vertex below n is below n when every edge is. -/
theorem rotulos_lt (n : Nat) (es : List (Nat × Nat)) (hes : ∀ e ∈ es, e.1 < n ∧ e.2 < n)
    (x : Nat) (hx : x < n) : rotulos es x < n := by
  induction es generalizing x with
  | nil => simpa [rotulos] using hx
  | cons e es ih =>
    have hes2 : ∀ e ∈ es, e.1 < n ∧ e.2 < n := fun e he => hes e (List.mem_cons_of_mem _ he)
    simp only [rotulos, fundir]
    split
    · exact ih hes2 _ (hes e (List.mem_cons_self _ _)).2
    · exact ih hes2 _ hx

/-- An edge between two vertices already linked changes nothing. -/
theorem numComponentes_cons_ligados (n : Nat) (e : Nat × Nat) (es : List (Nat × Nat))
    (h : Ligados es e.1 e.2) : numComponentes n (e :: es) = numComponentes n es := by
  apply numComponentes_congr
  intro x y
  rw [ligados_cons]
  constructor
  · intro hxy; exact Or.inl hxy
  · rintro (h1 | ⟨h1, h2⟩ | ⟨h1, h2⟩)
    · exact h1
    · exact h1.trans (h.trans h2)
    · exact h1.trans (h.symm.trans h2)

/-- An edge between two vertices not yet linked merges two components. -/
theorem numComponentes_cons_novo (n : Nat) (e : Nat × Nat) (es : List (Nat × Nat))
    (h1 : e.1 < n) (h2 : e.2 < n) (h : ¬ Ligados es e.1 e.2) :
    numComponentes n (e :: es) + 1 = numComponentes n es := by
  unfold numComponentes
  have hne : rotulos es e.1 ≠ rotulos es e.2 := fun hh => h ((rotulos_eq_iff _ _ _).1 hh)
  have hmem : rotulos es e.1 ∈ (Finset.range n).image (rotulos es) :=
    Finset.mem_image_of_mem _ (Finset.mem_range.2 h1)
  have : (Finset.range n).image (rotulos (e :: es)) =
      ((Finset.range n).image (rotulos es)).erase (rotulos es e.1) := by
    ext l
    simp only [Finset.mem_image, Finset.mem_range, Finset.mem_erase, rotulos, fundir]
    constructor
    · rintro ⟨x, hx, hl⟩
      split at hl
      · subst hl
        exact ⟨fun hh => hne hh.symm, e.2, h2, rfl⟩
      · next hx1 =>
        subst hl
        exact ⟨hx1, x, hx, rfl⟩
    · rintro ⟨hl, x, hx, rfl⟩
      exact ⟨x, hx, by rw [if_neg hl]⟩
  rw [this, Finset.card_erase_of_mem hmem]
  have : 0 < ((Finset.range n).image (rotulos es)).card := Finset.card_pos.2 ⟨_, hmem⟩
  omega

/-- Each edge removes at most one component. -/
theorem numComponentes_ge (n : Nat) (es : List (Nat × Nat))
    (hes : ∀ e ∈ es, e.1 < n ∧ e.2 < n) : n ≤ numComponentes n es + es.length := by
  induction es with
  | nil => simp [numComponentes_nil]
  | cons e es ih =>
    have hes2 : ∀ e ∈ es, e.1 < n ∧ e.2 < n := fun e he => hes e (List.mem_cons_of_mem _ he)
    have := ih hes2
    by_cases h : Ligados es e.1 e.2
    · rw [numComponentes_cons_ligados n e es h]; simp only [List.length_cons]; omega
    · have := numComponentes_cons_novo n e es (hes e (List.mem_cons_self _ _)).1
        (hes e (List.mem_cons_self _ _)).2 h
      simp only [List.length_cons]; omega

/-- A forest with j edges on n vertices has n - j components. -/
theorem numComponentes_floresta (n : Nat) (es : List (Nat × Nat))
    (hes : ∀ e ∈ es, e.1 < n ∧ e.2 < n) (hf : Floresta es) :
    numComponentes n es + es.length = n := by
  induction es with
  | nil => simp [numComponentes_nil]
  | cons e es ih =>
    have hes2 : ∀ e ∈ es, e.1 < n ∧ e.2 < n := fun e he => hes e (List.mem_cons_of_mem _ he)
    have := ih hes2 hf.2
    have := numComponentes_cons_novo n e es (hes e (List.mem_cons_self _ _)).1
        (hes e (List.mem_cons_self _ _)).2 hf.1
    simp only [List.length_cons]; omega

/-- Conversely, an edge list with n - j components is a forest. -/
theorem floresta_of_numComponentes (n : Nat) (es : List (Nat × Nat))
    (hes : ∀ e ∈ es, e.1 < n ∧ e.2 < n) (h : numComponentes n es + es.length = n) :
    Floresta es := by
  induction es with
  | nil => trivial
  | cons e es ih =>
    have hes2 : ∀ e ∈ es, e.1 < n ∧ e.2 < n := fun e he => hes e (List.mem_cons_of_mem _ he)
    have hge := numComponentes_ge n es hes2
    simp only [List.length_cons] at h
    by_cases hl : Ligados es e.1 e.2
    · rw [numComponentes_cons_ligados n e es hl] at h; omega
    · have := numComponentes_cons_novo n e es (hes e (List.mem_cons_self _ _)).1
        (hes e (List.mem_cons_self _ _)).2 hl
      exact ⟨hl, ih hes2 (by omega)⟩

/-- A sublist of a forest is a forest. -/
theorem Floresta.sublist {es fs : List (Nat × Nat)} (h : List.Sublist es fs) (hf : Floresta fs) :
    Floresta es := by
  induction h with
  | slnil => trivial
  | cons a _ ih => exact ih hf.2
  | cons₂ a hs ih =>
    exact ⟨fun hl => hf.1 (Ligados.mono (fun e he => hs.subset he) hl), ih hf.2⟩

/-- All vertices linked: one component. -/
theorem numComponentes_conexo (n : Nat) (hn : 0 < n) (es : List (Nat × Nat))
    (h : ∀ x, x < n → Ligados es 0 x) : numComponentes n es = 1 := by
  unfold numComponentes
  have : (Finset.range n).image (rotulos es) = {rotulos es 0} := by
    ext l
    simp only [Finset.mem_image, Finset.mem_range, Finset.mem_singleton]
    constructor
    · rintro ⟨x, hx, rfl⟩
      exact ((rotulos_eq_iff es 0 x).2 (h x hx)).symm
    · rintro rfl
      exact ⟨0, hn, rfl⟩
  rw [this, Finset.card_singleton]

/-- One component: all vertices linked. -/
theorem ligados_of_numComponentes_um (n : Nat) (es : List (Nat × Nat))
    (h : numComponentes n es = 1) (x y : Nat) (hx : x < n) (hy : y < n) : Ligados es x y := by
  unfold numComponentes at h
  rw [Finset.card_eq_one] at h
  obtain ⟨l, hl⟩ := h
  have hx' : rotulos es x ∈ (Finset.range n).image (rotulos es) :=
    Finset.mem_image_of_mem _ (Finset.mem_range.2 hx)
  have hy' : rotulos es y ∈ (Finset.range n).image (rotulos es) :=
    Finset.mem_image_of_mem _ (Finset.mem_range.2 hy)
  rw [hl, Finset.mem_singleton] at hx' hy'
  exact (rotulos_eq_iff es x y).1 (hx'.trans hy'.symm)

end KruskalPrim

namespace KruskalPrim

/-! ## The graph built by main -/

theorem alterar_length {α : Type} (xs : List α) (i : Nat) (f : α → α) :
    (alterar xs i f).length = xs.length := by
  unfold alterar
  split <;> simp

theorem getElem?_alterar {α : Type} (xs : List α) (i j : Nat) (f : α → α) :
    (alterar xs i f)[j]? = if i = j then xs[j]?.map f else xs[j]? := by
  unfold alterar
  split
  · next x hx =>
    rw [List.getElem?_set]
    split
    · next hij =>
      subst hij
      have hlt : i < xs.length := (List.getElem?_eq_some.1 hx).1
      simp [hlt, hx]
    · rfl
  · next hx =>
    split
    · next hij => subst hij; simp [hx]
    · rfl

theorem construir_snoc (dist : ℚ × ℚ → ℚ × ℚ → ℚ) (k : Bool) (pts : List (ℚ × ℚ)) (p : ℚ × ℚ) :
    construir dist k (pts ++ [p]) = (construir dist k pts).adicionarVertice dist p.1 p.2 := by
  simp [construir, List.foldl_append]

/-- The inner loop of adicionarVertice in Kruskal mode. -/
theorem laco_kruskal (dist : ℚ × ℚ → ℚ × ℚ → ℚ) (x y : ℚ) (vs : List Vertice)
    (js : List Nat) (hjs : ∀ j ∈ js, j < vs.length) (as : List Aresta)
    (nos : List Aresta) (ord : List Nat) :
    js.foldl (Grafo.ligarNovo dist x y) (Grafo.mk vs as nos ord true) =
    Grafo.mk vs (as ++ js.map (fun j => Aresta.mk
        (dist (x, y) ((vs[j]?.map (fun v => (v.coordX, v.coordY))).getD (0, 0)))
        (vs.length - 1) j))
      nos ord true := by
  induction js generalizing as with
  | nil => simp
  | cons j js ih =>
    have hj : j < vs.length := hjs j (List.mem_cons_self _ _)
    have h1 : Grafo.ligarNovo dist x y (Grafo.mk vs as nos ord true) j =
        Grafo.mk vs (as ++ [Aresta.mk (dist (x, y) (vs[j].coordX, vs[j].coordY))
          (vs.length - 1) j]) nos ord true := by
      simp [Grafo.ligarNovo, Grafo.adicionarAresta, List.getElem?_eq_getElem hj]
    rw [List.foldl_cons, h1, ih (fun j hj => hjs j (List.mem_cons_of_mem _ hj))]
    simp [List.getElem?_eq_getElem hj]

theorem pesoPar_snoc (dist : ℚ × ℚ → ℚ × ℚ → ℚ) (pts : List (ℚ × ℚ)) (p : ℚ × ℚ) (i j : Nat)
    (hi : i < pts.length) (hj : j < pts.length) :
    pesoPar dist (pts ++ [p]) i j = pesoPar dist pts i j := by
  unfold pesoPar
  have h1 : max i j < pts.length := max_lt hi hj
  have h2 : min i j < pts.length := lt_of_le_of_lt (min_le_left _ _) hi
  simp [List.getD_eq_getElem?_getD, List.getElem?_append_left, h1, h2]

theorem pesoPar_novo (dist : ℚ × ℚ → ℚ × ℚ → ℚ) (pts : List (ℚ × ℚ)) (p : ℚ × ℚ) (j : Nat)
    (hj : j < pts.length) :
    pesoPar dist (pts ++ [p]) pts.length j = dist p (pts.getD j (0, 0)) := by
  unfold pesoPar
  have h1 : max pts.length j = pts.length := max_eq_left (le_of_lt hj)
  have h2 : min pts.length j = j := min_eq_right (le_of_lt hj)
  rw [h1, h2]
  simp [List.getD_eq_getElem?_getD, List.getElem?_append_left, hj]

theorem pesoPar_comm (dist : ℚ × ℚ → ℚ × ℚ → ℚ) (pts : List (ℚ × ℚ)) (i j : Nat) :
    pesoPar dist pts i j = pesoPar dist pts j i := by
  unfold pesoPar
  rw [max_comm, min_comm]

theorem completo_snoc (dist : ℚ × ℚ → ℚ × ℚ → ℚ) (pts : List (ℚ × ℚ)) (p : ℚ × ℚ) :
    completo dist (pts ++ [p]) = completo dist pts ++
      (List.range pts.length).map (fun j => Aresta.mk (dist p (pts.getD j (0, 0))) pts.length j) := by
  unfold completo
  simp only [List.length_append, List.length_singleton, List.range_succ, List.flatMap_append,
    List.flatMap_cons, List.flatMap_nil, List.append_nil]
  congr 1
  · apply List.flatMap_congr
    intro i hi
    apply List.map_congr_left
    intro j hj
    rw [pesoPar_snoc dist pts p i j (List.mem_range.1 hi)
      (lt_trans (List.mem_range.1 hj) (List.mem_range.1 hi))]
  · apply List.map_congr_left
    intro j hj
    rw [pesoPar_novo dist pts p j (List.mem_range.1 hj)]

/-- The graph main builds in Kruskal mode. -/
theorem construir_kruskal (dist : ℚ × ℚ → ℚ × ℚ → ℚ) (pts : List (ℚ × ℚ)) :
    construir dist true pts =
      Grafo.mk (pts.map (fun p => { coordX := p.1, coordY := p.2 })) (completo dist pts) [] [] true := by
  induction pts using List.reverseRecOn with
  | nil => rfl
  | append_singleton pts p ih =>
    rw [construir_snoc, ih, completo_snoc]
    simp only [Grafo.adicionarVertice, List.length_append, List.length_map, List.length_singleton,
      Nat.add_sub_cancel]
    rw [laco_kruskal]
    · simp only [List.length_append, List.length_map, List.length_singleton, Nat.add_sub_cancel,
        List.map_append, List.map_cons, List.map_nil]
      congr 2
      apply List.map_congr_left
      intro j hj
      have hj' : j < pts.length := List.mem_range.1 hj
      simp [List.getElem?_append_left, hj', List.getD_eq_getElem?_getD]
    · intro j hj
      have hj' : j < pts.length := List.mem_range.1 hj
      simp; omega

theorem maisAdj_nil (v : Vertice) : maisAdj [] v = v := by
  simp [maisAdj]

theorem maisAdj_maisAdj (a b : List (ℚ × Nat)) (v : Vertice) :
    maisAdj b (maisAdj a v) = maisAdj (a ++ b) v := by
  simp [maisAdj]

theorem coordDe_alterar (vs : List Vertice) (i k : Nat) (e : List (ℚ × Nat)) :
    coordDe (alterar vs i (maisAdj e)) k = coordDe vs k := by
  unfold coordDe
  rw [getElem?_alterar]
  split
  · cases vs[k]? <;> rfl
  · rfl

theorem ligarNovo_prim (dist : ℚ × ℚ → ℚ × ℚ → ℚ) (x y : ℚ) (vs : List Vertice) (j : Nat)
    (hj : j < vs.length) (as : List Aresta) (nos : List Aresta) (ord : List Nat) :
    Grafo.ligarNovo dist x y (Grafo.mk vs as nos ord false) j =
      Grafo.mk (alterar (alterar vs (vs.length - 1)
          (maisAdj [(dist (x, y) (coordDe vs j), j)])) j
          (maisAdj [(dist (x, y) (coordDe vs j), vs.length - 1)])) as nos ord false := by
  simp [Grafo.ligarNovo, Grafo.adicionarAresta, List.getElem?_eq_getElem hj, coordDe]
  rfl

/-- The inner loop of adicionarVertice in Prim mode. -/
theorem laco_prim (dist : ℚ × ℚ → ℚ × ℚ → ℚ) (x y : ℚ) (n : Nat) (js : List Nat)
    (hjs : ∀ j ∈ js, j < n) (hnd : js.Nodup) (vs : List Vertice) (hvs : vs.length = n + 1)
    (as : List Aresta) (nos : List Aresta) (ord : List Nat) :
    ∃ ws : List Vertice,
      js.foldl (Grafo.ligarNovo dist x y) (Grafo.mk vs as nos ord false) =
        Grafo.mk ws as nos ord false ∧
      ∀ i, ws[i]? = vs[i]?.map (maisAdj
        (if i = n then js.map (fun j => (dist (x, y) (coordDe vs j), j))
         else if i ∈ js then [(dist (x, y) (coordDe vs i), n)] else [])) := by
  induction js generalizing vs with
  | nil =>
    refine ⟨vs, rfl, ?_⟩
    intro i
    simp only [List.map_nil, List.not_mem_nil, if_false, ite_self]
    have : maisAdj [] = id := funext maisAdj_nil
    rw [this, Option.map_id, id]
  | cons j js ih =>
    have hj : j < n := hjs j (List.mem_cons_self _ _)
    have hjv : j < vs.length := by omega
    have hjn : j ∉ js := (List.nodup_cons.1 hnd).1
    have hn1 : vs.length - 1 = n := by omega
    obtain ⟨ws, hws, hget⟩ := ih (fun j hj => hjs j (List.mem_cons_of_mem _ hj))
      (List.nodup_cons.1 hnd).2
      (alterar (alterar vs n (maisAdj [(dist (x, y) (coordDe vs j), j)])) j
          (maisAdj [(dist (x, y) (coordDe vs j), n)]))
      (by rw [alterar_length, alterar_length, hvs])
    refine ⟨ws, ?_, ?_⟩
    · rw [List.foldl_cons, ← hws, ligarNovo_prim dist x y vs j hjv, hn1]
    · intro i
      rw [hget i]
      simp only [coordDe_alterar, getElem?_alterar]
      by_cases hin : i = n
      · subst hin
        have h1 : j ≠ i := by omega
        simp only [h1, if_false, if_true, Option.map_map, List.map_cons]
        congr 1
        funext v
        simp [maisAdj_maisAdj]
      · by_cases hij : j = i
        · subst hij
          have h1 : n ≠ j := fun h => hin h.symm
          simp only [h1, if_false, if_true, hin, hjn, List.mem_cons, true_or, Option.map_map]
          congr 1
          funext v
          simp [maisAdj_maisAdj]
        · have h1 : n ≠ i := fun h => hin h.symm
          have h2 : i ≠ j := fun h => hij h.symm
          simp only [hij, h1, hin, if_false, List.mem_cons, h2, false_or]

theorem adjacentesDe_snoc (dist : ℚ × ℚ → ℚ × ℚ → ℚ) (pts : List (ℚ × ℚ)) (p : ℚ × ℚ) (i : Nat)
    (hi : i < pts.length) :
    adjacentesDe dist (pts ++ [p]) i =
      adjacentesDe dist pts i ++ [(dist p (pts.getD i (0, 0)), pts.length)] := by
  unfold adjacentesDe
  simp only [List.length_append, List.length_singleton, List.range_succ, List.filter_append,
    List.map_append]
  congr 1
  · apply List.map_congr_left
    intro j hj
    have hj' : j < pts.length := List.mem_range.1 (List.mem_filter.1 hj).1
    rw [pesoPar_snoc dist pts p i j hi hj']
  · have : pts.length ≠ i := by omega
    simp [this, pesoPar_comm dist (pts ++ [p]) i pts.length, pesoPar_novo dist pts p i hi]

theorem adjacentesDe_novo (dist : ℚ × ℚ → ℚ × ℚ → ℚ) (pts : List (ℚ × ℚ)) (p : ℚ × ℚ) :
    adjacentesDe dist (pts ++ [p]) pts.length =
      (List.range pts.length).map (fun j => (dist p (pts.getD j (0, 0)), j)) := by
  unfold adjacentesDe
  simp only [List.length_append, List.length_singleton, List.range_succ, List.filter_append,
    List.map_append]
  have h1 : (List.range pts.length).filter (fun j => decide (j ≠ pts.length)) =
      List.range pts.length := by
    apply List.filter_eq_self.2
    intro j hj
    have := List.mem_range.1 hj
    simp; omega
  rw [h1]
  simp only [ne_eq, not_true_eq_false, decide_False, List.filter_cons_of_neg, Bool.false_eq_true,
    not_false_eq_true, List.filter_nil, List.map_nil, List.append_nil]
  apply List.map_congr_left
  intro j hj
  rw [pesoPar_novo dist pts p j (List.mem_range.1 hj)]

/-- The graph main builds in Prim mode. -/
theorem construir_prim (dist : ℚ × ℚ → ℚ × ℚ → ℚ) (pts : List (ℚ × ℚ)) :
    construir dist false pts =
      Grafo.mk ((List.range pts.length).map (verticeDe dist pts)) [] [] [] false := by
  induction pts using List.reverseRecOn with
  | nil => rfl
  | append_singleton pts p ih =>
    rw [construir_snoc, ih]
    simp only [Grafo.adicionarVertice, List.length_append, List.length_map, List.length_singleton,
      Nat.add_sub_cancel, List.length_range]
    obtain ⟨ws, hws, hget⟩ := laco_prim dist p.1 p.2 pts.length (List.range pts.length)
      (fun j hj => List.mem_range.1 hj) (List.nodup_range _)
      ((List.range pts.length).map (verticeDe dist pts) ++ [{ coordX := p.1, coordY := p.2 }])
      (by simp) [] [] []
    rw [hws]
    congr 1
    apply List.ext_getElem?
    intro i
    rw [hget i]
    have hcoord : ∀ j, j < pts.length →
        coordDe ((List.range pts.length).map (verticeDe dist pts) ++
          [{ coordX := p.1, coordY := p.2 }]) j = pts.getD j (0, 0) := by
      intro j hj
      unfold coordDe
      rw [List.getElem?_append_left (by simpa using hj)]
      simp [List.getElem?_range hj, verticeDe]
    rcases Nat.lt_trichotomy i pts.length with hi | hi | hi
    · have hne : i ≠ pts.length := by omega
      have hi2 : i < pts.length + 1 := by omega
      rw [List.getElem?_append_left (by simpa using hi)]
      simp only [List.getElem?_map, List.getElem?_range hi, List.getElem?_range hi2, Option.map_some',
        hne, if_false, List.mem_range, hi, if_true, hcoord i hi]
      simp only [verticeDe, maisAdj, adjacentesDe_snoc dist pts p i hi, List.getD_eq_getElem?_getD,
        List.getElem?_append_left hi]
    · subst hi
      rw [List.getElem?_append_right (by simp)]
      simp only [List.length_map, List.length_range, Nat.sub_self, List.getElem?_cons_zero,
        Option.map_some', if_true, List.getElem?_map, List.getElem?_range (Nat.lt_succ_self _)]
      rw [List.map_congr_left (fun j hj => by rw [hcoord j (List.mem_range.1 hj)])]
      simp [verticeDe, maisAdj, adjacentesDe_novo, List.getD_eq_getElem?_getD]
    · rw [List.getElem?_eq_none (by simp; omega), List.getElem?_eq_none (by simp; omega)]
      rfl

end KruskalPrim

namespace KruskalPrim

/-! ## The union-find -/

namespace UnionFind

theorem subir_fuel (pai : List Nat) (hv : ∀ (i p : Nat), pai[i]? = some p → p ≤ i) :
    ∀ x f1 f2, x < f1 → x < f2 → subir pai f1 x = subir pai f2 x := by
  intro x
  induction x using Nat.strong_induction_on with
  | _ x ih =>
    intro f1 f2 h1 h2
    obtain ⟨g1, rfl⟩ : ∃ g, f1 = g + 1 := ⟨f1 - 1, by omega⟩
    obtain ⟨g2, rfl⟩ : ∃ g, f2 = g + 1 := ⟨f2 - 1, by omega⟩
    simp only [subir]
    cases hp : pai[x]? with
    | none => rfl
    | some p =>
      simp only
      by_cases hpx : p = x
      · simp [hpx]
      · simp only [hpx, if_false]
        have : p ≤ x := hv x p hp
        exact ih p (by omega) g1 g2 (by omega) (by omega)

/-- The recursive equation of find. -/
theorem find_eq (u : UnionFind) (hv : u.Valido) (x p : Nat) (hp : u.pai[x]? = some p) :
    u.find x = if p = x then x else u.find p := by
  have hx : x < u.pai.length := (List.getElem?_eq_some.1 hp).1
  unfold find
  obtain ⟨g, hg⟩ : ∃ g, u.pai.length = g + 1 := ⟨u.pai.length - 1, by omega⟩
  rw [hg]
  simp only [subir, hp]
  split
  · rfl
  · next hpx =>
    have : p ≤ x := hv x p hp
    exact subir_fuel u.pai hv p g (g + 1) (by omega) (by omega)

theorem find_fora (u : UnionFind) (x : Nat) (hx : u.pai.length ≤ x) : u.find x = x := by
  unfold find
  cases h : u.pai.length with
  | zero => rfl
  | succ g => simp [subir, List.getElem?_eq_none hx]

theorem find_le (u : UnionFind) (hv : u.Valido) : ∀ x, u.find x ≤ x := by
  intro x
  induction x using Nat.strong_induction_on with
  | _ x ih =>
    cases hp : u.pai[x]? with
    | none =>
      rw [find_fora u x (by
        by_contra hh
        rw [List.getElem?_eq_getElem (by omega)] at hp
        exact Option.noConfusion hp)]
    | some p =>
      rw [find_eq u hv x p hp]
      split
      · exact le_refl _
      · next hpx =>
        have : p ≤ x := hv x p hp
        exact le_trans (ih p (by omega)) this

/-- The result of find is a root. -/
theorem find_raiz (u : UnionFind) (hv : u.Valido) :
    ∀ x, x < u.pai.length → u.pai[u.find x]? = some (u.find x) := by
  intro x
  induction x using Nat.strong_induction_on with
  | _ x ih =>
    intro hx
    have hp : u.pai[x]? = some u.pai[x] := List.getElem?_eq_getElem hx
    rw [find_eq u hv x _ hp]
    split
    · next hpx => rw [hp, hpx]
    · next hpx =>
      have h1 : u.pai[x] ≤ x := hv x _ hp
      exact ih _ (by omega) (by omega)

theorem find_de_raiz (u : UnionFind) (hv : u.Valido) (r : Nat) (hr : u.pai[r]? = some r) :
    u.find r = r := by
  rw [find_eq u hv r r hr, if_pos rfl]

theorem find_find (u : UnionFind) (hv : u.Valido) (x : Nat) : u.find (u.find x) = u.find x := by
  by_cases hx : x < u.pai.length
  · exact find_de_raiz u hv _ (find_raiz u hv x hx)
  · rw [find_fora u x (by omega)]
    exact find_fora u x (by omega)

theorem find_lt (u : UnionFind) (hv : u.Valido) (x : Nat) (hx : x < u.pai.length) :
    u.find x < u.pai.length :=
  lt_of_le_of_lt (find_le u hv x) hx

theorem criar_valido (n : Nat) : (criar n).Valido := by
  intro i p hp
  simp only [criar] at hp
  have hi : i < n := by
    have := (List.getElem?_eq_some.1 hp).1
    simpa using this
  rw [List.getElem?_range hi] at hp
  cases hp
  exact le_refl _

theorem criar_length (n : Nat) : (criar n).pai.length = n := by
  simp [criar]

theorem criar_find (n x : Nat) : (criar n).find x = x := by
  by_cases hx : x < n
  · exact find_de_raiz _ (criar_valido n) x (by simp [criar, List.getElem?_range hx])
  · exact find_fora _ x (by simp [criar]; omega)

/-- Linking the root b below the root a, where a < b. -/
theorem find_ligar (u : UnionFind) (hv : u.Valido) (a b : Nat) (hab : a < b)
    (ha : u.pai[a]? = some a) (hb : u.pai[b]? = some b) :
    (UnionFind.mk (u.pai.set b a)).Valido ∧
    ∀ x, (UnionFind.mk (u.pai.set b a)).find x = if u.find x = b then a else u.find x := by
  have hv2 : (UnionFind.mk (u.pai.set b a)).Valido := by
    intro i p hp
    simp only at hp
    rw [List.getElem?_set] at hp
    split at hp
    · next hbi =>
      split at hp
      · cases hp; omega
      · cases hp
    · exact hv i p hp
  refine ⟨hv2, ?_⟩
  intro x
  induction x using Nat.strong_induction_on with
  | _ x ih =>
    by_cases hx : x < u.pai.length
    · have hp : u.pai[x]? = some u.pai[x] := List.getElem?_eq_getElem hx
      by_cases hxb : x = b
      · subst hxb
        have h1 : (UnionFind.mk (u.pai.set x a)).pai[x]? = some a := by
          simp [List.getElem?_set, hx]
        rw [find_eq _ hv2 x a h1, if_neg (by omega), find_de_raiz u hv x hb, if_pos rfl]
        have h2 : (UnionFind.mk (u.pai.set x a)).pai[a]? = some a := by
          simp only [List.getElem?_set]
          rw [if_neg (by omega)]
          exact ha
        exact find_de_raiz _ hv2 a h2
      · have h1 : (UnionFind.mk (u.pai.set b a)).pai[x]? = some u.pai[x] := by
          simp only [List.getElem?_set]
          rw [if_neg (fun h => hxb h.symm)]
          exact hp
        rw [find_eq _ hv2 x _ h1, find_eq u hv x _ hp]
        split
        · next hpx =>
          rfl
        · next hpx =>
          have : u.pai[x] ≤ x := hv x _ hp
          exact ih _ (by omega)
    · have h1 : (UnionFind.mk (u.pai.set b a)).pai.length ≤ x := by simp; omega
      rw [find_fora _ x h1, find_fora u x (by omega)]
      have hb' : b < u.pai.length := (List.getElem?_eq_some.1 hb).1
      rw [if_neg (by omega)]

theorem Union_length (u : UnionFind) (a b : Nat) : (u.Union a b).pai.length = u.pai.length := by
  unfold Union
  simp only
  split_ifs <;> simp

/-- The effect of Union on find. -/
theorem Union_spec (u : UnionFind) (hv : u.Valido) (a b : Nat) (ha : a < u.pai.length)
    (hb : b < u.pai.length) :
    (u.Union a b).Valido ∧
    ∀ x y, (u.Union a b).find x = (u.Union a b).find y ↔
      (u.find x = u.find y ∨ (u.find x = u.find a ∧ u.find b = u.find y) ∨
        (u.find x = u.find b ∧ u.find a = u.find y)) := by
  have hra := find_raiz u hv a ha
  have hrb := find_raiz u hv b hb
  unfold Union
  simp only
  by_cases h1 : u.find a = u.find b
  · rw [if_pos h1]
    refine ⟨hv, ?_⟩
    intro x y
    constructor
    · intro h; exact Or.inl h
    · rintro (h | ⟨h2, h3⟩ | ⟨h2, h3⟩)
      · exact h
      · rw [h2, h1, h3]
      · rw [h2, ← h1, h3]
  · rw [if_neg h1]
    by_cases h2 : u.find a < u.find b
    · rw [if_pos h2]
      obtain ⟨hv2, hf⟩ := find_ligar u hv _ _ h2 hra hrb
      refine ⟨hv2, ?_⟩
      intro x y
      rw [hf x, hf y]
      generalize u.find x = p
      generalize u.find y = q
      generalize u.find a = c at *
      generalize u.find b = d at *
      split_ifs <;> omega
    · rw [if_neg h2]
      have h3 : u.find b < u.find a := by omega
      obtain ⟨hv2, hf⟩ := find_ligar u hv _ _ h3 hrb hra
      refine ⟨hv2, ?_⟩
      intro x y
      rw [hf x, hf y]
      generalize u.find x = p
      generalize u.find y = q
      generalize u.find a = c at *
      generalize u.find b = d at *
      split_ifs <;> omega

end UnionFind

/-! ## The scan loop of executarKruskal -/

theorem getElem?_foldl_alterar {α : Type} (F : Nat → α → α) (js : List Nat) (hnd : js.Nodup)
    (vs : List α) (k : Nat) :
    (js.foldl (fun vs i => alterar vs i (F i)) vs)[k]? =
      if k ∈ js then vs[k]?.map (F k) else vs[k]? := by
  induction js generalizing vs with
  | nil => simp
  | cons j js ih =>
    rw [List.foldl_cons, ih (List.nodup_cons.1 hnd).2, getElem?_alterar]
    have hj : j ∉ js := (List.nodup_cons.1 hnd).1
    by_cases hjk : j = k
    · subst hjk
      simp [hj]
    · have : k ≠ j := fun h => hjk h.symm
      simp [hjk, this]

/-- The groups written by executarKruskal are the roots of the final union-find. -/
theorem grupos_executarKruskal (g : Grafo) (numGrupos : Int) :
    grupos (executarKruskal g numGrupos) =
      (List.range g.size).map
        (fun i => (kruskalLaco numGrupos (ordenarArestas g.arestas) (UnionFind.criar g.size)
          (g.size : Int)).1.find i) := by
  unfold grupos executarKruskal
  simp only [Grafo.size]
  apply List.ext_getElem?
  intro k
  rw [List.getElem?_map, getElem?_foldl_alterar _ _ (List.nodup_range _)]
  by_cases hk : k < g.vertices.length
  · simp [hk, List.getElem?_range hk, List.getElem?_eq_getElem hk]
  · have hk' : g.vertices.length ≤ k := by omega
    rw [List.getElem?_eq_none (l := List.map _ _) (by simpa using hk')]
    simp [hk, List.getElem?_eq_none hk']

end KruskalPrim

namespace KruskalPrim

/-! ## executarKruskal -/

theorem card_image_le_of_nucleo (s : Finset Nat) (f g : Nat → Nat)
    (h : ∀ x ∈ s, ∀ y ∈ s, f x = f y → g x = g y) : (s.image g).card ≤ (s.image f).card := by
  induction s using Finset.induction_on with
  | empty => simp
  | insert ha ih =>
    rename_i a s
    have ih' := ih (fun x hx y hy => h x (Finset.mem_insert_of_mem hx) y (Finset.mem_insert_of_mem hy))
    rw [Finset.image_insert, Finset.image_insert]
    by_cases hg : g a ∈ s.image g
    · rw [Finset.insert_eq_of_mem hg]
      exact le_trans ih' (Finset.card_le_card (Finset.subset_insert _ _))
    · have hf : f a ∉ s.image f := by
        intro hfa
        obtain ⟨y, hy, hfy⟩ := Finset.mem_image.1 hfa
        exact hg (Finset.mem_image.2 ⟨y, hy,
          h y (Finset.mem_insert_of_mem hy) a (Finset.mem_insert_self _ _) hfy⟩)
      rw [Finset.card_insert_of_not_mem hg, Finset.card_insert_of_not_mem hf]
      omega

theorem card_image_eq_of_nucleo (s : Finset Nat) (f g : Nat → Nat)
    (h : ∀ x ∈ s, ∀ y ∈ s, (f x = f y ↔ g x = g y)) : (s.image f).card = (s.image g).card :=
  le_antisymm (card_image_le_of_nucleo s g f (fun x hx y hy => (h x hx y hy).2))
    (card_image_le_of_nucleo s f g (fun x hx y hy => (h x hx y hy).1))

theorem mem_completo (dist : ℚ × ℚ → ℚ × ℚ → ℚ) (pts : List (ℚ × ℚ)) (a : Aresta) :
    a ∈ completo dist pts ↔
      a.destino < a.origem ∧ a.origem < pts.length ∧
        a.peso = pesoPar dist pts a.origem a.destino := by
  unfold completo
  simp only [List.mem_flatMap, List.mem_range, List.mem_map]
  constructor
  · rintro ⟨i, hi, j, hj, rfl⟩
    exact ⟨hj, hi, rfl⟩
  · rintro ⟨h1, h2, h3⟩
    refine ⟨a.origem, h2, a.destino, h1, ?_⟩
    cases a
    simp only at h3
    simp [h3]

theorem mem_ordenarArestas (as : List Aresta) (a : Aresta) :
    a ∈ ordenarArestas as ↔ a ∈ as :=
  (List.perm_insertionSort _ as).mem_iff

theorem ligados_nil (x y : Nat) : Ligados [] x y ↔ x = y := by
  rw [← rotulos_eq_iff]
  simp [rotulos]

end KruskalPrim

namespace KruskalPrim

/-! ## Thresholds and the minimax property -/

theorem mem_pares (as : List Aresta) (a b : Nat) :
    (a, b) ∈ pares as ↔ ∃ e ∈ as, e.origem = a ∧ e.destino = b := by
  unfold pares
  simp only [List.mem_map, Prod.mk.injEq]

theorem mem_ate (θ : ℚ) (as : List Aresta) (a b : Nat) :
    (a, b) ∈ ate θ as ↔ ∃ e ∈ as, e.peso ≤ θ ∧ e.origem = a ∧ e.destino = b := by
  unfold ate
  rw [mem_pares]
  constructor
  · rintro ⟨e, he, h1, h2⟩
    have := List.mem_filter.1 he
    exact ⟨e, this.1, by simpa using this.2, h1, h2⟩
  · rintro ⟨e, he, h0, h1, h2⟩
    exact ⟨e, List.mem_filter.2 ⟨he, by simpa using h0⟩, h1, h2⟩

theorem ate_mono {θ θ' : ℚ} (h : θ ≤ θ') (as : List Aresta) : ∀ e ∈ ate θ as, e ∈ ate θ' as := by
  intro e he
  obtain ⟨a, b⟩ := e
  obtain ⟨x, hx, h0, h1, h2⟩ := (mem_ate θ as a b).1 he
  exact (mem_ate θ' as a b).2 ⟨x, hx, le_trans h0 h, h1, h2⟩

/-- A path that leaves a set of vertices uses an edge that leaves it. -/
theorem aresta_de_corte {es : List (Nat × Nat)} (S : Nat → Prop) {u v : Nat}
    (huv : Ligados es u v) (hu : S u) (hv : ¬ S v) :
    ∃ a b, (a, b) ∈ es ∧ ((S a ∧ ¬ S b) ∨ (S b ∧ ¬ S a)) := by
  by_contra hcon
  have hall : ∀ a b, (a, b) ∈ es → (S a ↔ S b) := by
    intro a b hab
    by_contra hne
    apply hcon
    refine ⟨a, b, hab, ?_⟩
    by_cases ha : S a
    · left; exact ⟨ha, fun hb => hne ⟨fun _ => hb, fun _ => ha⟩⟩
    · right
      refine ⟨?_, ha⟩
      by_contra hb
      exact hne ⟨fun h => absurd h ha, fun h => absurd h hb⟩
  exact hv ((Ligados.fechado S hall huv).1 hu)

/-- One step of Prim keeps the minimax property: the tree path between two vertices of the
tree only uses edges as light as the lightest way to link them in the whole graph. -/
theorem minimax_passo (E F : List Aresta) (S : Nat → Prop) (f : Aresta) (hS : S f.origem)
    (hfE : ∀ θ, f.peso ≤ θ → Ligados (ate θ E) f.origem f.destino)
    (hmin : ∀ e ∈ E, (S e.origem ∧ ¬ S e.destino) ∨ (S e.destino ∧ ¬ S e.origem) →
      f.peso ≤ e.peso)
    (hI : ∀ θ x y, S x → S y → Ligados (ate θ E) x y → Ligados (ate θ F) x y) :
    ∀ θ x y, (S x ∨ x = f.destino) → (S y ∨ y = f.destino) → Ligados (ate θ E) x y →
      Ligados (ate θ (F ++ [f])) x y := by
  intro θ
  have hsub : ∀ x y, Ligados (ate θ F) x y → Ligados (ate θ (F ++ [f])) x y := by
    intro x y h
    apply Ligados.mono _ h
    intro e he
    obtain ⟨a, b⟩ := e
    obtain ⟨x, hx, h0, h1, h2⟩ := (mem_ate θ F a b).1 he
    exact (mem_ate θ _ a b).2 ⟨x, List.mem_append_left _ hx, h0, h1, h2⟩
  have hnovo : ∀ x, S x → Ligados (ate θ E) x f.destino →
      Ligados (ate θ (F ++ [f])) x f.destino := by
    intro x hx hlig
    by_cases hz : S f.destino
    · exact hsub _ _ (hI θ x f.destino hx hz hlig)
    · obtain ⟨a, b, hab, hcut⟩ := aresta_de_corte S hlig hx hz
      obtain ⟨e, he, h0, h1, h2⟩ := (mem_ate θ E a b).1 hab
      have hfe : f.peso ≤ e.peso := hmin e he (by rw [h1, h2]; exact hcut)
      have hfθ : f.peso ≤ θ := le_trans hfe h0
      have h3 : Ligados (ate θ E) x f.origem := hlig.trans (hfE θ hfθ).symm
      have h4 := hsub _ _ (hI θ x f.origem hx hS h3)
      have h5 : Ligados (ate θ (F ++ [f])) f.origem f.destino :=
        Ligados.aresta ((mem_ate θ _ _ _).2 ⟨f, by simp, hfθ, rfl, rfl⟩)
      exact h4.trans h5
  intro x y hx hy hlig
  rcases hx with hx | hx
  · rcases hy with hy | hy
    · exact hsub _ _ (hI θ x y hx hy hlig)
    · subst hy
      exact hnovo x hx hlig
  · rcases hy with hy | hy
    · subst hx
      exact (hnovo y hy hlig.symm).symm
    · subst hx; subst hy
      exact Ligados.refl _ _

end KruskalPrim

namespace KruskalPrim

/-! ## The Prim loop -/

theorem obter_ok {α : Type} {xs : List α} {i : Nat} {x : α} (h : xs[i]? = some x) :
    obter xs i = .ok x := by
  simp [obter, h]

theorem obter_erro {α : Type} {xs : List α} {i : Nat} (h : xs.length ≤ i) :
    obter xs i = .error .foraDosLimites := by
  simp [obter, List.getElem?_eq_none h]

theorem getElem?_set_some {α : Type} {xs : List α} {i j : Nat} {a y : α}
    (h : (xs.set i a)[j]? = some y) :
    (j = i ∧ y = a ∧ i < xs.length) ∨ (j ≠ i ∧ xs[j]? = some y) := by
  rw [List.getElem?_set] at h
  split at h
  · next hij =>
    split at h
    · next hlt =>
      left
      exact ⟨hij.symm, (Option.some.inj h).symm, hlt⟩
    · cases h
  · next hij =>
    right
    exact ⟨fun hh => hij hh.symm, h⟩

theorem relaxar_eq (v : Nat) (g : Grafo) (fila : FilaDePrioridade) (p : ℚ × Nat) (a : Vertice)
    (ha : g.vertices[p.2]? = some a) :
    relaxar v (g, fila) p =
      if a.naMst = false ∧ p.1 < a.peso then
        .ok ({ g with vertices := g.vertices.set p.2 { a with peso := p.1, pai := (v : Int) } },
          fila.push p)
      else .ok (g, fila) := by
  simp only [relaxar, obter_ok ha]
  simp only [bind, Except.bind, pure, Except.pure]
  by_cases h1 : a.naMst = false
  · by_cases h2 : p.1 < a.peso
    · simp [h1, h2]
    · simp [h1, h2]
  · simp [h1]

/-- Changing the tentative weight and parent of a vertex does not change the marks. -/
theorem emMST_set (g : Grafo) (i : Nat) (a a' : Vertice) (ha : g.vertices[i]? = some a)
    (hn : a'.naMst = a.naMst) (nos : List Aresta) (ord : List Nat) (x : Nat) :
    emMST { g with vertices := g.vertices.set i a', nosMST := nos, arestasMST := ord } x ↔
      emMST g x := by
  unfold emMST
  simp only
  have hi : i < g.vertices.length := (List.getElem?_eq_some.1 ha).1
  by_cases hx : x = i
  · subst hx
    rw [List.getElem?_set_self hi, ha]
    constructor
    · rintro ⟨v, hv, hm⟩
      cases hv
      exact ⟨a, rfl, by rw [← hn]; exact hm⟩
    · rintro ⟨v, hv, hm⟩
      cases hv
      exact ⟨a', rfl, by rw [hn]; exact hm⟩
  · rw [List.getElem?_set_ne (fun h => hx h.symm)]

theorem porVisitar_set (vs : List Vertice) (i : Nat) (a a' : Vertice) (ha : vs[i]? = some a)
    (hn : a'.naMst = a.naMst) (hadj : a'.adjacentes = a.adjacentes) :
    porVisitar (vs.set i a') = porVisitar vs := by
  unfold porVisitar
  rw [List.map_set]
  congr 1
  apply List.ext_getElem?
  intro k
  rw [List.getElem?_set]
  split
  · next hik =>
    subst hik
    obtain ⟨hi, hai⟩ := List.getElem?_eq_some.1 ha
    subst hai
    simp [hi, List.getElem?_map, hn, hadj]
  · rfl

/-- One turn of the loop over the adjacent vertices keeps the invariant. -/
theorem relaxar_passo (dist : ℚ × ℚ → ℚ × ℚ → ℚ) (pts : List (ℚ × ℚ)) (g : Grafo)
    (fila : FilaDePrioridade) (v : Nat) (p : ℚ × Nat) (P : Nat → Nat → Prop)
    (hb : PrimBase dist pts g fila) (hv : emMST g v) (hch : Chave dist pts g P)
    (hp1 : p.2 < pts.length) (hp3 : p.1 = pesoPar dist pts v p.2) :
    ∃ g' fila', relaxar v (g, fila) p = .ok (g', fila') ∧
      PrimBase dist pts g' fila' ∧
      Chave dist pts g' (fun u b => P u b ∨ (u = v ∧ b = p.2)) ∧
      fila'.pendentes.length ≤ fila.pendentes.length + 1 ∧
      (∀ i, emMST g' i ↔ emMST g i) ∧
      porVisitar g'.vertices = porVisitar g.vertices := by
  have hlt : p.2 < g.vertices.length := by rw [hb.hlen]; exact hp1
  have ha : g.vertices[p.2]? = some g.vertices[p.2] := List.getElem?_eq_getElem hlt
  generalize g.vertices[p.2] = a at ha
  rw [relaxar_eq v g fila p a ha]
  by_cases hc : a.naMst = false ∧ p.1 < a.peso
  · rw [if_pos hc]
    obtain ⟨hc1, hc2⟩ := hc
    have hem : ∀ i, emMST (Grafo.mk
        (g.vertices.set p.2 { a with peso := p.1, pai := (v : Int) }) g.arestas g.nosMST
          g.arestasMST g.kruskal) i ↔ emMST g i := by
      intro i
      exact emMST_set g p.2 a { a with peso := p.1, pai := (v : Int) } ha rfl g.nosMST
        g.arestasMST i
    refine ⟨_, _, rfl, ?_, ?_, ?_, hem, ?_⟩
    · constructor
      · simp only [List.length_set]; exact hb.hlen
      · intro i w hw
        rcases getElem?_set_some hw with ⟨h1, h2, _⟩ | ⟨_, h2⟩
        · subst h1; subst h2
          exact hb.hest _ a ha
        · exact hb.hest i w h2
      · exact hb.hord
      · intro e he
        obtain ⟨h1, h2, h3, h4, vd, h5, h6⟩ := hb.hnos e he
        refine ⟨(hem _).2 h1, (hem _).2 h2, h3, h4, vd, ?_, h6⟩
        simp only
        rw [List.getElem?_set_ne]
        · exact h5
        · intro hh
          obtain ⟨w, hw1, hw2⟩ := h2
          rw [← hh, ha] at hw1
          cases hw1
          rw [hc1] at hw2
          cases hw2
      · intro i w hw no
        rcases getElem?_set_some hw with ⟨h1, h2, _⟩ | ⟨_, h2⟩
        · subst h1; subst h2
          exact hb.hares _ a ha no
        · exact hb.hares i w h2 no
      · exact hb.hflor
      · intro x hx
        exact hb.hcon x ((hem x).1 hx)
      · intro θ x y hx hy
        exact hb.hmm θ x y ((hem x).1 hx) ((hem y).1 hy)
      · exact (hem 0).2 hb.h0
      · intro b vb hvb hnm
        rcases getElem?_set_some hvb with ⟨h1, h2, _⟩ | ⟨_, h2⟩
        · subst h1; subst h2
          right
          exact ⟨v, (hem v).2 hv, rfl, hp3⟩
        · rcases hb.hpai b vb h2 hnm with h3 | ⟨u, hu1, hu2, hu3⟩
          · exact Or.inl h3
          · exact Or.inr ⟨u, (hem u).2 hu1, hu2, hu3⟩
      · intro b vb hvb hnm hpos
        simp only [FilaDePrioridade.push, List.mem_append, List.mem_singleton]
        rcases getElem?_set_some hvb with ⟨h1, h2, _⟩ | ⟨_, h2⟩
        · subst h1; subst h2
          right; rfl
        · left; exact hb.hpend b vb h2 hnm hpos
      · intro q hq
        simp only [FilaDePrioridade.push, List.mem_append, List.mem_singleton] at hq
        by_cases hq2 : q.2 = p.2
        · refine ⟨{ a with peso := p.1, pai := (v : Int) }, ?_, Or.inr ⟨?_, ?_⟩⟩
          · simp only
            rw [hq2, List.getElem?_set_self hlt]
          · rcases hq with hq | hq
            · obtain ⟨vb, hvb, hor⟩ := hb.hfila q hq
              rw [hq2, ha] at hvb
              cases hvb
              rcases hor with hor | ⟨hor, _⟩
              · rw [hc1] at hor; cases hor
              · exact le_of_lt (lt_of_lt_of_le hc2 hor)
            · rw [hq]
          · simp only
            exact Int.ofNat_nonneg v
        · rcases hq with hq | hq
          · obtain ⟨vb, hvb, hor⟩ := hb.hfila q hq
            refine ⟨vb, ?_, hor⟩
            simp only
            rw [List.getElem?_set_ne (fun h => hq2 h.symm)]
            exact hvb
          · exact absurd (by rw [hq]) hq2
    · intro b vb hvb hnm u hu hP
      rcases getElem?_set_some hvb with ⟨h1, h2, _⟩ | ⟨h1, h2⟩
      · subst h1; subst h2
        simp only
        rcases hP with hP | ⟨hP1, _⟩
        · exact le_of_lt (lt_of_lt_of_le hc2 (hch _ a ha hc1 u ((hem u).1 hu) hP))
        · rw [hP1, hp3]
      · rcases hP with hP | ⟨_, hP2⟩
        · exact hch b vb h2 hnm u ((hem u).1 hu) hP
        · exact absurd hP2 h1
    · simp [FilaDePrioridade.push]
    · exact porVisitar_set g.vertices p.2 a { a with peso := p.1, pai := (v : Int) } ha rfl rfl
  · rw [if_neg hc]
    refine ⟨g, fila, rfl, hb, ?_, by omega, fun i => Iff.rfl, rfl⟩
    intro b vb hvb hnm u hu hP
    rcases hP with hP | ⟨hP1, hP2⟩
    · exact hch b vb hvb hnm u hu hP
    · subst hP1; subst hP2
      rw [ha] at hvb
      cases hvb
      rw [← hp3]
      by_contra hlt'
      exact hc ⟨hnm, lt_of_not_le hlt'⟩

end KruskalPrim

namespace KruskalPrim

theorem Chave.restringir {dist : ℚ × ℚ → ℚ × ℚ → ℚ} {pts : List (ℚ × ℚ)} {g : Grafo}
    {P Q : Nat → Nat → Prop} (h : Chave dist pts g P) (hPQ : ∀ u b, Q u b → P u b) :
    Chave dist pts g Q :=
  fun b vb hvb hnm u hu hQ => h b vb hvb hnm u hu (hPQ u b hQ)

/-- The loop over the adjacent vertices keeps the invariant. -/
theorem relaxar_laco (dist : ℚ × ℚ → ℚ × ℚ → ℚ) (pts : List (ℚ × ℚ)) (v : Nat)
    (adjs : List (ℚ × Nat))
    (hadj : ∀ p ∈ adjs, p.2 < pts.length ∧ p.1 = pesoPar dist pts v p.2) :
    ∀ (g : Grafo) (fila : FilaDePrioridade) (P : Nat → Nat → Prop),
      PrimBase dist pts g fila → emMST g v → Chave dist pts g P →
      ∃ g' fila', adjs.foldlM (relaxar v) (g, fila) = .ok (g', fila') ∧
        PrimBase dist pts g' fila' ∧
        Chave dist pts g' (fun u b => P u b ∨ (u = v ∧ b ∈ adjs.map (fun p => p.2))) ∧
        fila'.pendentes.length ≤ fila.pendentes.length + adjs.length ∧
        (∀ i, emMST g' i ↔ emMST g i) ∧
        porVisitar g'.vertices = porVisitar g.vertices := by
  induction adjs with
  | nil =>
    intro g fila P hb _ hch
    refine ⟨g, fila, rfl, hb, ?_, by simp, fun i => Iff.rfl, rfl⟩
    exact hch.restringir (by
      intro u b h
      rcases h with h | ⟨_, h⟩
      · exact h
      · simp at h)
  | cons p adjs ih =>
    intro g fila P hb hv hch
    obtain ⟨hp1, hp3⟩ := hadj p (List.mem_cons_self _ _)
    obtain ⟨g1, f1, h1, hb1, hch1, hl1, hem1, hpv1⟩ :=
      relaxar_passo dist pts g fila v p P hb hv hch hp1 hp3
    obtain ⟨g2, f2, h2, hb2, hch2, hl2, hem2, hpv2⟩ :=
      ih (fun q hq => hadj q (List.mem_cons_of_mem _ hq)) g1 f1 _ hb1 ((hem1 v).2 hv) hch1
    refine ⟨g2, f2, ?_, hb2, ?_, ?_, ?_, ?_⟩
    · rw [List.foldlM_cons, h1]
      exact h2
    · apply hch2.restringir
      intro u b h
      rcases h with h | ⟨h3, h4⟩
      · exact Or.inl (Or.inl h)
      · rcases List.mem_cons.1 h4 with h5 | h5
        · exact Or.inl (Or.inr ⟨h3, h5⟩)
        · exact Or.inr ⟨h3, h5⟩
    · simp only [List.length_cons]; omega
    · intro i; exact (hem2 i).trans (hem1 i)
    · rw [hpv2, hpv1]

/-! ### The priority queue -/

theorem minimo_spec (m : ℚ × Nat) (ps : List (ℚ × Nat)) :
    FilaDePrioridade.minimo m ps ∈ m :: ps ∧
      ∀ q ∈ m :: ps, (FilaDePrioridade.minimo m ps).1 ≤ q.1 := by
  induction ps generalizing m with
  | nil => simp [FilaDePrioridade.minimo]
  | cons p ps ih =>
    simp only [FilaDePrioridade.minimo]
    split
    · next hlt =>
      obtain ⟨h1, h2⟩ := ih p
      refine ⟨List.mem_cons_of_mem _ h1, ?_⟩
      intro q hq
      rcases List.mem_cons.1 hq with rfl | hq
      · exact le_trans (h2 p (List.mem_cons_self _ _)) (le_of_lt hlt)
      · exact h2 q hq
    · next hlt =>
      obtain ⟨h1, h2⟩ := ih m
      constructor
      · rcases List.mem_cons.1 h1 with h1 | h1
        · rw [h1]; exact List.mem_cons_self _ _
        · exact List.mem_cons_of_mem _ (List.mem_cons_of_mem _ h1)
      · intro q hq
        rcases List.mem_cons.1 hq with rfl | hq
        · exact h2 _ (List.mem_cons_self _ _)
        · rcases List.mem_cons.1 hq with rfl | hq
          · exact le_trans (h2 m (List.mem_cons_self _ _)) (not_lt.1 hlt)
          · exact h2 q (List.mem_cons_of_mem _ hq)

theorem top_spec (f : FilaDePrioridade) (par : ℚ × Nat) (h : f.top = some par) :
    par ∈ f.pendentes ∧ ∀ q ∈ f.pendentes, par.1 ≤ q.1 := by
  unfold FilaDePrioridade.top at h
  split at h
  · cases h
  · next p ps hps =>
    cases h
    rw [hps]
    exact minimo_spec p ps

theorem top_none (f : FilaDePrioridade) (h : f.top = none) : f.pendentes = [] := by
  unfold FilaDePrioridade.top at h
  split at h
  · next hps => exact hps
  · cases h

theorem pop_pendentes (f : FilaDePrioridade) (par : ℚ × Nat) (h : f.top = some par) :
    f.pop.pendentes = f.pendentes.erase par := by
  unfold FilaDePrioridade.pop
  rw [h]

theorem pop_length (f : FilaDePrioridade) (par : ℚ × Nat) (h : f.top = some par) :
    f.pop.pendentes.length + 1 = f.pendentes.length := by
  rw [pop_pendentes f par h, List.length_erase_of_mem (top_spec f par h).1]
  have : 0 < f.pendentes.length := List.length_pos_of_mem (top_spec f par h).1
  omega

theorem mem_pop (f : FilaDePrioridade) (par : ℚ × Nat) (h : f.top = some par) (q : ℚ × Nat)
    (hq : q ∈ f.pop.pendentes) : q ∈ f.pendentes := by
  rw [pop_pendentes f par h] at hq
  exact List.mem_of_mem_erase hq

theorem mem_pop_of_ne (f : FilaDePrioridade) (par : ℚ × Nat) (h : f.top = some par)
    (q : ℚ × Nat) (hq : q ∈ f.pendentes) (hne : q ≠ par) : q ∈ f.pop.pendentes := by
  rw [pop_pendentes f par h]
  exact (List.mem_erase_of_ne hne).2 hq

/-- The effect of adicionarArestaMST on two distinct vertices of the graph. -/
theorem adicionarArestaMST_eq (g : Grafo) (peso : ℚ) (a b : Nat) (va vb : Vertice)
    (ha : g.vertices[a]? = some va) (hb : g.vertices[b]? = some vb) (hab : a ≠ b) :
    g.adicionarArestaMST peso a b = .ok (Grafo.mk
      ((g.vertices.set a { va with arestas := va.arestas ++ [g.nosMST.length] }).set b
        { vb with arestas := vb.arestas ++ [g.nosMST.length] })
      g.arestas (g.nosMST ++ [Aresta.mk peso a b]) (g.arestasMST ++ [g.nosMST.length])
      g.kruskal) := by
  unfold Grafo.adicionarArestaMST
  simp only [obter_ok ha]
  have hb' : (g.vertices.set a { va with arestas := va.arestas ++ [g.nosMST.length] })[b]? =
      some vb := by
    rw [List.getElem?_set_ne hab]; exact hb
  simp only [bind, Except.bind, obter_ok hb', pure, Except.pure]

end KruskalPrim

namespace KruskalPrim

theorem mem_adjacentesDe (dist : ℚ × ℚ → ℚ × ℚ → ℚ) (pts : List (ℚ × ℚ)) (i : Nat) (p : ℚ × Nat) :
    p ∈ adjacentesDe dist pts i ↔ p.2 < pts.length ∧ p.2 ≠ i ∧ p.1 = pesoPar dist pts i p.2 := by
  unfold adjacentesDe
  simp only [List.mem_map, List.mem_filter, List.mem_range, decide_eq_true_eq]
  constructor
  · rintro ⟨j, ⟨h1, h2⟩, rfl⟩
    exact ⟨h1, h2, rfl⟩
  · rintro ⟨h1, h2, h3⟩
    refine ⟨p.2, ⟨h1, h2⟩, ?_⟩
    rw [← h3]

/-- The pair of end points of an edge of the complete graph, in either order. -/
theorem ligados_ate_completo (dist : ℚ × ℚ → ℚ × ℚ → ℚ) (pts : List (ℚ × ℚ)) (θ : ℚ) (a b : Nat)
    (ha : a < pts.length) (hb : b < pts.length) (hab : a ≠ b)
    (hw : pesoPar dist pts a b ≤ θ) : Ligados (ate θ (completo dist pts)) a b := by
  rcases Nat.lt_or_gt_of_ne hab with h | h
  · apply Ligados.symm
    apply Ligados.aresta
    rw [mem_ate]
    exact ⟨Aresta.mk (pesoPar dist pts b a) b a, (mem_completo dist pts _).2 ⟨h, hb, rfl⟩,
      by rw [pesoPar_comm]; exact hw, rfl, rfl⟩
  · apply Ligados.aresta
    rw [mem_ate]
    exact ⟨Aresta.mk (pesoPar dist pts a b) a b, (mem_completo dist pts _).2 ⟨h, ha, rfl⟩,
      hw, rfl, rfl⟩

theorem nao_emMST (g : Grafo) (b : Nat) (hb : b < g.vertices.length) (h : ¬ emMST g b) :
    ∃ vb, g.vertices[b]? = some vb ∧ vb.naMst = false := by
  refine ⟨g.vertices[b], List.getElem?_eq_getElem hb, ?_⟩
  cases hn : g.vertices[b].naMst with
  | false => rfl
  | true => exact absurd ⟨g.vertices[b], List.getElem?_eq_getElem hb, hn⟩ h

theorem emMST_lt (g : Grafo) (x : Nat) (h : emMST g x) : x < g.vertices.length := by
  obtain ⟨v, hv, _⟩ := h
  exact (List.getElem?_eq_some.1 hv).1

theorem porVisitar_marcar (vs : List Vertice) (i : Nat) (a a' : Vertice) (ha : vs[i]? = some a)
    (hn : a.naMst = false) (hn' : a'.naMst = true) :
    porVisitar (vs.set i a') + a.adjacentes.length = porVisitar vs := by
  unfold porVisitar
  induction vs generalizing i with
  | nil => simp at ha
  | cons x xs ih =>
    cases i with
    | zero =>
      simp only [List.getElem?_cons_zero, Option.some.injEq] at ha
      subst ha
      simp only [List.set, List.map_cons, List.sum_cons, hn, hn', if_true]
      simp only [Bool.false_eq_true, if_false]
      omega
    | succ k =>
      simp only [List.getElem?_cons_succ] at ha
      have := ih k ha
      simp only [List.set, List.map_cons, List.sum_cons]
      omega

end KruskalPrim

namespace KruskalPrim

/-- A vertex outside the MST has a tentative weight of at most pesoMax when the weights of
the graph are below pesoMax. -/
theorem teto_de_limite (dist : ℚ × ℚ → ℚ × ℚ → ℚ) (pts : List (ℚ × ℚ))
    (hmax : ∀ i j, i < pts.length → j < pts.length → i ≠ j → pesoPar dist pts i j < pesoMax)
    (g : Grafo) (fila : FilaDePrioridade) (hb : PrimBase dist pts g fila)
    (b : Nat) (vb : Vertice) (hvb : g.vertices[b]? = some vb) (hnm : vb.naMst = false) :
    vb.peso ≤ pesoMax := by
  rcases hb.hpai b vb hvb hnm with ⟨_, h⟩ | ⟨u, hu, _, h⟩
  · rw [h]
  · rw [h]
    have hbl : b < pts.length := by rw [← hb.hlen]; exact (List.getElem?_eq_some.1 hvb).1
    have hul : u < pts.length := by rw [← hb.hlen]; exact emMST_lt g u hu
    have hne : u ≠ b := by
      intro h'
      obtain ⟨w, hw, hwn⟩ := hu
      rw [h', hvb] at hw
      cases hw
      rw [hnm] at hwn
      cases hwn
    exact le_of_lt (hmax u b hul hbl hne)

/-- Adding the popped vertex and its parent edge to the MST keeps the invariant. -/
theorem marcar_base (dist : ℚ × ℚ → ℚ × ℚ → ℚ) (pts : List (ℚ × ℚ))
    (g : Grafo) (fila : FilaDePrioridade) (par : ℚ × Nat)
    (hb : PrimBase dist pts g fila) (hch : Chave dist pts g (fun _ _ => True))
    (htop : fila.top = some par) (vv : Vertice) (hvv : g.vertices[par.2]? = some vv)
    (hnm : vv.naMst = false) (hteto : vv.peso ≤ pesoMax) :
    ∃ (u : Nat) (vu : Vertice), vv.pai = (u : Int) ∧ g.vertices[u]? = some vu ∧ u ≠ par.2 ∧
      PrimBase dist pts (Grafo.mk
        ((g.vertices.set u { vu with arestas := vu.arestas ++ [g.nosMST.length] }).set par.2
          { vv with arestas := vv.arestas ++ [g.nosMST.length], naMst := true })
        g.arestas (g.nosMST ++ [Aresta.mk vv.peso u par.2])
        (g.arestasMST ++ [g.nosMST.length]) g.kruskal) fila.pop ∧
      Chave dist pts (Grafo.mk
        ((g.vertices.set u { vu with arestas := vu.arestas ++ [g.nosMST.length] }).set par.2
          { vv with arestas := vv.arestas ++ [g.nosMST.length], naMst := true })
        g.arestas (g.nosMST ++ [Aresta.mk vv.peso u par.2])
        (g.arestasMST ++ [g.nosMST.length]) g.kruskal) (fun u' _ => u' ≠ par.2) := by
  obtain ⟨hpar, hminq⟩ := top_spec fila par htop
  -- the popped vertex has a parent in the tree
  obtain ⟨vb, hvb, hor⟩ := hb.hfila par hpar
  rw [hvv] at hvb
  cases hvb
  have hle : vv.peso ≤ par.1 ∧ 0 ≤ vv.pai := by
    rcases hor with hor | hor
    · rw [hnm] at hor; cases hor
    · exact hor
  obtain ⟨u, hu, hpu, hwu⟩ : ∃ u : Nat, emMST g u ∧ vv.pai = (u : Int) ∧
      vv.peso = pesoPar dist pts u par.2 := by
    rcases hb.hpai par.2 vv hvv hnm with ⟨h1, _⟩ | h
    · have := hle.2
      rw [h1] at this
      exact absurd this (by decide)
    · exact h
  obtain ⟨vu, hvu, hvun⟩ := hu
  have huv : u ≠ par.2 := by
    intro h
    rw [h, hvv] at hvu
    cases hvu
    rw [hnm] at hvun
    cases hvun
  have hul : u < g.vertices.length := (List.getElem?_eq_some.1 hvu).1
  have hvl : par.2 < g.vertices.length := (List.getElem?_eq_some.1 hvv).1
  refine ⟨u, vu, hpu, hvu, huv, ?_⟩
  -- the vertices of the new graph
  have hcar : ∀ i w,
      ((g.vertices.set u { vu with arestas := vu.arestas ++ [g.nosMST.length] }).set par.2
        { vv with arestas := vv.arestas ++ [g.nosMST.length], naMst := true })[i]? = some w →
      (i = par.2 ∧ w = { vv with arestas := vv.arestas ++ [g.nosMST.length], naMst := true }) ∨
      (i = u ∧ i ≠ par.2 ∧ w = { vu with arestas := vu.arestas ++ [g.nosMST.length] }) ∨
      (i ≠ u ∧ i ≠ par.2 ∧ g.vertices[i]? = some w) := by
    intro i w hw
    rcases getElem?_set_some hw with ⟨h1, h2, _⟩ | ⟨h1, h2⟩
    · exact Or.inl ⟨h1, h2⟩
    · rcases getElem?_set_some h2 with ⟨h3, h4, _⟩ | ⟨h3, h4⟩
      · exact Or.inr (Or.inl ⟨h3, h1, h4⟩)
      · exact Or.inr (Or.inr ⟨h3, h1, h4⟩)
  have hnovoV : ((g.vertices.set u { vu with arestas := vu.arestas ++ [g.nosMST.length] }).set
      par.2 { vv with arestas := vv.arestas ++ [g.nosMST.length], naMst := true })[par.2]? =
      some { vv with arestas := vv.arestas ++ [g.nosMST.length], naMst := true } :=
    List.getElem?_set_self (by simp only [List.length_set]; exact hvl)
  have hnovoU : ((g.vertices.set u { vu with arestas := vu.arestas ++ [g.nosMST.length] }).set
      par.2 { vv with arestas := vv.arestas ++ [g.nosMST.length], naMst := true })[u]? =
      some { vu with arestas := vu.arestas ++ [g.nosMST.length] } := by
    rw [List.getElem?_set_ne (fun h => huv h.symm)]
    exact List.getElem?_set_self hul
  have houtro : ∀ i, i ≠ u → i ≠ par.2 →
      ((g.vertices.set u { vu with arestas := vu.arestas ++ [g.nosMST.length] }).set
        par.2 { vv with arestas := vv.arestas ++ [g.nosMST.length], naMst := true })[i]? =
      g.vertices[i]? := by
    intro i h1 h2
    rw [List.getElem?_set_ne (fun h => h2 h.symm), List.getElem?_set_ne (fun h => h1 h.symm)]
  have hem : ∀ x, emMST (Grafo.mk
        ((g.vertices.set u { vu with arestas := vu.arestas ++ [g.nosMST.length] }).set par.2
          { vv with arestas := vv.arestas ++ [g.nosMST.length], naMst := true })
        g.arestas (g.nosMST ++ [Aresta.mk vv.peso u par.2])
        (g.arestasMST ++ [g.nosMST.length]) g.kruskal) x ↔ (emMST g x ∨ x = par.2) := by
    intro x
    constructor
    · rintro ⟨w, hw, hwn⟩
      rcases hcar x w hw with ⟨h1, _⟩ | ⟨h1, _, _⟩ | ⟨_, _, h3⟩
      · exact Or.inr h1
      · left; rw [h1]; exact ⟨vu, hvu, hvun⟩
      · left; exact ⟨w, h3, hwn⟩
    · rintro (⟨w, hw, hwn⟩ | h)
      · by_cases hxv : x = par.2
        · rw [hxv]; exact ⟨_, hnovoV, rfl⟩
        · by_cases hxu : x = u
          · rw [hxu]; exact ⟨_, hnovoU, hvun⟩
          · exact ⟨w, by simp only; rw [houtro x hxu hxv]; exact hw, hwn⟩
      · rw [h]; exact ⟨_, hnovoV, rfl⟩
  have hforaV : ¬ emMST g par.2 := by
    rintro ⟨w, hw, hwn⟩
    rw [hvv] at hw
    cases hw
    rw [hnm] at hwn
    cases hwn
  have hSnos : ∀ a b, (a, b) ∈ pares g.nosMST → (emMST g a ∧ emMST g b) := by
    intro a b hab
    obtain ⟨e, he, h1, h2⟩ := (mem_pares _ a b).1 hab
    obtain ⟨h3, h4, _⟩ := hb.hnos e he
    rw [← h1, ← h2]
    exact ⟨h3, h4⟩
  -- the parent edge is a lightest edge leaving the tree
  have hcorte : ∀ a b, emMST g a → ¬ emMST g b → b < pts.length →
      vv.peso ≤ pesoPar dist pts a b := by
    intro a b ha hnb hbl
    obtain ⟨wb, hwb, hwbn⟩ := nao_emMST g b (by rw [hb.hlen]; exact hbl) hnb
    have hal : a < pts.length := by rw [← hb.hlen]; exact emMST_lt g a ha
    have hne : a ≠ b := fun h => hnb (h ▸ ha)
    have h1 : wb.peso ≤ pesoPar dist pts a b := hch b wb hwb hwbn a ha trivial
    rcases hb.hpai b wb hwb hwbn with ⟨_, h4⟩ | ⟨u', _, h4, _⟩
    · rw [h4] at h1; exact le_trans hteto h1
    · have h3 : 0 ≤ wb.pai := by rw [h4]; exact Int.ofNat_nonneg _
      have h4 := hminq _ (hb.hpend b wb hwb hwbn h3)
      exact le_trans hle.1 (le_trans h4 h1)
  constructor
  · constructor
    · simp only [List.length_set]; exact hb.hlen
    · intro i w hw
      rcases hcar i w hw with ⟨h1, h2⟩ | ⟨h1, _, h2⟩ | ⟨_, _, h3⟩
      · rw [h1, h2]; exact hb.hest _ vv hvv
      · rw [h1, h2]; exact hb.hest _ vu hvu
      · exact hb.hest i w h3
    · simp only [List.length_append, List.length_singleton]
      rw [List.range_succ, hb.hord]
    · intro e he
      simp only [List.mem_append, List.mem_singleton] at he
      rcases he with he | he
      · obtain ⟨h1, h2, h3, h4, vd, h5, h6⟩ := hb.hnos e he
        refine ⟨(hem _).2 (Or.inl h1), (hem _).2 (Or.inl h2), h3, h4, ?_⟩
        have hdv : e.destino ≠ par.2 := fun h => hforaV (h ▸ h2)
        by_cases hdu : e.destino = u
        · refine ⟨{ vu with arestas := vu.arestas ++ [g.nosMST.length] }, ?_, ?_⟩
          · rw [hdu]; exact hnovoU
          · rw [hdu, hvu] at h5
            cases h5
            exact h6
        · exact ⟨vd, by simp only; rw [houtro _ hdu hdv]; exact h5, h6⟩
      · subst he
        exact ⟨(hem _).2 (Or.inl ⟨vu, hvu, hvun⟩), (hem _).2 (Or.inr rfl), hwu, huv,
          _, hnovoV, hpu⟩
    · intro i w hw no
      have hnosNovo : ∀ a, (g.nosMST ++ [Aresta.mk vv.peso u par.2])[no]? = some a ↔
          (g.nosMST[no]? = some a ∨ (no = g.nosMST.length ∧ a = Aresta.mk vv.peso u par.2)) := by
        intro a
        by_cases hno : no < g.nosMST.length
        · rw [List.getElem?_append_left hno]
          constructor
          · intro h; exact Or.inl h
          · rintro (h | ⟨h, _⟩)
            · exact h
            · omega
        · rw [List.getElem?_append_right (by omega)]
          constructor
          · intro h
            right
            by_cases h0 : no - g.nosMST.length = 0
            · rw [h0] at h
              simp only [List.getElem?_cons_zero, Option.some.injEq] at h
              exact ⟨by omega, h.symm⟩
            · obtain ⟨k, hk⟩ : ∃ k, no - g.nosMST.length = k + 1 :=
                ⟨no - g.nosMST.length - 1, by omega⟩
              rw [hk] at h
              simp at h
          · rintro (h | ⟨h, h2⟩)
            · rw [List.getElem?_eq_none (by omega)] at h; cases h
            · rw [h, h2]; simp
      have hvelho : ∀ a, g.nosMST[no]? = some a → no ≠ g.nosMST.length := by
        intro a h
        have := (List.getElem?_eq_some.1 h).1
        omega
      rcases hcar i w hw with ⟨h1, h2⟩ | ⟨h1, h1', h2⟩ | ⟨h1, h1', h3⟩
      · subst h2
        simp only [List.mem_append, List.mem_singleton]
        rw [hb.hares _ vv hvv no, h1]
        constructor
        · rintro (⟨a, ha1, ha2⟩ | h)
          · exact ⟨a, (hnosNovo a).2 (Or.inl ha1), ha2⟩
          · exact ⟨_, (hnosNovo _).2 (Or.inr ⟨h, rfl⟩), Or.inr rfl⟩
        · rintro ⟨a, ha1, ha2⟩
          rcases (hnosNovo a).1 ha1 with h | ⟨h, _⟩
          · exact Or.inl ⟨a, h, ha2⟩
          · exact Or.inr h
      · subst h2
        simp only [List.mem_append, List.mem_singleton]
        rw [hb.hares _ vu hvu no, h1]
        constructor
        · rintro (⟨a, ha1, ha2⟩ | h)
          · exact ⟨a, (hnosNovo a).2 (Or.inl ha1), ha2⟩
          · exact ⟨_, (hnosNovo _).2 (Or.inr ⟨h, rfl⟩), Or.inl rfl⟩
        · rintro ⟨a, ha1, ha2⟩
          rcases (hnosNovo a).1 ha1 with h | ⟨h, _⟩
          · exact Or.inl ⟨a, h, ha2⟩
          · exact Or.inr h
      · rw [hb.hares i w h3 no]
        constructor
        · rintro ⟨a, ha1, ha2⟩
          exact ⟨a, (hnosNovo a).2 (Or.inl ha1), ha2⟩
        · rintro ⟨a, ha1, ha2⟩
          rcases (hnosNovo a).1 ha1 with h | ⟨_, h⟩
          · exact ⟨a, h, ha2⟩
          · subst h
            simp only at ha2
            rcases ha2 with ha2 | ha2
            · exact absurd ha2.symm h1
            · exact absurd ha2.symm h1'
    · have : (pares (g.nosMST ++ [Aresta.mk vv.peso u par.2])).reverse =
          (u, par.2) :: (pares g.nosMST).reverse := by
        simp [pares]
      simp only
      rw [this]
      refine ⟨?_, hb.hflor⟩
      intro hlig
      have hlig' : Ligados (pares g.nosMST) u par.2 := Ligados.mono (by simp) hlig
      have := Ligados.fechado (emMST g)
        (fun a b hab => ⟨fun _ => (hSnos a b hab).2, fun _ => (hSnos a b hab).1⟩) hlig'
      exact hforaV (this.1 ⟨vu, hvu, hvun⟩)
    · intro x hx
      have hsub : ∀ a b, Ligados (pares g.nosMST) a b →
          Ligados (pares (g.nosMST ++ [Aresta.mk vv.peso u par.2])) a b := by
        intro a b h
        refine Ligados.mono (fun e he => ?_) h
        obtain ⟨a', b'⟩ := e
        obtain ⟨x, hx, h1, h2⟩ := (mem_pares _ a' b').1 he
        exact (mem_pares _ a' b').2 ⟨x, List.mem_append_left _ hx, h1, h2⟩
      rcases (hem x).1 hx with h | h
      · exact hsub _ _ (hb.hcon x h)
      · rw [h]
        refine (hsub _ _ (hb.hcon u ⟨vu, hvu, hvun⟩)).trans (Ligados.aresta ?_)
        simp [pares]
    · intro θ x y hx hy hlig
      exact minimax_passo (completo dist pts) g.nosMST (emMST g) (Aresta.mk vv.peso u par.2)
        ⟨vu, hvu, hvun⟩
        (by
          intro θ' hθ
          simp only at hθ ⊢
          exact ligados_ate_completo dist pts θ' u par.2 (by rw [← hb.hlen]; exact hul)
            (by rw [← hb.hlen]; exact hvl) huv (by rw [← hwu]; exact hθ))
        (by
          intro e he hcut
          obtain ⟨h1, h2, h3⟩ := (mem_completo dist pts e).1 he
          simp only
          rw [h3]
          rcases hcut with ⟨ha, hnb⟩ | ⟨ha, hnb⟩
          · exact hcorte _ _ ha hnb (lt_trans h1 h2)
          · rw [pesoPar_comm]
            exact hcorte _ _ ha hnb h2)
        hb.hmm θ x y ((hem x).1 hx) ((hem y).1 hy) hlig
    · exact (hem 0).2 (Or.inl hb.h0)
    · intro b wb hwb hwbn
      rcases hcar b wb hwb with ⟨_, h2⟩ | ⟨_, _, h2⟩ | ⟨_, _, h3⟩
      · rw [h2] at hwbn; cases hwbn
      · rw [h2] at hwbn
        simp only at hwbn
        rw [hvun] at hwbn; cases hwbn
      · rcases hb.hpai b wb h3 hwbn with h | ⟨u', hu1, hu2, hu3⟩
        · exact Or.inl h
        · exact Or.inr ⟨u', (hem u').2 (Or.inl hu1), hu2, hu3⟩
    · intro b wb hwb hwbn hpos
      rcases hcar b wb hwb with ⟨_, h2⟩ | ⟨_, _, h2⟩ | ⟨_, h1', h3⟩
      · rw [h2] at hwbn; cases hwbn
      · rw [h2] at hwbn
        simp only at hwbn
        rw [hvun] at hwbn; cases hwbn
      · apply mem_pop_of_ne fila par htop _ (hb.hpend b wb h3 hwbn hpos)
        intro h
        apply h1'
        rw [← h]
    · intro q hq
      obtain ⟨wb, hwb, hor⟩ := hb.hfila q (mem_pop fila par htop q hq)
      by_cases hqv : q.2 = par.2
      · exact ⟨_, by rw [hqv]; exact hnovoV, Or.inl rfl⟩
      · by_cases hqu : q.2 = u
        · refine ⟨_, by rw [hqu]; exact hnovoU, ?_⟩
          rw [hqu, hvu] at hwb
          cases hwb
          exact hor
        · exact ⟨wb, by simp only; rw [houtro _ hqu hqv]; exact hwb, hor⟩
  · intro b wb hwb hwbn u' hu' hne
    rcases hcar b wb hwb with ⟨_, h2⟩ | ⟨_, _, h2⟩ | ⟨_, _, h3⟩
    · rw [h2] at hwbn; cases hwbn
    · rw [h2] at hwbn
      simp only at hwbn
      rw [hvun] at hwbn; cases hwbn
    · rcases (hem u').1 hu' with h | h
      · exact hch b wb h3 hwbn u' h trivial
      · exact absurd h hne

end KruskalPrim

namespace KruskalPrim

theorem primLaco_succ (fuel : Nat) (g : Grafo) (fila : FilaDePrioridade) :
    primLaco (fuel + 1) g fila =
    (match fila.top with
    | none => pure g
    | some par => do
      let vertice := par.2
      let fila1 := fila.pop
      let v ← obter g.vertices vertice
      if v.naMst then primLaco fuel g fila1
      else
        let g1 ← if v.pai ≥ 0 ∧ v.naMst = false then
                   g.adicionarArestaMST v.peso v.pai.toNat vertice
                 else pure g
        let v1 ← obter g1.vertices vertice
        let g2 := { g1 with vertices := g1.vertices.set vertice { v1 with naMst := true } }
        let s ← v1.adjacentes.foldlM (relaxar vertice) (g2, fila1)
        primLaco fuel s.1 s.2) := by
  rfl

/-- A stale pair is discarded. -/
theorem primLaco_velho (fuel : Nat) (g : Grafo) (fila : FilaDePrioridade) (par : ℚ × Nat)
    (htop : fila.top = some par) (vv : Vertice) (hvv : g.vertices[par.2]? = some vv)
    (hnm : vv.naMst = true) :
    primLaco (fuel + 1) g fila = primLaco fuel g fila.pop := by
  rw [primLaco_succ, htop]
  simp only [obter_ok hvv, bind, Except.bind, hnm, if_true]

/-- A fresh pair adds its vertex to the MST and relaxes its neighbours. -/
theorem primLaco_novo (fuel : Nat) (g : Grafo) (fila : FilaDePrioridade) (par : ℚ × Nat)
    (htop : fila.top = some par) (vv : Vertice) (hvv : g.vertices[par.2]? = some vv)
    (hnm : vv.naMst = false) (u : Nat) (hpu : vv.pai = (u : Int)) (vu : Vertice)
    (hvu : g.vertices[u]? = some vu) (huv : u ≠ par.2) (g' : Grafo) (fila' : FilaDePrioridade)
    (hfold : vv.adjacentes.foldlM (relaxar par.2) (Grafo.mk
        ((g.vertices.set u { vu with arestas := vu.arestas ++ [g.nosMST.length] }).set par.2
          { vv with arestas := vv.arestas ++ [g.nosMST.length], naMst := true })
        g.arestas (g.nosMST ++ [Aresta.mk vv.peso u par.2])
        (g.arestasMST ++ [g.nosMST.length]) g.kruskal, fila.pop) = .ok (g', fila')) :
    primLaco (fuel + 1) g fila = primLaco fuel g' fila' := by
  rw [primLaco_succ, htop]
  have hcond : vv.pai ≥ 0 ∧ vv.naMst = false := ⟨by rw [hpu]; exact Int.ofNat_nonneg _, hnm⟩
  have htn : vv.pai.toNat = u := by rw [hpu]; rfl
  have hul : u < g.vertices.length := (List.getElem?_eq_some.1 hvu).1
  have hvl : par.2 < g.vertices.length := (List.getElem?_eq_some.1 hvv).1
  have hv1 : ((g.vertices.set u { vu with arestas := vu.arestas ++ [g.nosMST.length] }).set par.2
      { vv with arestas := vv.arestas ++ [g.nosMST.length] })[par.2]? =
      some { vv with arestas := vv.arestas ++ [g.nosMST.length] } :=
    List.getElem?_set_self (by simp only [List.length_set]; exact hvl)
  have hnt : ¬ (vv.naMst = true) := by rw [hnm]; decide
  simp only [obter_ok hvv, bind, Except.bind]
  rw [if_neg hnt, if_pos hcond, htn, adicionarArestaMST_eq g vv.peso u par.2 vu vv hvu hvv huv]
  simp only [obter_ok hv1, List.set_set]
  rw [hfold]

end KruskalPrim

namespace KruskalPrim

theorem chave_completa (dist : ℚ × ℚ → ℚ × ℚ → ℚ) (pts : List (ℚ × ℚ)) (g : Grafo)
    (fila : FilaDePrioridade) (v : Nat) (hb : PrimBase dist pts g fila) (hv : emMST g v)
    (hch : Chave dist pts g
      (fun u b => u ≠ v ∨ (u = v ∧ b ∈ (adjacentesDe dist pts v).map (fun p => p.2)))) :
    Chave dist pts g (fun _ _ => True) := by
  intro b vb hvb hnm u hu _
  apply hch b vb hvb hnm u hu
  by_cases huv : u = v
  · right
    refine ⟨huv, ?_⟩
    have hbl : b < pts.length := by
      rw [← hb.hlen]; exact (List.getElem?_eq_some.1 hvb).1
    have hbv : b ≠ v := by
      intro h
      obtain ⟨w, hw, hwn⟩ := hv
      rw [← h, hvb] at hw
      cases hw
      rw [hnm] at hwn
      cases hwn
    exact List.mem_map.2 ⟨(pesoPar dist pts v b, b),
      (mem_adjacentesDe dist pts v _).2 ⟨hbl, hbv, rfl⟩, rfl⟩
  · exact Or.inl huv

/-- One turn of the Prim loop keeps the invariant and decreases the measure. -/
theorem primLaco_passo (dist : ℚ × ℚ → ℚ × ℚ → ℚ) (pts : List (ℚ × ℚ))
    (hmax : ∀ i j, i < pts.length → j < pts.length → i ≠ j → pesoPar dist pts i j < pesoMax)
    (g : Grafo) (fila : FilaDePrioridade) (par : ℚ × Nat)
    (hb : PrimBase dist pts g fila) (hch : Chave dist pts g (fun _ _ => True))
    (htop : fila.top = some par) :
    ∃ g' fila', (∀ fuel, primLaco (fuel + 1) g fila = primLaco fuel g' fila') ∧
      PrimBase dist pts g' fila' ∧ Chave dist pts g' (fun _ _ => True) ∧
      medida g' fila' < medida g fila := by
  obtain ⟨hpar, _⟩ := top_spec fila par htop
  obtain ⟨vv, hvv, _⟩ := hb.hfila par hpar
  have hpl := pop_length fila par htop
  cases hnm : vv.naMst with
  | true =>
    refine ⟨g, fila.pop, fun fuel => primLaco_velho fuel g fila par htop vv hvv hnm, ?_, hch, ?_⟩
    · refine ⟨hb.hlen, hb.hest, hb.hord, hb.hnos, hb.hares, hb.hflor, hb.hcon, hb.hmm, hb.h0,
        hb.hpai, ?_, ?_⟩
      · intro b vb hvb hvbn hpos
        apply mem_pop_of_ne fila par htop _ (hb.hpend b vb hvb hvbn hpos)
        intro h
        have h2 : b = par.2 := by rw [← h]
        rw [h2, hvv] at hvb
        cases hvb
        rw [hnm] at hvbn
        cases hvbn
      · intro q hq
        exact hb.hfila q (mem_pop fila par htop q hq)
    · unfold medida
      omega
  | false =>
    obtain ⟨u, vu, hpu, hvu, huv, hb2, hch2⟩ :=
      marcar_base dist pts g fila par hb hch htop vv hvv hnm
        (teto_de_limite dist pts hmax g fila hb par.2 vv hvv hnm)
    have hadjv : vv.adjacentes = adjacentesDe dist pts par.2 := (hb.hest _ vv hvv).1
    have hvl : par.2 < g.vertices.length := (List.getElem?_eq_some.1 hvv).1
    have hemv : emMST (Grafo.mk
        ((g.vertices.set u { vu with arestas := vu.arestas ++ [g.nosMST.length] }).set par.2
          { vv with arestas := vv.arestas ++ [g.nosMST.length], naMst := true })
        g.arestas (g.nosMST ++ [Aresta.mk vv.peso u par.2])
        (g.arestasMST ++ [g.nosMST.length]) g.kruskal) par.2 :=
      ⟨_, List.getElem?_set_self (by simp only [List.length_set]; exact hvl), rfl⟩
    obtain ⟨g', fila', hfold, hb3, hch3, hl3, hem3, hpv3⟩ :=
      relaxar_laco dist pts par.2 vv.adjacentes
        (by
          intro p hp
          rw [hadjv] at hp
          obtain ⟨h1, _, h3⟩ := (mem_adjacentesDe dist pts par.2 p).1 hp
          exact ⟨h1, h3⟩)
        _ fila.pop _ hb2 hemv hch2
    refine ⟨g', fila', fun fuel => primLaco_novo fuel g fila par htop vv hvv hnm u hpu vu hvu huv
      g' fila' hfold, hb3, ?_, ?_⟩
    · apply chave_completa dist pts g' fila' par.2 hb3 ((hem3 _).2 hemv)
      rw [← hadjv]
      exact hch3
    · unfold medida
      rw [hpv3]
      simp only
      have h1 : (g.vertices.set u { vu with arestas := vu.arestas ++ [g.nosMST.length] })[par.2]? =
          some vv := by
        rw [List.getElem?_set_ne huv]; exact hvv
      have h2 := porVisitar_marcar
        (g.vertices.set u { vu with arestas := vu.arestas ++ [g.nosMST.length] }) par.2 vv
        { vv with arestas := vv.arestas ++ [g.nosMST.length], naMst := true } h1 hnm rfl
      have h3 := porVisitar_set g.vertices u vu
        { vu with arestas := vu.arestas ++ [g.nosMST.length] } hvu rfl rfl
      omega

/-- The Prim loop ends, with the queue empty and the invariant in force. -/
theorem primLaco_total (dist : ℚ × ℚ → ℚ × ℚ → ℚ) (pts : List (ℚ × ℚ))
    (hmax : ∀ i j, i < pts.length → j < pts.length → i ≠ j → pesoPar dist pts i j < pesoMax) :
    ∀ (fuel : Nat) (g : Grafo) (fila : FilaDePrioridade), PrimBase dist pts g fila →
      Chave dist pts g (fun _ _ => True) → medida g fila < fuel →
      ∃ g', primLaco fuel g fila = .ok g' ∧ PrimBase dist pts g' (FilaDePrioridade.mk []) ∧
        Chave dist pts g' (fun _ _ => True) := by
  intro fuel
  induction fuel with
  | zero => intro g fila _ _ h; omega
  | succ fuel ih =>
    intro g fila hb hch hm
    cases htop : fila.top with
    | none =>
      have hvazia : fila = FilaDePrioridade.mk [] := by
        cases fila
        simp only [FilaDePrioridade.mk.injEq]
        exact top_none _ htop
      refine ⟨g, ?_, ?_, hch⟩
      · rw [primLaco_succ, htop]; rfl
      · rw [← hvazia]; exact hb
    | some par =>
      obtain ⟨g', fila', hstep, hb', hch', hm'⟩ := primLaco_passo dist pts hmax g fila par hb hch htop
      rw [hstep fuel]
      exact ih g' fila' hb' hch' (by omega)

/-- When the queue is empty every vertex is in the MST. -/
theorem todos_emMST (dist : ℚ × ℚ → ℚ × ℚ → ℚ) (pts : List (ℚ × ℚ))
    (hmax : ∀ i j, i < pts.length → j < pts.length → i ≠ j → pesoPar dist pts i j < pesoMax)
    (g : Grafo) (hb : PrimBase dist pts g (FilaDePrioridade.mk []))
    (hch : Chave dist pts g (fun _ _ => True)) (b : Nat) (hbl : b < pts.length) : emMST g b := by
  by_contra hnb
  obtain ⟨vb, hvb, hvbn⟩ := nao_emMST g b (by rw [hb.hlen]; exact hbl) hnb
  have hne : 0 ≠ b := fun h => hnb (h ▸ hb.h0)
  have h0l : 0 < pts.length := by omega
  have h1 : vb.peso ≤ pesoPar dist pts 0 b := hch b vb hvb hvbn 0 hb.h0 trivial
  have h2 : vb.peso < pesoMax := lt_of_le_of_lt h1 (hmax 0 b h0l hbl hne)
  have h3 : 0 ≤ vb.pai := by
    rcases hb.hpai b vb hvb hvbn with ⟨_, h4⟩ | ⟨u', _, h4, _⟩
    · rw [h4] at h2; exact absurd h2 (lt_irrefl _)
    · rw [h4]; exact Int.ofNat_nonneg _
  have := hb.hpend b vb hvb hvbn h3
  simp at this

end KruskalPrim

namespace KruskalPrim

/-- The first turn of the Prim loop: the seed vertex has no parent. -/
theorem primLaco_semente (fuel : Nat) (g : Grafo) (v0 : Vertice)
    (hv0 : g.vertices[0]? = some v0) (hnm : v0.naMst = false) (hpai : v0.pai = -1)
    (g' : Grafo) (fila' : FilaDePrioridade)
    (hfold : v0.adjacentes.foldlM (relaxar 0) (Grafo.mk
        (g.vertices.set 0 { v0 with naMst := true }) g.arestas g.nosMST g.arestasMST g.kruskal,
        FilaDePrioridade.mk []) = .ok (g', fila')) :
    primLaco (fuel + 1) g ((FilaDePrioridade.mk []).push (0, 0)) = primLaco fuel g' fila' := by
  have htop : ((FilaDePrioridade.mk []).push (0, 0)).top = some (0, 0) := rfl
  have hpop : ((FilaDePrioridade.mk []).push (0, 0)).pop = FilaDePrioridade.mk [] := by
    unfold FilaDePrioridade.pop
    rw [htop]
    simp [FilaDePrioridade.push]
  rw [primLaco_succ, htop]
  have hnt : ¬ (v0.naMst = true) := by rw [hnm]; decide
  have hcond : ¬ (v0.pai ≥ 0 ∧ v0.naMst = false) := by
    rw [hpai]; intro h; exact absurd h.1 (by decide)
  simp only [obter_ok hv0, bind, Except.bind, hpop]
  rw [if_neg hnt, if_neg hcond]
  simp only [pure, Except.pure, obter_ok hv0]
  rw [hfold]

theorem porVisitar_inicial (vs : List Vertice) (h : ∀ v ∈ vs, v.naMst = false) :
    porVisitar vs = (vs.map (fun v => v.adjacentes.length)).sum := by
  unfold porVisitar
  congr 1
  apply List.map_congr_left
  intro v hv
  rw [h v hv]
  rfl

theorem getElem?_vertices_construir (dist : ℚ × ℚ → ℚ × ℚ → ℚ) (pts : List (ℚ × ℚ)) (i : Nat)
    (hi : i < pts.length) :
    ((List.range pts.length).map (verticeDe dist pts))[i]? = some (verticeDe dist pts i) := by
  rw [List.getElem?_map, List.getElem?_range hi]
  rfl

/-- The state after the seed vertex is marked satisfies the invariant. -/
theorem base_semente (dist : ℚ × ℚ → ℚ × ℚ → ℚ) (pts : List (ℚ × ℚ)) (hn : 0 < pts.length)
    (v0 : Vertice) (hv0 : v0 = verticeDe dist pts 0) :
    PrimBase dist pts (Grafo.mk
      (((List.range pts.length).map (verticeDe dist pts)).set 0
        { v0 with peso := 0, naMst := true }) [] [] [] false)
      (FilaDePrioridade.mk []) ∧
    Chave dist pts (Grafo.mk
      (((List.range pts.length).map (verticeDe dist pts)).set 0
        { v0 with peso := 0, naMst := true }) [] [] [] false)
      (fun u _ => u ≠ 0) := by
  have hcar : ∀ i w, (((List.range pts.length).map (verticeDe dist pts)).set 0
        { v0 with peso := 0, naMst := true })[i]? = some w →
      (i = 0 ∧ w = { v0 with peso := 0, naMst := true }) ∨
      (i ≠ 0 ∧ i < pts.length ∧ w = verticeDe dist pts i) := by
    intro i w hw
    rcases getElem?_set_some hw with ⟨h1, h2, _⟩ | ⟨h1, h2⟩
    · exact Or.inl ⟨h1, h2⟩
    · right
      have hi : i < pts.length := by
        have := (List.getElem?_eq_some.1 h2).1
        simpa using this
      rw [getElem?_vertices_construir dist pts i hi] at h2
      exact ⟨h1, hi, (Option.some.inj h2).symm⟩
  have hem : ∀ x, emMST (Grafo.mk
      (((List.range pts.length).map (verticeDe dist pts)).set 0
        { v0 with peso := 0, naMst := true }) [] [] [] false) x → x = 0 := by
    rintro x ⟨w, hw, hwn⟩
    rcases hcar x w hw with ⟨h1, _⟩ | ⟨_, _, h2⟩
    · exact h1
    · rw [h2] at hwn
      simp [verticeDe] at hwn
  constructor
  · constructor
    · simp
    · intro i w hw
      rcases hcar i w hw with ⟨h1, h2⟩ | ⟨_, _, h2⟩
      · rw [h1, h2, hv0]; exact ⟨rfl, rfl⟩
      · rw [h2]; exact ⟨rfl, rfl⟩
    · rfl
    · intro a ha; simp at ha
    · intro i w hw no
      have : w.arestas = [] := by
        rcases hcar i w hw with ⟨_, h2⟩ | ⟨_, _, h2⟩
        · rw [h2, hv0]; rfl
        · rw [h2]; rfl
      rw [this]
      simp
    · trivial
    · intro x hx
      rw [hem x hx]; exact Ligados.refl _ _
    · intro θ x y hx hy _
      rw [hem x hx, hem y hy]; exact Ligados.refl _ _
    · exact ⟨_, List.getElem?_set_self (by simpa using hn), rfl⟩
    · intro b vb hvb hnm
      rcases hcar b vb hvb with ⟨_, h2⟩ | ⟨_, _, h2⟩
      · rw [h2] at hnm; cases hnm
      · left; rw [h2]; exact ⟨rfl, rfl⟩
    · intro b vb hvb hnm hpos
      rcases hcar b vb hvb with ⟨_, h2⟩ | ⟨_, _, h2⟩
      · rw [h2] at hnm; cases hnm
      · rw [h2] at hpos
        exact absurd hpos (by simp [verticeDe])
    · intro q hq; simp at hq
  · intro b vb _ _ u hu hne
    exact absurd (hem u hu) hne

/-- The first part of executarPrim completes on every graph built by main from at least one
point, and leaves the invariant of the Prim loop in force with the queue empty. -/
theorem primMST_spec (dist : ℚ × ℚ → ℚ × ℚ → ℚ) (pts : List (ℚ × ℚ)) (hn : 0 < pts.length)
    (hmax : ∀ i j, i < pts.length → j < pts.length → i ≠ j → pesoPar dist pts i j < pesoMax) :
    ∃ g, primMST (construir dist false pts) = .ok g ∧
      PrimBase dist pts g (FilaDePrioridade.mk []) ∧ Chave dist pts g (fun _ _ => True) := by
  rw [construir_prim]
  unfold primMST
  obtain ⟨v0, hv0def⟩ : ∃ v0, v0 = verticeDe dist pts 0 := ⟨_, rfl⟩
  have hv0 := getElem?_vertices_construir dist pts 0 hn
  rw [← hv0def] at hv0
  simp only [obter_ok hv0, bind, Except.bind]
  obtain ⟨hb2, hch2⟩ := base_semente dist pts hn v0 hv0def
  have hem0 : emMST (Grafo.mk
      (((List.range pts.length).map (verticeDe dist pts)).set 0
        { v0 with peso := 0, naMst := true }) [] [] [] false) 0 := hb2.h0
  have hadj0 : v0.adjacentes = adjacentesDe dist pts 0 := by rw [hv0def]; rfl
  obtain ⟨g', fila', hfold, hb3, hch3, hl3, hem3, hpv3⟩ :=
    relaxar_laco dist pts 0 v0.adjacentes
      (by
        intro p hp
        rw [hadj0] at hp
        obtain ⟨h1, _, h3⟩ := (mem_adjacentesDe dist pts 0 p).1 hp
        exact ⟨h1, h3⟩)
      _ (FilaDePrioridade.mk []) _ hb2 hem0 hch2
  have hch4 : Chave dist pts g' (fun _ _ => True) := by
    apply chave_completa dist pts g' fila' 0 hb3 ((hem3 0).2 hem0)
    rw [← hadj0]
    exact hch3
  have hl0 : 0 < ((List.range pts.length).map (verticeDe dist pts)).length := by simpa using hn
  have hv1 : (((List.range pts.length).map (verticeDe dist pts)).set 0
      { v0 with peso := 0 })[0]? = some { v0 with peso := 0 } :=
    List.getElem?_set_self hl0
  have hnm0 : v0.naMst = false := by rw [hv0def]; rfl
  have hpai0 : v0.pai = -1 := by rw [hv0def]; rfl
  have hfuel : combustivelPrim (Grafo.mk
      (((List.range pts.length).map (verticeDe dist pts)).set 0
        { v0 with peso := 0 }) [] [] [] false) =
      (1 + porVisitar ((List.range pts.length).map (verticeDe dist pts))) + 1 := by
    unfold combustivelPrim
    simp only
    rw [← porVisitar_inicial, porVisitar_set _ 0 v0 { v0 with peso := 0 } hv0 rfl rfl]
    · omega
    · intro v hv
      rcases List.mem_iff_getElem?.1 hv with ⟨i, hi⟩
      rcases getElem?_set_some hi with ⟨_, h2, _⟩ | ⟨_, h2⟩
      · rw [h2]; exact hnm0
      · have hil : i < pts.length := by
          have := (List.getElem?_eq_some.1 h2).1
          simpa using this
        rw [getElem?_vertices_construir dist pts i hil] at h2
        rw [← Option.some.inj h2]; rfl
  rw [hfuel, primLaco_semente _ _ { v0 with peso := 0 } hv1 hnm0 hpai0 g' fila' (by
    simp only [List.set_set]
    exact hfold)]
  apply primLaco_total dist pts hmax _ g' fila' hb3 hch4
  unfold medida
  rw [hpv3]
  simp only
  have h2 := porVisitar_marcar ((List.range pts.length).map (verticeDe dist pts)) 0
    v0 { v0 with peso := 0, naMst := true } hv0 hnm0 rfl
  simp only [List.length_nil, zero_add] at hl3
  omega

end KruskalPrim

namespace KruskalPrim

/-! ## The labelling of the groups -/

theorem Mesma.propria (g : Grafo) : Mesma g g :=
  ⟨rfl, rfl, rfl, rfl, rfl, fun _ v hv => ⟨v, hv, rfl⟩⟩

theorem Mesma.compor {g1 g2 g3 : Grafo} (h1 : Mesma g1 g2) (h2 : Mesma g2 g3) : Mesma g1 g3 := by
  obtain ⟨a1, a2, a3, a4, a5, a6⟩ := h1
  obtain ⟨b1, b2, b3, b4, b5, b6⟩ := h2
  refine ⟨b1.trans a1, b2.trans a2, b3.trans a3, b4.trans a4, b5.trans a5, ?_⟩
  intro i v hv
  obtain ⟨v', hv', e1⟩ := a6 i v hv
  obtain ⟨v'', hv'', e2⟩ := b6 i v' hv'
  refine ⟨v'', hv'', ?_⟩
  rw [e1, e2]

theorem Mesma.inv {g g' : Grafo} (h : Mesma g g') (i : Nat) (w : Vertice)
    (hw : g'.vertices[i]? = some w) :
    ∃ v, g.vertices[i]? = some v ∧ v = { w with grupo := v.grupo } := by
  have hi : i < g.vertices.length := by
    rw [← h.2.2.2.2.1]; exact (List.getElem?_eq_some.1 hw).1
  obtain ⟨v', hv', e⟩ := h.2.2.2.2.2 i _ (List.getElem?_eq_getElem hi)
  rw [hw] at hv'
  cases hv'
  exact ⟨_, List.getElem?_eq_getElem hi, e⟩

theorem Estrutura.mesma {n : Nat} {g g' : Grafo} (he : Estrutura n g) (h : Mesma g g') :
    Estrutura n g' := by
  refine ⟨h.2.2.2.2.1.trans he.hlen, ?_, ?_⟩
  · intro i w hw no
    obtain ⟨v, hv, e⟩ := h.inv i w hw
    have : v.arestas = w.arestas := by rw [e]
    rw [h.1, ← this]
    exact he.hares i v hv no
  · rw [h.1]; exact he.hlim

theorem vivas_mesma {g g' : Grafo} (h : Mesma g g') : vivas g' = vivas g := by
  unfold vivas; rw [h.1]

theorem Viz_mesma {g g' : Grafo} (h : Mesma g g') (x y : Nat) : Viz g' x y ↔ Viz g x y := by
  unfold Viz; rw [h.1]

theorem Viz.troca {g : Grafo} {x y : Nat} (h : Viz g x y) : Viz g y x := by
  obtain ⟨a, ha, hp, hor⟩ := h
  exact ⟨a, ha, hp, hor.symm.imp (fun h => ⟨h.2, h.1⟩) (fun h => ⟨h.2, h.1⟩)⟩

theorem mem_vivas (g : Grafo) (a b : Nat) :
    (a, b) ∈ vivas g ↔ ∃ e ∈ g.nosMST, e.peso ≥ 0 ∧ e.origem = a ∧ e.destino = b := by
  unfold vivas
  rw [mem_pares]
  constructor
  · rintro ⟨e, he, h1, h2⟩
    have := List.mem_filter.1 he
    exact ⟨e, this.1, by simpa using this.2, h1, h2⟩
  · rintro ⟨e, he, h0, h1, h2⟩
    exact ⟨e, List.mem_filter.2 ⟨he, by simpa using h0⟩, h1, h2⟩

theorem Viz.ligados {g : Grafo} {x y : Nat} (h : Viz g x y) : Ligados (vivas g) x y := by
  obtain ⟨a, ha, hp, ⟨h1, h2⟩ | ⟨h1, h2⟩⟩ := h
  · exact Ligados.aresta ((mem_vivas g x y).2 ⟨a, ha, hp, h1, h2⟩)
  · exact (Ligados.aresta ((mem_vivas g y x).2 ⟨a, ha, hp, h2, h1⟩)).symm

theorem viz_of_mem_vivas {g : Grafo} {a b : Nat} (h : (a, b) ∈ vivas g) : Viz g a b := by
  obtain ⟨e, he, hp, h1, h2⟩ := (mem_vivas g a b).1 h
  exact ⟨e, he, hp, Or.inl ⟨h1, h2⟩⟩

theorem grupoDe_eq {g : Grafo} {i : Nat} {v : Vertice} (h : g.vertices[i]? = some v) :
    grupoDe g i = v.grupo := by
  simp [grupoDe, h]

theorem grupoDe_fora {g : Grafo} {i : Nat} (h : g.vertices.length ≤ i) : grupoDe g i = 0 := by
  simp [grupoDe, List.getElem?_eq_none h]

theorem grupoDe_set (g : Grafo) (i : Nat) (v : Vertice) (hv : g.vertices[i]? = some v) (c x : Nat) :
    grupoDe (Grafo.mk (g.vertices.set i { v with grupo := c }) g.arestas g.nosMST g.arestasMST
      g.kruskal) x = if x = i then c else grupoDe g x := by
  have hi : i < g.vertices.length := (List.getElem?_eq_some.1 hv).1
  unfold grupoDe
  simp only
  split
  · next h => rw [h, List.getElem?_set_self hi]; rfl
  · next h => rw [List.getElem?_set_ne (fun hh => h hh.symm)]

theorem mesma_set (g : Grafo) (i : Nat) (v : Vertice) (hv : g.vertices[i]? = some v) (c : Nat) :
    Mesma g (Grafo.mk (g.vertices.set i { v with grupo := c }) g.arestas g.nosMST g.arestasMST
      g.kruskal) := by
  have hi : i < g.vertices.length := (List.getElem?_eq_some.1 hv).1
  refine ⟨rfl, rfl, rfl, rfl, by simp, ?_⟩
  intro j w hw
  by_cases hji : j = i
  · subst hji
    rw [hv] at hw
    cases hw
    exact ⟨_, List.getElem?_set_self hi, rfl⟩
  · exact ⟨w, by simp only; rw [List.getElem?_set_ne (fun h => hji h.symm)]; exact hw, rfl⟩

theorem semRotulo_le {g g' : Grafo} (hl : g'.vertices.length = g.vertices.length)
    (h : ∀ x, grupoDe g x ≠ 0 → grupoDe g' x ≠ 0) : (semRotulo g').card ≤ (semRotulo g).card := by
  apply Finset.card_le_card
  intro x hx
  simp only [semRotulo, Finset.mem_filter, Finset.mem_range] at hx ⊢
  refine ⟨by rw [← hl]; exact hx.1, ?_⟩
  by_contra hne
  exact h x hne hx.2

theorem semRotulo_lt {g g' : Grafo} (hl : g'.vertices.length = g.vertices.length)
    (h : ∀ x, grupoDe g x ≠ 0 → grupoDe g' x ≠ 0) (i : Nat) (hi : i < g.vertices.length)
    (h0 : grupoDe g i = 0) (h1 : grupoDe g' i ≠ 0) :
    (semRotulo g').card < (semRotulo g).card := by
  apply Finset.card_lt_card
  rw [Finset.ssubset_iff_of_subset]
  · refine ⟨i, ?_, ?_⟩
    · simp only [semRotulo, Finset.mem_filter, Finset.mem_range]
      exact ⟨hi, h0⟩
    · simp only [semRotulo, Finset.mem_filter, Finset.mem_range]
      intro hh
      exact h1 hh.2
  · intro x hx
    simp only [semRotulo, Finset.mem_filter, Finset.mem_range] at hx ⊢
    refine ⟨by rw [← hl]; exact hx.1, ?_⟩
    by_contra hne
    exact h x hne hx.2

theorem semRotulo_card_le (g : Grafo) : (semRotulo g).card ≤ g.vertices.length := by
  unfold semRotulo
  exact le_trans (Finset.card_filter_le _ _) (by simp)

theorem Inundou.nada (g : Grafo) (i c : Nat) : Inundou g g i c :=
  ⟨Mesma.propria g, fun _ _ => rfl, fun _ h0 h1 => absurd h0 h1, fun _ h0 h1 => absurd h0 h1⟩

/-- Two floods in sequence from neighbouring vertices make one flood. -/
theorem Inundou.juntar {g1 g2 g3 : Grafo} {i j c : Nat} (h1 : Inundou g1 g2 j c)
    (h2 : Inundou g2 g3 i c) (hij : Ligados (vivas g1) i j) : Inundou g1 g3 i c := by
  have hv : vivas g2 = vivas g1 := vivas_mesma h1.mesma
  refine ⟨h1.mesma.compor h2.mesma, ?_, ?_, ?_⟩
  · intro x hx
    have := h1.fica x hx
    rw [h2.fica x (by rw [this]; exact hx), this]
  · intro x hx0 hx3
    by_cases hx2 : grupoDe g2 x = 0
    · obtain ⟨e1, e2⟩ := h2.novo x hx2 hx3
      exact ⟨e1, by rw [hv] at e2; exact e2⟩
    · obtain ⟨e1, e2⟩ := h1.novo x hx0 hx2
      rw [h2.fica x hx2]
      exact ⟨e1, hij.trans e2⟩
  · intro x hx0 hx3 y hxy
    by_cases hx2 : grupoDe g2 x = 0
    · exact h2.fecho x hx2 hx3 y ((Viz_mesma h1.mesma x y).2 hxy)
    · have := h1.fecho x hx0 hx2 y hxy
      rw [h2.fica y this]
      exact this

end KruskalPrim

namespace KruskalPrim

theorem agruparPrim_succ (fuel : Nat) (g : Grafo) (indice grupo : Nat) :
    agruparPrim (fuel + 1) g indice grupo = (do
    let v ← obter g.vertices indice
    if v.grupo = 0 then
      let g1 := { g with vertices := g.vertices.set indice { v with grupo := grupo } }
      v.arestas.foldlM (agruparPasso (fun g2 i => agruparPrim fuel g2 i grupo) indice) g1
    else pure g) := by
  rfl

theorem agruparPasso_vivo (rec : Grafo → Nat → Except Erro Grafo) (i : Nat) (g : Grafo) (no : Nat)
    (a : Aresta) (ha : g.nosMST[no]? = some a) (hp : a.peso ≥ 0) :
    agruparPasso rec i g no = rec g (if a.origem = i then a.destino else a.origem) := by
  unfold agruparPasso
  simp only [obter_ok ha, bind, Except.bind]
  rw [if_pos hp]
  split <;> rfl

theorem agruparPasso_podado (rec : Grafo → Nat → Except Erro Grafo) (i : Nat) (g : Grafo)
    (no : Nat) (a : Aresta) (ha : g.nosMST[no]? = some a) (hp : ¬ a.peso ≥ 0) :
    agruparPasso rec i g no = .ok g := by
  unfold agruparPasso
  simp only [obter_ok ha, bind, Except.bind]
  rw [if_neg hp]
  rfl

/-- The loop of agruparPrim over the edges of vertex i, given that the recursive calls
behave. -/
theorem agruparLaco_spec (n c fuel : Nat)
    (IH : ∀ g i, Estrutura n g → i < n → (semRotulo g).card < fuel →
      ∃ g', agruparPrim fuel g i c = .ok g' ∧ Inundou g g' i c ∧ grupoDe g' i ≠ 0)
    (i : Nat) :
    ∀ (L : List Nat) (h : Grafo), Estrutura n h →
      (∀ no ∈ L, ∃ a, h.nosMST[no]? = some a ∧ (a.origem = i ∨ a.destino = i)) →
      (semRotulo h).card < fuel →
      ∃ h', L.foldlM (agruparPasso (fun g2 j => agruparPrim fuel g2 j c) i) h = .ok h' ∧
        Inundou h h' i c ∧
        (∀ no ∈ L, ∀ a, h.nosMST[no]? = some a → a.peso ≥ 0 →
          grupoDe h' (if a.origem = i then a.destino else a.origem) ≠ 0) := by
  intro L
  induction L with
  | nil =>
    intro h _ _ _
    exact ⟨h, rfl, Inundou.nada h i c, by simp⟩
  | cons no L ih =>
    intro h he hL hcard
    obtain ⟨a, ha, hor⟩ := hL no (List.mem_cons_self _ _)
    have hamem : a ∈ h.nosMST := List.mem_iff_getElem?.2 ⟨no, ha⟩
    rw [List.foldlM_cons]
    by_cases hp : a.peso ≥ 0
    · rw [agruparPasso_vivo _ i h no a ha hp]
      have hjn : (if a.origem = i then a.destino else a.origem) < n := by
        split
        · exact (he.hlim a hamem).2
        · exact (he.hlim a hamem).1
      obtain ⟨h1, hcall, hin1, hj1⟩ := IH h _ he hjn hcard
      have hviz : Viz h i (if a.origem = i then a.destino else a.origem) := by
        refine ⟨a, hamem, hp, ?_⟩
        by_cases ho : a.origem = i
        · rw [if_pos ho]; exact Or.inl ⟨ho, rfl⟩
        · rw [if_neg ho]
          rcases hor with hor | hor
          · exact absurd hor ho
          · exact Or.inr ⟨hor, rfl⟩
      have hcard1 : (semRotulo h1).card < fuel :=
        lt_of_le_of_lt (semRotulo_le hin1.mesma.2.2.2.2.1
          (fun x hx => by rw [hin1.fica x hx]; exact hx)) hcard
      obtain ⟨h', hrest, hin2, he2⟩ := ih h1 (he.mesma hin1.mesma)
        (by
          intro no' hno'
          rw [hin1.mesma.1]
          exact hL no' (List.mem_cons_of_mem _ hno'))
        hcard1
      refine ⟨h', ?_, hin1.juntar hin2 hviz.ligados, ?_⟩
      · simp only [hcall, bind, Except.bind]
        exact hrest
      · intro no' hno' a' ha' hp'
        rcases List.mem_cons.1 hno' with hh | hh
        · rw [hh, ha] at ha'
          cases ha'
          rw [hin2.fica _ hj1]
          exact hj1
        · exact he2 no' hh a' (by rw [hin1.mesma.1]; exact ha') hp'
    · rw [agruparPasso_podado _ i h no a ha hp]
      obtain ⟨h', hrest, hin2, he2⟩ := ih h he
        (fun no' hno' => hL no' (List.mem_cons_of_mem _ hno')) hcard
      refine ⟨h', ?_, hin2, ?_⟩
      · simp only [bind, Except.bind]
        exact hrest
      · intro no' hno' a' ha' hp'
        rcases List.mem_cons.1 hno' with hh | hh
        · rw [hh, ha] at ha'
          cases ha'
          exact absurd hp' hp
        · exact he2 no' hh a' ha' hp'

/-- A call of agruparPrim with enough fuel completes; it labels the start vertex, unless it
has a group already, and every unlabelled vertex it reaches. -/
theorem agruparPrim_spec (n c : Nat) (hc : c ≠ 0) :
    ∀ (fuel : Nat) (g : Grafo) (i : Nat), Estrutura n g → i < n → (semRotulo g).card < fuel →
      ∃ g', agruparPrim fuel g i c = .ok g' ∧ Inundou g g' i c ∧ grupoDe g' i ≠ 0 := by
  intro fuel
  induction fuel with
  | zero => intro g i _ _ h; omega
  | succ fuel ih =>
    intro g i he hi hcard
    have hil : i < g.vertices.length := by rw [he.hlen]; exact hi
    have hv : g.vertices[i]? = some g.vertices[i] := List.getElem?_eq_getElem hil
    generalize g.vertices[i] = v at hv
    rw [agruparPrim_succ]
    simp only [obter_ok hv, bind, Except.bind]
    by_cases hg0 : v.grupo = 0
    · rw [if_pos hg0]
      have hgi : grupoDe g i = 0 := by rw [grupoDe_eq hv]; exact hg0
      have hm1 := mesma_set g i v hv c
      have hgd := grupoDe_set g i v hv c
      have hcard1 : (semRotulo (Grafo.mk (g.vertices.set i { v with grupo := c }) g.arestas
          g.nosMST g.arestasMST g.kruskal)).card < fuel := by
        have := @semRotulo_lt g (Grafo.mk (g.vertices.set i { v with grupo := c })
          g.arestas g.nosMST g.arestasMST g.kruskal) (by simp)
          (by
            intro x hx
            rw [hgd x]
            split
            · exact hc
            · exact hx)
          i hil hgi (by rw [hgd i, if_pos rfl]; exact hc)
        omega
      obtain ⟨h', hloop, hin, hviz⟩ := agruparLaco_spec n c fuel ih i v.arestas _ (he.mesma hm1)
        (by
          intro no hno
          exact (he.hares i v hv no).1 hno)
        hcard1
      have hi1 : grupoDe (Grafo.mk (g.vertices.set i { v with grupo := c }) g.arestas
          g.nosMST g.arestasMST g.kruskal) i = c := by rw [hgd i, if_pos rfl]
      have hi' : grupoDe h' i = c := by
        rw [hin.fica i (by rw [hi1]; exact hc), hi1]
      refine ⟨h', hloop, ⟨hm1.compor hin.mesma, ?_, ?_, ?_⟩, by rw [hi']; exact hc⟩
      · intro x hx
        have hxi : x ≠ i := fun h => hx (h ▸ hgi)
        have h1 : grupoDe (Grafo.mk (g.vertices.set i { v with grupo := c }) g.arestas
            g.nosMST g.arestasMST g.kruskal) x = grupoDe g x := by rw [hgd x, if_neg hxi]
        rw [hin.fica x (by rw [h1]; exact hx), h1]
      · intro x hx0 hx'
        by_cases hxi : x = i
        · rw [hxi]; exact ⟨hi', Ligados.refl _ _⟩
        · have h1 : grupoDe (Grafo.mk (g.vertices.set i { v with grupo := c }) g.arestas
              g.nosMST g.arestasMST g.kruskal) x = 0 := by rw [hgd x, if_neg hxi]; exact hx0
          obtain ⟨e1, e2⟩ := hin.novo x h1 hx'
          exact ⟨e1, by rw [vivas_mesma hm1] at e2; exact e2⟩
      · intro x hx0 hx' y hxy
        by_cases hxi : x = i
        · rw [hxi] at hxy
          obtain ⟨a, ha, hp, hor⟩ := hxy
          obtain ⟨no, hno⟩ := List.mem_iff_getElem?.1 ha
          have hmem : no ∈ v.arestas :=
            (he.hares i v hv no).2 ⟨a, hno, hor.imp (fun h => h.1) (fun h => h.1)⟩
          have := hviz no hmem a hno hp
          rcases hor with ⟨h1, h2⟩ | ⟨h1, h2⟩
          · rw [if_pos h1, h2] at this; exact this
          · by_cases ho : a.origem = i
            · rw [if_pos ho, h1] at this
              rw [← h2, ho]; exact this
            · rw [if_neg ho, h2] at this; exact this
        · have h1 : grupoDe (Grafo.mk (g.vertices.set i { v with grupo := c }) g.arestas
              g.nosMST g.arestasMST g.kruskal) x = 0 := by rw [hgd x, if_neg hxi]; exact hx0
          exact hin.fecho x h1 hx' y ((Viz_mesma hm1 x y).2 hxy)
    · rw [if_neg hg0]
      exact ⟨g, rfl, Inundou.nada g i c, by rw [grupoDe_eq hv]; exact hg0⟩

end KruskalPrim

namespace KruskalPrim

theorem rotular_cons (fuel : Nat) (indice : Nat) (resto : List Nat) (g : Grafo) (grupo : Nat) :
    rotular fuel (indice :: resto) g grupo = (do
    let v ← obter g.vertices indice
    if v.grupo = 0 then
      let g1 ← agruparPrim fuel g indice (grupo + 1)
      rotular fuel resto g1 (grupo + 1)
    else rotular fuel resto g grupo) := by
  rfl

/-- One turn of the labelling loop keeps its invariant. -/
theorem rotular_passo (n fuel : Nat) (hfuel : n < fuel) (g0 g : Grafo) (he : Estrutura n g0)
    (pos c : Nat) (hpos : pos < n) (hr : Rotulado g0 g pos c) :
    ∃ g1 c1, (∀ resto, rotular fuel (pos :: resto) g c = rotular fuel resto g1 c1) ∧
      Rotulado g0 g1 (pos + 1) c1 := by
  have heg : Estrutura n g := he.mesma hr.mesma
  have hil : pos < g.vertices.length := by rw [heg.hlen]; exact hpos
  have hv : g.vertices[pos]? = some g.vertices[pos] := List.getElem?_eq_getElem hil
  generalize g.vertices[pos] = v at hv
  have hvg : vivas g = vivas g0 := vivas_mesma hr.mesma
  by_cases hg0 : v.grupo = 0
  · have hcard : (semRotulo g).card < fuel :=
      lt_of_le_of_lt (semRotulo_card_le g) (by rw [heg.hlen]; exact hfuel)
    obtain ⟨g1, hcall, hin, hpos1⟩ := agruparPrim_spec n (c + 1) (by omega) fuel g pos heg hpos hcard
    have hgp : grupoDe g pos = 0 := by rw [grupoDe_eq hv]; exact hg0
    refine ⟨g1, c + 1, ?_, ?_⟩
    · intro resto
      rw [rotular_cons]
      simp only [obter_ok hv, bind, Except.bind]
      rw [if_pos hg0, hcall]
    · have hvelho : ∀ x, grupoDe g x ≠ 0 → grupoDe g1 x = grupoDe g x := hin.fica
      have hnovo : ∀ x, grupoDe g x = 0 → grupoDe g1 x ≠ 0 →
          grupoDe g1 x = c + 1 ∧ Ligados (vivas g0) pos x := by
        intro x h0 h1
        obtain ⟨e1, e2⟩ := hin.novo x h0 h1
        exact ⟨e1, by rw [hvg] at e2; exact e2⟩
      refine ⟨hr.mesma.compor hin.mesma, ?_, ?_, ?_, ?_, ?_, ?_, ?_⟩
      · intro x hx y hxy
        by_cases hgx : grupoDe g x = 0
        · have hy1 : grupoDe g1 y ≠ 0 := hin.fecho x hgx hx y ((Viz_mesma hr.mesma x y).2 hxy)
          have hgy : grupoDe g y = 0 := by
            by_contra hgy
            have := hr.fechado y hgy x hxy.troca
            rw [hgx] at this
            exact hgy this.symm
          rw [(hnovo x hgx hx).1, (hnovo y hgy hy1).1]
        · have := hr.fechado x hgx y hxy
          rw [hvelho x hgx, hvelho y (by rw [this]; exact hgx), this]
      · intro x y hx hxy
        by_cases hgx : grupoDe g x = 0
        · obtain ⟨e1, e2⟩ := hnovo x hgx hx
          have hgy : grupoDe g y = 0 := by
            by_contra hgy
            have h1 := hvelho y hgy
            have h2 := hr.limite y
            rw [← hxy, e1] at h1
            omega
          obtain ⟨_, e4⟩ := hnovo y hgy (by rw [← hxy]; exact hx)
          exact e2.symm.trans e4
        · have h1 := hvelho x hgx
          have hgy : grupoDe g y ≠ 0 := by
            intro hgy
            obtain ⟨e3, _⟩ := hnovo y hgy (by rw [← hxy]; exact hx)
            have h2 := hr.limite x
            rw [← hxy, h1] at e3
            omega
          exact hr.ligado x y hgx (by rw [← h1, ← hvelho y hgy]; exact hxy)
      · intro x
        by_cases hgx : grupoDe g x = 0
        · by_cases hx1 : grupoDe g1 x = 0
          · omega
          · rw [(hnovo x hgx hx1).1]
        · rw [hvelho x hgx]
          have := hr.limite x
          omega
      · intro l hl1 hl2
        by_cases hlc : l ≤ c
        · obtain ⟨x, hx, hxl⟩ := hr.usado l hl1 hlc
          exact ⟨x, hx, by rw [hvelho x (by omega), hxl]⟩
        · refine ⟨pos, by rw [he.hlen]; exact hpos, ?_⟩
          rw [(hnovo pos hgp hpos1).1]
          omega
      · intro x hx
        by_cases hxp : x = pos
        · rw [hxp]; exact hpos1
        · have := hr.feitos x (by omega)
          rw [hvelho x this]; exact this
      · intro _
        by_cases hp0 : pos = 0
        · have hc0 := hr.inicio hp0
          rw [hp0] at hgp hpos1
          rw [(hin.novo 0 hgp (by rw [← hp0]; rw [hp0]; exact hpos1)).1, hc0]
        · have := hr.primeiro (by omega)
          rw [hvelho 0 (by rw [this]; decide), this]
      · intro h; omega
  · refine ⟨g, c, ?_, ?_⟩
    · intro resto
      rw [rotular_cons]
      simp only [obter_ok hv, bind, Except.bind]
      rw [if_neg hg0]
    · have hgp : grupoDe g pos ≠ 0 := by rw [grupoDe_eq hv]; exact hg0
      refine ⟨hr.mesma, hr.fechado, hr.ligado, hr.limite, hr.usado, ?_, ?_, ?_⟩
      · intro x hx
        by_cases hxp : x = pos
        · rw [hxp]; exact hgp
        · exact hr.feitos x (by omega)
      · intro _
        by_cases hp0 : pos = 0
        · have hc0 := hr.inicio hp0
          have := hr.limite pos
          omega
        · exact hr.primeiro (by omega)
      · intro h; omega

/-- The labelling loop completes and establishes its invariant for all vertices. -/
theorem rotular_spec (n fuel : Nat) (hfuel : n < fuel) (g0 : Grafo) (he : Estrutura n g0) :
    ∀ (m pos : Nat) (g : Grafo) (c : Nat), pos + m = n → Rotulado g0 g pos c →
      ∃ g' c', rotular fuel (List.range' pos m) g c = .ok (g', c') ∧ Rotulado g0 g' n c' := by
  intro m
  induction m with
  | zero =>
    intro pos g c hpm hr
    have : pos = n := by omega
    subst this
    exact ⟨g, c, rfl, hr⟩
  | succ m ih =>
    intro pos g c hpm hr
    obtain ⟨g1, c1, hstep, hr1⟩ := rotular_passo n fuel hfuel g0 g he pos c (by omega) hr
    obtain ⟨g', c', hrest, hr'⟩ := ih (pos + 1) g1 c1 (by omega) hr1
    refine ⟨g', c', ?_, hr'⟩
    rw [List.range'_succ, hstep]
    exact hrest

/-- The third part of executarPrim completes on a graph without groups and labels every
vertex. -/
theorem rotularGrupos_spec (n : Nat) (g0 : Grafo) (he : Estrutura n g0)
    (hzero : ∀ x, grupoDe g0 x = 0) :
    ∃ g' c', rotularGrupos g0 = .ok g' ∧ Rotulado g0 g' n c' := by
  have hinit : Rotulado g0 g0 0 0 := by
    refine ⟨Mesma.propria g0, ?_, ?_, ?_, ?_, ?_, ?_, ?_⟩
    · intro x hx; exact absurd (hzero x) hx
    · intro x y hx; exact absurd (hzero x) hx
    · intro x; rw [hzero x]
    · intro l h1 h2; omega
    · intro x hx; omega
    · intro h; omega
    · intro _; rfl
  obtain ⟨g', c', hrun, hr⟩ := rotular_spec n (n + 1) (by omega) g0 he n 0 g0 0 (by omega) hinit
  refine ⟨g', c', ?_, hr⟩
  unfold rotularGrupos
  rw [Grafo.size, he.hlen, List.range_eq_range', hrun]
  rfl

end KruskalPrim

namespace KruskalPrim

/-! ## Pruning -/

theorem podar_succ_cons (i no : Nat) (it : List Nat) (nos : List Aresta) :
    podar (i + 1) (no :: it) nos =
      podar i it (alterar nos no (fun a => { a with peso := -1 })) := by
  rfl

/-- The iterator of the pruning loop passes the last element of the list. -/
theorem podar_erro : ∀ (k : Nat) (it : List Nat) (nos : List Aresta), it.length < k →
    podar k it nos = .error .foraDosLimites := by
  intro k
  induction k with
  | zero => intro it nos h; omega
  | succ k ih =>
    intro it nos h
    cases it with
    | nil => rfl
    | cons no it =>
      rw [podar_succ_cons]
      exact ih it _ (by simp only [List.length_cons] at h; omega)

/-- The pruning loop overwrites the weight of the first k edges of the list. -/
theorem podar_ok : ∀ (k : Nat) (it : List Nat) (nos : List Aresta), k ≤ it.length →
    ∃ nos', podar k it nos = .ok nos' ∧ nos'.length = nos.length ∧
      ∀ id, nos'[id]? = (nos[id]?).map
        (fun a => if id ∈ it.take k then { a with peso := -1 } else a) := by
  intro k
  induction k with
  | zero =>
    intro it nos _
    refine ⟨nos, rfl, rfl, ?_⟩
    intro id
    simp
  | succ k ih =>
    intro it nos h
    cases it with
    | nil => simp at h
    | cons no it =>
      obtain ⟨nos', h1, h2, h3⟩ := ih it (alterar nos no (fun a => { a with peso := -1 }))
        (by simp only [List.length_cons] at h; omega)
      refine ⟨nos', ?_, ?_, ?_⟩
      · rw [podar_succ_cons]; exact h1
      · rw [h2, alterar_length]
      · intro id
        rw [h3 id, getElem?_alterar]
        simp only [List.take_succ_cons, List.mem_cons]
        by_cases hid : no = id
        · subst hid
          cases nos[no]? with
          | none => simp
          | some a =>
            simp only [if_true, Option.map_some', true_or]
            split <;> rfl
        · have hid' : ¬ id = no := fun hh => hid hh.symm
          simp only [hid, if_false, hid', false_or]

theorem length_filter_set (p : Aresta → Bool) (xs : List Aresta) (i : Nat) (a a' : Aresta)
    (ha : xs[i]? = some a) (hp : p a = true) (hp' : p a' = false) :
    ((xs.set i a').filter p).length + 1 = (xs.filter p).length := by
  induction xs generalizing i with
  | nil => simp at ha
  | cons x xs ih =>
    cases i with
    | zero =>
      simp only [List.getElem?_cons_zero, Option.some.injEq] at ha
      subst ha
      simp [List.set, List.filter, hp, hp']
    | succ j =>
      simp only [List.getElem?_cons_succ] at ha
      have := ih j ha
      simp only [List.set, List.filter]
      cases p x <;> simp <;> omega

/-- Each turn of the pruning loop removes one edge from those agruparPrim follows. -/
theorem podar_vivos : ∀ (k : Nat) (it : List Nat) (nos : List Aresta), it.Nodup →
    (∀ id ∈ it, ∃ a, nos[id]? = some a ∧ a.peso ≥ 0) → k ≤ it.length →
    ∀ nos', podar k it nos = .ok nos' →
      (nos'.filter (fun a => decide (a.peso ≥ 0))).length + k =
        (nos.filter (fun a => decide (a.peso ≥ 0))).length := by
  intro k
  induction k with
  | zero =>
    intro it nos _ _ _ nos' h
    cases h
    rfl
  | succ k ih =>
    intro it nos hnd hviv hk nos' h
    cases it with
    | nil => simp at hk
    | cons no it =>
      rw [podar_succ_cons] at h
      obtain ⟨a, ha, hpa⟩ := hviv no (List.mem_cons_self _ _)
      have hno : no ∉ it := (List.nodup_cons.1 hnd).1
      have halt : alterar nos no (fun a => { a with peso := -1 }) =
          nos.set no { a with peso := -1 } := by
        unfold alterar; rw [ha]
      have := ih it _ (List.nodup_cons.1 hnd).2
        (by
          intro id hid
          obtain ⟨b, hb, hpb⟩ := hviv id (List.mem_cons_of_mem _ hid)
          refine ⟨b, ?_, hpb⟩
          rw [getElem?_alterar, if_neg (fun hh : no = id => hno (hh ▸ hid))]
          exact hb)
        (by simp only [List.length_cons] at hk; omega) nos' h
      rw [halt] at this
      have h2 := length_filter_set (fun a => decide (a.peso ≥ 0)) nos no a
        { a with peso := -1 } ha (by simpa using hpa) (by simp)
      omega

/-- The sorted order of the MST list is a rearrangement of the list. -/
theorem ordenarMST_perm (nos : List Aresta) (ordem : List Nat) :
    (ordenarMST nos ordem).Perm ordem :=
  List.perm_insertionSort _ ordem

theorem podarMST_eq (g : Grafo) (k : Int) (nos' : List Aresta)
    (h : podar k.toNat (ordenarMST g.nosMST g.arestasMST) g.nosMST = .ok nos') :
    podarMST g k = .ok { g with nosMST := nos', arestasMST := ordenarMST g.nosMST g.arestasMST } := by
  unfold podarMST
  simp only [h, bind, Except.bind]
  rfl

theorem podarMST_erro (g : Grafo) (k : Int)
    (h : podar k.toNat (ordenarMST g.nosMST g.arestasMST) g.nosMST = .error .foraDosLimites) :
    podarMST g k = .error .foraDosLimites := by
  unfold podarMST
  simp only [h, bind, Except.bind]

theorem executarPrim_eq (g g1 g2 : Grafo) (k : Int) (h1 : primMST g = .ok g1)
    (h2 : podarMST g1 k = .ok g2) : executarPrim g k = rotularGrupos g2 := by
  unfold executarPrim
  simp only [h1, h2, bind, Except.bind]

end KruskalPrim

namespace KruskalPrim

/-! ## executarPrim as a whole -/

theorem ligados_reverse (es : List (Nat × Nat)) (x y : Nat) :
    Ligados es.reverse x y ↔ Ligados es x y := by
  constructor <;> intro h <;> exact Ligados.mono (by simp) h

theorem numComponentes_reverse (n : Nat) (es : List (Nat × Nat)) :
    numComponentes n es.reverse = numComponentes n es :=
  numComponentes_congr n (fun x y => (ligados_reverse es x y).symm)

/-- A connected edge list with n - 1 edges on n vertices is acyclic. -/
theorem aciclico_of_arvore (n : Nat) (es : List (Nat × Nat))
    (hes : ∀ e ∈ es, e.1 < n ∧ e.2 < n) (hlen : es.length + 1 = n)
    (hcon : ∀ x, x < n → Ligados es 0 x) : Aciclico es := by
  intro i hi hl
  have hmem : ∀ e ∈ es, e = es.get ⟨i, hi⟩ ∨ e ∈ es.eraseIdx i := by
    intro e he
    obtain ⟨j, hj, hje⟩ := List.mem_iff_getElem.1 he
    by_cases hji : j = i
    · left; subst hji; exact hje.symm
    · right; exact List.mem_eraseIdx_iff_getElem.2 ⟨j, hj, hji, hje⟩
  have hsub : ∀ x y, Ligados es x y → Ligados (es.eraseIdx i) x y := by
    intro x y h
    apply Ligados.mono_ligados _ h
    intro a b hab
    rcases hmem _ hab with h1 | h1
    · rw [← h1] at hl; exact hl
    · exact Ligados.aresta h1
  have h1 : numComponentes n (es.eraseIdx i) = 1 :=
    numComponentes_conexo n (by omega) _ (fun x hx => hsub _ _ (hcon x hx))
  have h2 := numComponentes_ge n (es.eraseIdx i)
    (fun e he => hes e (List.mem_of_mem_eraseIdx he))
  rw [h1, List.length_eraseIdx] at h2
  simp only [hi, if_true] at h2
  omega

/-- An acyclic list is a forest built edge by edge. -/
theorem floresta_of_aciclico (es : List (Nat × Nat)) (h : Aciclico es) : Floresta es := by
  induction es with
  | nil => trivial
  | cons e es ih =>
    refine ⟨?_, ih ?_⟩
    · have := h 0 (by simp)
      simpa using this
    · intro i hi hl
      apply h (i + 1) (by simp only [List.length_cons]; omega)
      simp only [List.eraseIdx_cons_succ, List.get_cons_succ]
      exact Ligados.mono (fun x hx => List.mem_cons_of_mem _ hx) hl

theorem pesoPar_limites (dist : ℚ × ℚ → ℚ × ℚ → ℚ) (pts : List (ℚ × ℚ)) (P : ℚ → Prop)
    (h : ∀ p ∈ pts, ∀ q ∈ pts, P (dist p q)) (i j : Nat) (hi : i < pts.length)
    (hj : j < pts.length) : P (pesoPar dist pts i j) := by
  unfold pesoPar
  have h1 : max i j < pts.length := max_lt hi hj
  have h2 : min i j < pts.length := lt_of_le_of_lt (min_le_left _ _) hi
  rw [List.getD_eq_getElem?_getD, List.getD_eq_getElem?_getD, List.getElem?_eq_getElem h1,
    List.getElem?_eq_getElem h2]
  exact h _ (List.getElem_mem _) _ (List.getElem_mem _)

/-- The tree the Prim loop leaves on a graph built by main. -/
theorem primMST_arvore (dist : ℚ × ℚ → ℚ × ℚ → ℚ) (pts : List (ℚ × ℚ)) (hn : 0 < pts.length)
    (hmax : ∀ i j, i < pts.length → j < pts.length → i ≠ j → pesoPar dist pts i j < pesoMax) :
    ∃ g, primMST (construir dist false pts) = .ok g ∧
      PrimBase dist pts g (FilaDePrioridade.mk []) ∧
      (∀ x, x < pts.length → emMST g x) ∧
      (∀ e ∈ pares g.nosMST, e.1 < pts.length ∧ e.2 < pts.length) ∧
      g.nosMST.length + 1 = pts.length := by
  obtain ⟨g, hg, hb, hch⟩ := primMST_spec dist pts hn hmax
  have htodos := todos_emMST dist pts hmax g hb hch
  have hes : ∀ e ∈ pares g.nosMST, e.1 < pts.length ∧ e.2 < pts.length := by
    intro e he
    obtain ⟨a, b⟩ := e
    obtain ⟨x, hx, h1, h2⟩ := (mem_pares _ a b).1 he
    obtain ⟨h3, h4, _⟩ := hb.hnos x hx
    rw [← hb.hlen]
    simp only
    rw [← h1, ← h2]
    exact ⟨emMST_lt g _ h3, emMST_lt g _ h4⟩
  refine ⟨g, hg, hb, htodos, hes, ?_⟩
  have h1 : numComponentes pts.length (pares g.nosMST) = 1 :=
    numComponentes_conexo _ hn _ (fun x hx => hb.hcon x (htodos x hx))
  have h2 := numComponentes_floresta pts.length (pares g.nosMST).reverse
    (fun e he => hes e (List.mem_reverse.1 he)) hb.hflor
  rw [numComponentes_reverse, h1, List.length_reverse] at h2
  simp only [pares, List.length_map] at h2
  omega

end KruskalPrim

namespace KruskalPrim

/-- What the invariant of the labelling loop says once every vertex is visited. -/
theorem rotulado_final (n : Nat) (g0 g : Grafo) (c : Nat) (he : Estrutura n g0)
    (hr : Rotulado g0 g n c) :
    (∀ x y, x < n → y < n → (grupoDe g x = grupoDe g y ↔ Ligados (vivas g) x y)) ∧
    (∀ x, x < n → 1 ≤ grupoDe g x ∧ grupoDe g x ≤ c) ∧
    (∀ l, 1 ≤ l → l ≤ c → ∃ x, x < n ∧ grupoDe g x = l) ∧
    (0 < n → grupoDe g 0 = 1) := by
  have hv : vivas g = vivas g0 := vivas_mesma hr.mesma
  refine ⟨?_, ?_, ?_, hr.primeiro⟩
  · intro x y hx hy
    rw [hv]
    constructor
    · intro h
      exact hr.ligado x y (hr.feitos x hx) h
    · intro h
      have hfe := @Ligados.fechado (vivas g0) (fun z => z < n ∧ grupoDe g z = grupoDe g x)
        (by
          intro a b hab
          have hviz := viz_of_mem_vivas hab
          obtain ⟨e, he1, _, h1, h2⟩ := (mem_vivas g0 a b).1 hab
          have hlim := he.hlim e he1
          rw [h1, h2] at hlim
          constructor
          · rintro ⟨_, h3⟩
            exact ⟨hlim.2, by rw [hr.fechado a (hr.feitos a hlim.1) b hviz, h3]⟩
          · rintro ⟨_, h3⟩
            exact ⟨hlim.1, by rw [hr.fechado b (hr.feitos b hlim.2) a hviz.troca, h3]⟩) _ _ h
      exact ((hfe.1 ⟨hx, rfl⟩).2).symm
  · intro x hx
    have := hr.feitos x hx
    exact ⟨by omega, hr.limite x⟩
  · intro l h1 h2
    obtain ⟨x, hx, hxl⟩ := hr.usado l h1 h2
    exact ⟨x, by rw [← he.hlen]; exact hx, hxl⟩

/-- The three parts of executarPrim on a graph built by main, for a number of edges to
remove that does not exceed the number of MST edges. -/
theorem executarPrim_spec (dist : ℚ × ℚ → ℚ × ℚ → ℚ) (pts : List (ℚ × ℚ)) (hn : 0 < pts.length)
    (hpos : ∀ i j, i < pts.length → j < pts.length → 0 ≤ pesoPar dist pts i j)
    (hmax : ∀ i j, i < pts.length → j < pts.length → i ≠ j → pesoPar dist pts i j < pesoMax)
    (k : Nat) (hk : k + 1 ≤ pts.length) :
    ∃ g1 g3 c, primMST (construir dist false pts) = .ok g1 ∧
      PrimBase dist pts g1 (FilaDePrioridade.mk []) ∧
      (∀ x, x < pts.length → emMST g1 x) ∧
      g1.nosMST.length + 1 = pts.length ∧
      executarPrim (construir dist false pts) (k : Int) = .ok g3 ∧
      g3.vertices.length = pts.length ∧
      (∀ id, g3.nosMST[id]? = (g1.nosMST[id]?).map (fun a =>
        if id ∈ (ordenarMST g1.nosMST g1.arestasMST).take k then { a with peso := -1 } else a)) ∧
      g3.arestasMST = ordenarMST g1.nosMST g1.arestasMST ∧
      vivas g3 = arestasVivas g3 ∧
      (vivas g3).length + k + 1 = pts.length ∧
      Floresta (vivas g3).reverse ∧
      (∀ e ∈ vivas g3, e.1 < pts.length ∧ e.2 < pts.length) ∧
      (∀ x y, x < pts.length → y < pts.length →
        (grupoDe g3 x = grupoDe g3 y ↔ Ligados (vivas g3) x y)) ∧
      (∀ x, x < pts.length → 1 ≤ grupoDe g3 x ∧ grupoDe g3 x ≤ c) ∧
      (∀ l, 1 ≤ l → l ≤ c → ∃ x, x < pts.length ∧ grupoDe g3 x = l) ∧
      grupoDe g3 0 = 1 := by
  obtain ⟨g1, hg1, hb, htodos, hes, hlen⟩ := primMST_arvore dist pts hn hmax
  have hperm := ordenarMST_perm g1.nosMST g1.arestasMST
  have hordl : (ordenarMST g1.nosMST g1.arestasMST).length = g1.nosMST.length := by
    rw [hperm.length_eq, hb.hord, List.length_range]
  have hordnd : (ordenarMST g1.nosMST g1.arestasMST).Nodup := by
    rw [hperm.nodup_iff, hb.hord]; exact List.nodup_range _
  have hordmem : ∀ id ∈ ordenarMST g1.nosMST g1.arestasMST, id < g1.nosMST.length := by
    intro id hid
    have := hperm.mem_iff.1 hid
    rw [hb.hord] at this
    exact List.mem_range.1 this
  have hpeso : ∀ a ∈ g1.nosMST, a.peso ≥ 0 := by
    intro a ha
    obtain ⟨h1, h2, h3, _⟩ := hb.hnos a ha
    rw [h3]
    exact hpos _ _ (by rw [← hb.hlen]; exact emMST_lt g1 _ h1)
      (by rw [← hb.hlen]; exact emMST_lt g1 _ h2)
  obtain ⟨nos', hpod, hnl, hform⟩ := podar_ok k (ordenarMST g1.nosMST g1.arestasMST) g1.nosMST
    (by rw [hordl]; omega)
  have hg2 := podarMST_eq g1 (k : Int) nos' (by rw [Int.toNat_ofNat]; exact hpod)
  -- the structure agruparPrim relies on
  have hform_inv : ∀ id a', nos'[id]? = some a' →
      ∃ a, g1.nosMST[id]? = some a ∧ a'.origem = a.origem ∧ a'.destino = a.destino ∧
        (a' = a ∨ (a'.peso = -1 ∧ id ∈ (ordenarMST g1.nosMST g1.arestasMST).take k)) ∧
        (id ∉ (ordenarMST g1.nosMST g1.arestasMST).take k → a' = a) := by
    intro id a' ha'
    rw [hform id] at ha'
    cases hnos : g1.nosMST[id]? with
    | none => rw [hnos] at ha'; cases ha'
    | some a =>
      rw [hnos] at ha'
      simp only [Option.map_some', Option.some.injEq] at ha'
      refine ⟨a, rfl, ?_⟩
      by_cases hin : id ∈ (ordenarMST g1.nosMST g1.arestasMST).take k
      · rw [if_pos hin] at ha'
        rw [← ha']
        exact ⟨rfl, rfl, Or.inr ⟨rfl, hin⟩, fun h => absurd hin h⟩
      · rw [if_neg hin] at ha'
        rw [← ha']
        exact ⟨rfl, rfl, Or.inl rfl, fun _ => rfl⟩
  have hest2 : Estrutura pts.length
      { g1 with nosMST := nos', arestasMST := ordenarMST g1.nosMST g1.arestasMST } := by
    refine ⟨hb.hlen, ?_, ?_⟩
    · intro i v hv no
      rw [hb.hares i v hv no]
      simp only
      constructor
      · rintro ⟨a, ha, hor⟩
        refine ⟨_, by rw [hform no, ha]; rfl, ?_⟩
        split <;> exact hor
      · rintro ⟨a', ha', hor⟩
        obtain ⟨a, ha, h1, h2, _⟩ := hform_inv no a' ha'
        exact ⟨a, ha, by rw [← h1, ← h2]; exact hor⟩
    · intro a' ha'
      obtain ⟨id, hid⟩ := List.mem_iff_getElem?.1 ha'
      obtain ⟨a, ha, h1, h2, _⟩ := hform_inv id a' hid
      have := hes (a.origem, a.destino) ((mem_pares _ _ _).2
        ⟨a, List.mem_iff_getElem?.2 ⟨id, ha⟩, rfl, rfl⟩)
      rw [h1, h2]; exact this
  have hzero : ∀ x, grupoDe
      { g1 with nosMST := nos', arestasMST := ordenarMST g1.nosMST g1.arestasMST } x = 0 := by
    intro x
    unfold grupoDe
    simp only
    cases hx : g1.vertices[x]? with
    | none => rfl
    | some v => simp [(hb.hest x v hx).2]
  obtain ⟨g3, c, hg3, hr⟩ := rotularGrupos_spec pts.length _ hest2 hzero
  obtain ⟨r1, r2, r3, r4⟩ := rotulado_final pts.length _ g3 c hest2 hr
  have hnos3 : g3.nosMST = nos' := hr.mesma.1
  have hviv3 : vivas g3 = pares (nos'.filter (fun a => decide (a.peso ≥ 0))) := by
    unfold vivas; rw [hnos3]
  refine ⟨g1, g3, c, hg1, hb, htodos, hlen, ?_, ?_, ?_, ?_, ?_, ?_, ?_, ?_, r1, r2, r3, r4 hn⟩
  · rw [executarPrim_eq _ g1 _ (k : Int) hg1 hg2]
    exact hg3
  · rw [hr.mesma.2.2.2.2.1]; exact hb.hlen
  · intro id
    rw [hnos3]; exact hform id
  · exact hr.mesma.2.1
  · unfold vivas arestasVivas
    congr 1
    apply List.filter_congr
    intro a' ha'
    rw [hnos3] at ha'
    obtain ⟨id, hid⟩ := List.mem_iff_getElem?.1 ha'
    obtain ⟨a, ha, _, _, hor, _⟩ := hform_inv id a' hid
    rcases hor with h | ⟨h, _⟩
    · have h0 : a'.peso ≥ 0 := by rw [h]; exact hpeso a (List.mem_iff_getElem?.2 ⟨id, ha⟩)
      have h1 : a'.peso ≠ -1 := by
        intro hh
        rw [hh] at h0
        exact absurd h0 (by decide)
      simp [h0, h1]
    · have h0 : ¬ a'.peso ≥ 0 := by rw [h]; decide
      have h1 : ¬ a'.peso ≠ -1 := fun hh => hh h
      rw [decide_eq_false h0, decide_eq_false h1]
  · have h1 := podar_vivos k _ g1.nosMST hordnd
      (by
        intro id hid
        have hlt := hordmem id hid
        exact ⟨g1.nosMST[id], List.getElem?_eq_getElem hlt, hpeso _ (List.getElem_mem _)⟩)
      (by rw [hordl]; omega) nos' hpod
    have h2 : g1.nosMST.filter (fun a => decide (a.peso ≥ 0)) = g1.nosMST := by
      apply List.filter_eq_self.2
      intro a ha
      simpa using hpeso a ha
    rw [h2] at h1
    rw [hviv3]
    simp only [pares, List.length_map]
    omega
  · have hmap : pares nos' = pares g1.nosMST := by
      unfold pares
      apply List.ext_getElem?
      intro id
      rw [List.getElem?_map, List.getElem?_map, hform id]
      cases g1.nosMST[id]? with
      | none => rfl
      | some a =>
        simp only [Option.map_some']
        split <;> rfl
    have hsub : List.Sublist (vivas g3) (pares g1.nosMST) := by
      rw [hviv3, ← hmap]
      exact (List.filter_sublist _).map _
    exact Floresta.sublist hsub.reverse hb.hflor
  · intro e he
    rw [hviv3] at he
    obtain ⟨a, b⟩ := e
    obtain ⟨x, hx, h1, h2⟩ := (mem_pares _ a b).1 he
    have := hest2.hlim x (List.mem_of_mem_filter hx)
    simp only
    rw [← h1, ← h2]; exact this

end KruskalPrim

namespace KruskalPrim

/-! ## Minimality of the tree built by Prim -/

theorem existe_maximo (l : List ℚ) (h : l ≠ []) : ∃ m ∈ l, ∀ x ∈ l, x ≤ m := by
  induction l with
  | nil => exact absurd rfl h
  | cons a l ih =>
    by_cases hl : l = []
    · subst hl
      exact ⟨a, List.mem_cons_self _ _, by simp⟩
    · obtain ⟨m, hm, hmax⟩ := ih hl
      by_cases ham : a ≤ m
      · refine ⟨m, List.mem_cons_of_mem _ hm, ?_⟩
        intro x hx
        rcases List.mem_cons.1 hx with rfl | hx
        · exact ham
        · exact hmax x hx
      · refine ⟨a, List.mem_cons_self _ _, ?_⟩
        intro x hx
        rcases List.mem_cons.1 hx with rfl | hx
        · exact le_refl _
        · exact le_trans (hmax x hx) (le_of_lt (not_le.1 ham))

/-- A list with at least as many entries below every threshold has the smaller sum. -/
theorem soma_le_de_contagem : ∀ (n : Nat) (A B : List ℚ), A.length = n → B.length = n →
    (∀ θ : ℚ, B.countP (fun x => decide (x ≤ θ)) ≤ A.countP (fun x => decide (x ≤ θ))) →
    A.sum ≤ B.sum := by
  intro n
  induction n with
  | zero =>
    intro A B hA hB _
    rw [List.length_eq_zero.1 hA, List.length_eq_zero.1 hB]
  | succ n ih =>
    intro A B hA hB h
    have hAne : A ≠ [] := by intro h0; rw [h0] at hA; simp at hA
    have hBne : B ≠ [] := by intro h0; rw [h0] at hB; simp at hB
    obtain ⟨a, ha, hamax⟩ := existe_maximo A hAne
    obtain ⟨b, hb, hbmax⟩ := existe_maximo B hBne
    have hpA := List.perm_cons_erase ha
    have hpB := List.perm_cons_erase hb
    have hlA : (A.erase a).length = n := by rw [List.length_erase_of_mem ha, hA]; rfl
    have hlB : (B.erase b).length = n := by rw [List.length_erase_of_mem hb, hB]; rfl
    have hcA : ∀ θ : ℚ, A.countP (fun x => decide (x ≤ θ)) =
        (A.erase a).countP (fun x => decide (x ≤ θ)) + (if a ≤ θ then 1 else 0) := by
      intro θ
      rw [hpA.countP_eq, List.countP_cons]
      simp
    have hcB : ∀ θ : ℚ, B.countP (fun x => decide (x ≤ θ)) =
        (B.erase b).countP (fun x => decide (x ≤ θ)) + (if b ≤ θ then 1 else 0) := by
      intro θ
      rw [hpB.countP_eq, List.countP_cons]
      simp
    have hab : a ≤ b := by
      have h1 : B.countP (fun x => decide (x ≤ b)) = B.length :=
        List.countP_eq_length.2 (fun x hx => by simpa using hbmax x hx)
      have h2 := h b
      have h3 : A.countP (fun x => decide (x ≤ b)) ≤ A.length := List.countP_le_length _
      have h4 : A.countP (fun x => decide (x ≤ b)) = A.length := by omega
      have := (List.countP_eq_length.1 h4) a ha
      simpa using this
    have hrec : ∀ θ : ℚ, (B.erase b).countP (fun x => decide (x ≤ θ)) ≤
        (A.erase a).countP (fun x => decide (x ≤ θ)) := by
      intro θ
      have h1 := h θ
      rw [hcA θ, hcB θ] at h1
      by_cases hbθ : b ≤ θ
      · have haθ : a ≤ θ := le_trans hab hbθ
        rw [if_pos hbθ, if_pos haθ] at h1
        omega
      · rw [if_neg hbθ] at h1
        by_cases haθ : a ≤ θ
        · have h2 : (A.erase a).countP (fun x => decide (x ≤ θ)) = (A.erase a).length :=
            List.countP_eq_length.2 (fun x hx => by
              simpa using le_trans (hamax x (List.mem_of_mem_erase hx)) haθ)
          have h3 : (B.erase b).countP (fun x => decide (x ≤ θ)) ≤ (B.erase b).length :=
            List.countP_le_length _
          omega
        · rw [if_neg haθ] at h1
          omega
    have := ih (A.erase a) (B.erase b) hlA hlB hrec
    rw [hpA.sum_eq, hpB.sum_eq, List.sum_cons, List.sum_cons]
    exact add_le_add hab this

end KruskalPrim

namespace KruskalPrim

/-- Below every threshold the tree built by Prim has at least as many edges as any
spanning tree. -/
theorem contagem_ate (dist : ℚ × ℚ → ℚ × ℚ → ℚ) (pts : List (ℚ × ℚ)) (g : Grafo)
    (hb : PrimBase dist pts g (FilaDePrioridade.mk []))
    (htodos : ∀ x, x < pts.length → emMST g x)
    (hes : ∀ e ∈ pares g.nosMST, e.1 < pts.length ∧ e.2 < pts.length)
    (M : List (Nat × Nat)) (hM : ArvoreGeradora pts.length M) (θ : ℚ) :
    (M.filter (fun e => decide (pesoPar dist pts e.1 e.2 ≤ θ))).length ≤
      (g.nosMST.filter (fun a => decide (a.peso ≤ θ))).length := by
  obtain ⟨hMes, hMac, _⟩ := hM
  have hMf : Floresta (M.filter (fun e => decide (pesoPar dist pts e.1 e.2 ≤ θ))) :=
    Floresta.sublist (List.filter_sublist _) (floresta_of_aciclico M hMac)
  have h1 := numComponentes_floresta pts.length _
    (fun e he => hMes e (List.mem_of_mem_filter he)) hMf
  have hTsub : List.Sublist (ate θ g.nosMST) (pares g.nosMST) := by
    unfold ate pares
    exact (List.filter_sublist _).map _
  have hTf : Floresta (ate θ g.nosMST).reverse := Floresta.sublist hTsub.reverse hb.hflor
  have h2 := numComponentes_floresta pts.length _
    (fun e he => hes e (hTsub.subset (List.mem_reverse.1 he))) hTf
  rw [numComponentes_reverse, List.length_reverse] at h2
  have h3 : numComponentes pts.length (ate θ g.nosMST) ≤
      numComponentes pts.length (M.filter (fun e => decide (pesoPar dist pts e.1 e.2 ≤ θ))) := by
    apply numComponentes_anti
    intro x y hxy
    apply Ligados.mono_ligados _ hxy
    intro a b hab
    have hab' := List.mem_filter.1 hab
    have hw : pesoPar dist pts a b ≤ θ := by simpa using hab'.2
    obtain ⟨ha, hb'⟩ := hMes _ hab'.1
    by_cases hne : a = b
    · rw [hne]; exact Ligados.refl _ _
    · exact hb.hmm θ a b (htodos a ha) (htodos b hb')
        (ligados_ate_completo dist pts θ a b ha hb' hne hw)
  have h4 : (ate θ g.nosMST).length = (g.nosMST.filter (fun a => decide (a.peso ≤ θ))).length := by
    simp [ate, pares]
  omega

/-- Claim C6, amended. For a graph built in Prim mode from n >= 1 points, with every
distance computed for the input points below the largest double (the initial tentative
weight: no square has overflowed to +infinity), the edges the Prim loop of executarPrim
leaves in the MST list are a spanning tree of the n vertices (end points among the vertices,
no cycle, every two vertices linked), each with the weight the graph gives its pair, and this
spanning tree has minimum total weight: the sum of its edge weights is at most the sum of the
weights of the edges of any spanning tree of the complete graph on the same points. -/
theorem primMST_peso_minimo (dist : ℚ × ℚ → ℚ × ℚ → ℚ) (pts : List (ℚ × ℚ))
    (hn : 1 ≤ pts.length) (hdist : ∀ p ∈ pts, ∀ q ∈ pts, dist p q < pesoMax) :
    ∃ g, primMST (construir dist false pts) = .ok g ∧
      ArvoreGeradora pts.length (pares g.nosMST) ∧
      (g.nosMST.map (fun a => a.peso)).sum = pesoTotal dist pts (pares g.nosMST) ∧
      ∀ M, ArvoreGeradora pts.length M →
        pesoTotal dist pts (pares g.nosMST) ≤ pesoTotal dist pts M := by
  have hmax : ∀ i j, i < pts.length → j < pts.length → i ≠ j →
      pesoPar dist pts i j < pesoMax :=
    fun i j hi hj _ => pesoPar_limites dist pts (fun w => w < pesoMax) hdist i j hi hj
  obtain ⟨g, hg, hb, htodos, hes, hlen⟩ := primMST_arvore dist pts hn hmax
  have hcon : ∀ x, x < pts.length → Ligados (pares g.nosMST) 0 x :=
    fun x hx => hb.hcon x (htodos x hx)
  have hsoma : (g.nosMST.map (fun a => a.peso)).sum = pesoTotal dist pts (pares g.nosMST) := by
    unfold pesoTotal pares
    rw [List.map_map]
    congr 1
    apply List.map_congr_left
    intro a ha
    exact (hb.hnos a ha).2.2.1
  refine ⟨g, hg, ⟨hes, ?_, fun u v hu hv => (hcon u hu).symm.trans (hcon v hv)⟩, hsoma, ?_⟩
  · exact aciclico_of_arvore pts.length _ hes (by simp only [pares, List.length_map]; exact hlen)
      hcon
  rw [← hsoma]
  intro M hM
  have hMlen : M.length + 1 = pts.length := by
    have h1 := numComponentes_floresta pts.length M hM.1 (floresta_of_aciclico M hM.2.1)
    have h2 := numComponentes_conexo pts.length (by omega) M
      (fun x hx => hM.2.2 0 x (by omega) hx)
    omega
  unfold pesoTotal
  apply soma_le_de_contagem (pts.length - 1)
  · simp only [List.length_map]; omega
  · simp only [List.length_map]; omega
  · intro θ
    rw [List.countP_map, List.countP_map, List.countP_eq_length_filter,
      List.countP_eq_length_filter]
    exact contagem_ate dist pts g hb htodos hes M hM θ

/-- Witness for the amended claim C6: the points (0,0), (0,1), (0,2), (10,10). -/
theorem primMST_peso_minimo_witness :
    ∃ g, primMST (construir distMili false [(0, 0), (0, 1), (0, 2), (10, 10)]) = .ok g ∧
      ArvoreGeradora [((0 : ℚ), (0 : ℚ)), (0, 1), (0, 2), (10, 10)].length (pares g.nosMST) ∧
      (g.nosMST.map (fun a => a.peso)).sum =
        pesoTotal distMili [(0, 0), (0, 1), (0, 2), (10, 10)] (pares g.nosMST) ∧
      ∀ M, ArvoreGeradora [((0 : ℚ), (0 : ℚ)), (0, 1), (0, 2), (10, 10)].length M →
        pesoTotal distMili [(0, 0), (0, 1), (0, 2), (10, 10)] (pares g.nosMST) ≤
          pesoTotal distMili [(0, 0), (0, 1), (0, 2), (10, 10)] M :=
  primMST_peso_minimo distMili [(0, 0), (0, 1), (0, 2), (10, 10)] (by decide) (by decide)

end KruskalPrim

namespace KruskalPrim

theorem executarKruskal_construir (dist : ℚ × ℚ → ℚ × ℚ → ℚ) (pts : List (ℚ × ℚ)) (G : Int) :
    grupos (executarKruskal (construir dist true pts) G) =
      (List.range pts.length).map
        (fun i => (kruskalLaco G (ordenarArestas (completo dist pts)) (UnionFind.criar pts.length)
          (pts.length : Int)).1.find i) := by
  rw [grupos_executarKruskal, construir_kruskal]
  simp [Grafo.size]

theorem getElem?_grupos_kruskal (dist : ℚ × ℚ → ℚ × ℚ → ℚ) (pts : List (ℚ × ℚ)) (G : Int)
    (x : Nat) (hx : x < pts.length) :
    (grupos (executarKruskal (construir dist true pts) G))[x]? =
      some ((kruskalLaco G (ordenarArestas (completo dist pts)) (UnionFind.criar pts.length)
          (pts.length : Int)).1.find x) := by
  rw [executarKruskal_construir, List.getElem?_map, List.getElem?_range hx]
  rfl

/-- The scan loop only merges components. -/
theorem kruskalLaco_engrossa (n : Nat) (G : Int) (es : List Aresta)
    (hes : ∀ a ∈ es, a.origem < n ∧ a.destino < n) :
    ∀ (u : UnionFind) (qtd : Int), u.Valido → u.pai.length = n → ∀ x y, u.find x = u.find y →
      (kruskalLaco G es u qtd).1.find x = (kruskalLaco G es u qtd).1.find y := by
  induction es with
  | nil => intro u qtd _ _ x y h; simpa [kruskalLaco] using h
  | cons a es ih =>
    intro u qtd hv hl x y h
    have hes2 : ∀ a ∈ es, a.origem < n ∧ a.destino < n :=
      fun b hb => hes b (List.mem_cons_of_mem _ hb)
    obtain ⟨ha1, ha2⟩ := hes a (List.mem_cons_self _ _)
    by_cases hG : qtd = G
    · simpa [kruskalLaco, hG] using h
    · by_cases hr : u.find a.origem = u.find a.destino
      · have hk : kruskalLaco G (a :: es) u qtd = kruskalLaco G es u qtd := by
          simp [kruskalLaco, hG, hr]
        rw [hk]
        exact ih hes2 u qtd hv hl x y h
      · have hk : kruskalLaco G (a :: es) u qtd =
            kruskalLaco G es (u.Union a.origem a.destino) (qtd - 1) := by
          simp [kruskalLaco, hG, hr]
        obtain ⟨hv2, hspec⟩ := UnionFind.Union_spec u hv a.origem a.destino
          (by rw [hl]; exact ha1) (by rw [hl]; exact ha2)
        rw [hk]
        exact ih hes2 _ _ hv2 (by rw [UnionFind.Union_length]; exact hl) x y
          ((hspec x y).2 (Or.inl h))

/-- A larger target stops the scan earlier. -/
theorem kruskalLaco_mono (n : Nat) (G G' : Int) (hGG : G ≤ G') (es : List Aresta)
    (hes : ∀ a ∈ es, a.origem < n ∧ a.destino < n) :
    ∀ (u : UnionFind) (qtd : Int), u.Valido → u.pai.length = n → G' ≤ qtd → ∀ x y,
      (kruskalLaco G' es u qtd).1.find x = (kruskalLaco G' es u qtd).1.find y →
      (kruskalLaco G es u qtd).1.find x = (kruskalLaco G es u qtd).1.find y := by
  induction es with
  | nil => intro u qtd _ _ _ x y h; simpa [kruskalLaco] using h
  | cons a es ih =>
    intro u qtd hv hl hq x y h
    have hes2 : ∀ a ∈ es, a.origem < n ∧ a.destino < n :=
      fun b hb => hes b (List.mem_cons_of_mem _ hb)
    obtain ⟨ha1, ha2⟩ := hes a (List.mem_cons_self _ _)
    by_cases hG' : qtd = G'
    · have hk : kruskalLaco G' (a :: es) u qtd = (u, qtd) := by
        simp [kruskalLaco, hG']
      rw [hk] at h
      exact kruskalLaco_engrossa n G (a :: es) hes u qtd hv hl x y h
    · have hG : qtd ≠ G := by omega
      by_cases hr : u.find a.origem = u.find a.destino
      · have hk : ∀ H : Int, qtd ≠ H →
            kruskalLaco H (a :: es) u qtd = kruskalLaco H es u qtd := by
          intro H hH
          simp [kruskalLaco, hH, hr]
        rw [hk G hG]
        rw [hk G' hG'] at h
        exact ih hes2 u qtd hv hl hq x y h
      · have hk : ∀ H : Int, qtd ≠ H → kruskalLaco H (a :: es) u qtd =
            kruskalLaco H es (u.Union a.origem a.destino) (qtd - 1) := by
          intro H hH
          simp [kruskalLaco, hH, hr]
        obtain ⟨hv2, _⟩ := UnionFind.Union_spec u hv a.origem a.destino
          (by rw [hl]; exact ha1) (by rw [hl]; exact ha2)
        rw [hk G hG]
        rw [hk G' hG'] at h
        exact ih hes2 _ _ hv2 (by rw [UnionFind.Union_length]; exact hl) (by omega) x y h

/-- Counterexample to claim C7 as stated: two points and the target 3, which exceeds the
number of points. The scan never meets its stop condition, calls Union once and leaves both
vertices in the same group. -/
theorem executarKruskal_alvo_maior_contraexemplo :
    (kruskalUnioes 3 (ordenarArestas (construir distMili true [(0, 0), (1, 0)]).arestas)
        (UnionFind.criar (construir distMili true [(0, 0), (1, 0)]).size)
        ((construir distMili true [(0, 0), (1, 0)]).size : Int)).length = 1 ∧
    grupos (executarKruskal (construir distMili true [(0, 0), (1, 0)]) 3) = [0, 0] := by
  decide

/-- Claim C7, amended. For a graph built in Kruskal mode from n points and the target
G = n, executarKruskal calls Union on no edge and every vertex keeps its own index as group,
so the n groups are pairwise different. -/
theorem executarKruskal_alvo_n (dist : ℚ × ℚ → ℚ × ℚ → ℚ) (pts : List (ℚ × ℚ)) :
    kruskalUnioes (pts.length : Int) (ordenarArestas (construir dist true pts).arestas)
        (UnionFind.criar (construir dist true pts).size)
        ((construir dist true pts).size : Int) = [] ∧
    grupos (executarKruskal (construir dist true pts) (pts.length : Int)) =
      List.range pts.length ∧
    (grupos (executarKruskal (construir dist true pts) (pts.length : Int))).Nodup := by
  have hk : ∀ es : List Aresta, kruskalLaco (pts.length : Int) es (UnionFind.criar pts.length)
      (pts.length : Int) = (UnionFind.criar pts.length, (pts.length : Int)) := by
    intro es
    cases es <;> simp [kruskalLaco]
  have hg : grupos (executarKruskal (construir dist true pts) (pts.length : Int)) =
      List.range pts.length := by
    rw [executarKruskal_construir, hk]
    simp only [UnionFind.criar_find]
    exact List.map_id' _
  refine ⟨?_, hg, ?_⟩
  · rw [construir_kruskal]
    simp only [Grafo.size, List.length_map]
    cases ordenarArestas (completo dist pts) <;> simp [kruskalUnioes]
  · rw [hg]
    exact List.nodup_range _

/-- Counterexample to claim C9 as stated: two points, G = 2 and G' = 3. With target 2 the two
vertices are in different groups, with the larger target 3 they are in the same group. -/
theorem executarKruskal_monotonia_contraexemplo :
    (2 : Int) ≤ 3 ∧
    (grupos (executarKruskal (construir distMili true [(0, 0), (1, 0)]) 2))[0]? ≠
      (grupos (executarKruskal (construir distMili true [(0, 0), (1, 0)]) 2))[1]? ∧
    (grupos (executarKruskal (construir distMili true [(0, 0), (1, 0)]) 3))[0]? =
      (grupos (executarKruskal (construir distMili true [(0, 0), (1, 0)]) 3))[1]? := by
  decide

/-- Claim C9, amended. For a graph built in Kruskal mode from n points and targets
1 <= G <= G' <= n, two vertices in different groups after executarKruskal with target G are
in different groups after executarKruskal with target G'. -/
theorem executarKruskal_monotonia (dist : ℚ × ℚ → ℚ × ℚ → ℚ) (pts : List (ℚ × ℚ)) (G G' : Nat)
    (_h1 : 1 ≤ G) (h2 : G ≤ G') (h3 : G' ≤ pts.length) (u v : Nat) (hu : u < pts.length)
    (hv : v < pts.length)
    (hdif : (grupos (executarKruskal (construir dist true pts) (G : Int)))[u]? ≠
      (grupos (executarKruskal (construir dist true pts) (G : Int)))[v]?) :
    (grupos (executarKruskal (construir dist true pts) (G' : Int)))[u]? ≠
      (grupos (executarKruskal (construir dist true pts) (G' : Int)))[v]? := by
  rw [getElem?_grupos_kruskal dist pts _ u hu, getElem?_grupos_kruskal dist pts _ v hv] at hdif ⊢
  intro h
  apply hdif
  have hes : ∀ a ∈ ordenarArestas (completo dist pts),
      a.origem < pts.length ∧ a.destino < pts.length := by
    intro a ha
    obtain ⟨h1, h2, _⟩ := (mem_completo dist pts a).1 ((mem_ordenarArestas _ a).1 ha)
    exact ⟨h2, lt_trans h1 h2⟩
  have := kruskalLaco_mono pts.length (G : Int) (G' : Int) (by exact_mod_cast h2) _ hes
    (UnionFind.criar pts.length) (pts.length : Int) (UnionFind.criar_valido _)
    (UnionFind.criar_length _) (by exact_mod_cast h3) u v (Option.some.inj h)
  rw [this]

/-- Witness for claim C9, amended: three points on a line, G = 2 and G' = 3. -/
theorem executarKruskal_monotonia_witness :
    (grupos (executarKruskal (construir distMili true [(0, 0), (1, 0), (3, 0)]) ((3 : Nat) : Int)))[1]? ≠
      (grupos (executarKruskal (construir distMili true [(0, 0), (1, 0), (3, 0)]) ((3 : Nat) : Int)))[2]? :=
  executarKruskal_monotonia distMili [(0, 0), (1, 0), (3, 0)] 2 3 (by decide) (by decide)
    (by decide) 1 2 (by decide) (by decide) (by decide)

end KruskalPrim

namespace KruskalPrim

theorem getElem?_grupos (g : Grafo) (u : Nat) (hu : u < g.vertices.length) :
    (grupos g)[u]? = some (grupoDe g u) := by
  unfold grupos grupoDe
  rw [List.getElem?_map, List.getElem?_eq_getElem hu]
  rfl

theorem mem_grupos (g : Grafo) (x : Nat) :
    x ∈ grupos g ↔ ∃ u, u < g.vertices.length ∧ grupoDe g u = x := by
  constructor
  · intro h
    obtain ⟨u, hu⟩ := List.mem_iff_getElem?.1 h
    have hul : u < g.vertices.length := by
      have := (List.getElem?_eq_some.1 hu).1
      simpa [grupos] using this
    rw [getElem?_grupos g u hul] at hu
    exact ⟨u, hul, Option.some.inj hu⟩
  · rintro ⟨u, hu, rfl⟩
    exact List.mem_iff_getElem?.2 ⟨u, getElem?_grupos g u hu⟩

theorem limites_de_dist (dist : ℚ × ℚ → ℚ × ℚ → ℚ) (pts : List (ℚ × ℚ))
    (hdist : ∀ p ∈ pts, ∀ q ∈ pts, 0 ≤ dist p q ∧ dist p q < pesoMax) :
    (∀ i j, i < pts.length → j < pts.length → 0 ≤ pesoPar dist pts i j) ∧
    (∀ i j, i < pts.length → j < pts.length → i ≠ j → pesoPar dist pts i j < pesoMax) := by
  have := pesoPar_limites dist pts (fun w => 0 ≤ w ∧ w < pesoMax) hdist
  exact ⟨fun i j hi hj => (this i j hi hj).1, fun i j hi hj _ => (this i j hi hj).2⟩

/-- Claim C3, amended. For a graph built in Prim mode from n >= 1 points, with every
distance computed for the input points a finite double (at least 0 and below the largest
double: no square has overflowed to +infinity), and 0 <= k <= n - 1, executarPrim leaves
exactly k + 1 groups: every vertex gets a group between 1 and k + 1, every value between 1
and k + 1 is the group of some vertex, vertex 0 gets group 1 and no vertex keeps the
value 0. -/
theorem executarPrim_k_mais_um_grupos (dist : ℚ × ℚ → ℚ × ℚ → ℚ) (pts : List (ℚ × ℚ))
    (hn : 1 ≤ pts.length) (hdist : ∀ p ∈ pts, ∀ q ∈ pts, 0 ≤ dist p q ∧ dist p q < pesoMax)
    (k : Nat) (hk : k ≤ pts.length - 1) :
    ∃ g, executarPrim (construir dist false pts) (k : Int) = .ok g ∧
      (grupos g).length = pts.length ∧
      (∀ x ∈ grupos g, 1 ≤ x ∧ x ≤ k + 1) ∧
      (∀ l, 1 ≤ l → l ≤ k + 1 → l ∈ grupos g) ∧
      (grupos g)[0]? = some 1 ∧
      0 ∉ grupos g := by
  obtain ⟨hpos, hmax⟩ := limites_de_dist dist pts hdist
  obtain ⟨g1, g3, c, _, _, _, _, hg3, hl3, _, _, _, hvl, hflor, hves, r1, r2, r3, r4⟩ :=
    executarPrim_spec dist pts hn hpos hmax k (by omega)
  -- the number of groups is the number of components of the pruned forest
  have hc : c = k + 1 := by
    have h1 : ((Finset.range pts.length).image (grupoDe g3)).card = c := by
      have : (Finset.range pts.length).image (grupoDe g3) = Finset.Icc 1 c := by
        ext l
        simp only [Finset.mem_image, Finset.mem_range, Finset.mem_Icc]
        constructor
        · rintro ⟨x, hx, rfl⟩
          exact r2 x hx
        · rintro ⟨h1, h2⟩
          exact r3 l h1 h2
      rw [this, Nat.card_Icc]
      omega
    have h2 : ((Finset.range pts.length).image (grupoDe g3)).card =
        numComponentes pts.length (vivas g3) := by
      unfold numComponentes
      apply card_image_eq_of_nucleo
      intro x hx y hy
      rw [rotulos_eq_iff]
      exact r1 x y (Finset.mem_range.1 hx) (Finset.mem_range.1 hy)
    have h3 := numComponentes_floresta pts.length (vivas g3).reverse
      (fun e he => hves e (List.mem_reverse.1 he)) hflor
    rw [numComponentes_reverse, List.length_reverse] at h3
    omega
  subst hc
  refine ⟨g3, hg3, by simp [grupos, hl3], ?_, ?_, ?_, ?_⟩
  · intro x hx
    obtain ⟨u, hu, rfl⟩ := (mem_grupos g3 x).1 hx
    exact r2 u (by rw [← hl3]; exact hu)
  · intro l h1 h2
    obtain ⟨x, hx, hxl⟩ := r3 l h1 h2
    exact (mem_grupos g3 l).2 ⟨x, by rw [hl3]; exact hx, hxl⟩
  · rw [getElem?_grupos g3 0 (by rw [hl3]; omega), r4]
  · intro h0
    obtain ⟨u, hu, hu0⟩ := (mem_grupos g3 0).1 h0
    have := (r2 u (by rw [← hl3]; exact hu)).1
    omega

/-- Witness for the amended claim C3: the points (0,0), (0,1), (0,2), (10,10) with k = 1. -/
theorem executarPrim_k_mais_um_grupos_witness :
    ∃ g, executarPrim (construir distMili false [(0, 0), (0, 1), (0, 2), (10, 10)])
        ((1 : Nat) : Int) = .ok g ∧
      (grupos g).length = [((0 : ℚ), (0 : ℚ)), (0, 1), (0, 2), (10, 10)].length ∧
      (∀ x ∈ grupos g, 1 ≤ x ∧ x ≤ 1 + 1) ∧
      (∀ l, 1 ≤ l → l ≤ 1 + 1 → l ∈ grupos g) ∧
      (grupos g)[0]? = some 1 ∧
      0 ∉ grupos g :=
  executarPrim_k_mais_um_grupos distMili [(0, 0), (0, 1), (0, 2), (10, 10)] (by decide)
    (by decide) 1 (by decide)

/-- Claim C3, counterexample. For the points (0,0), (1,0), (10^200,0) the distance from the
third point to the other two is +infinity and the third vertex never joins the MST; with
k = 1 the only MST edge is pruned and executarPrim writes the groups 1, 2, 3: three groups,
not k + 1 = 2. -/
theorem executarPrim_k_mais_um_grupos_contraexemplo :
    gruposPrim (executarPrim (construir distDupla false [(0, 0), (1, 0), (longe, 0)])
      ((1 : Nat) : Int)) = some [1, 2, 3] := by
  decide

end KruskalPrim

namespace KruskalPrim

/-- Claim C5, amended. For a graph built in Prim mode from n >= 1 points, with every
distance computed for the input points below the largest double (the initial tentative
weight: no square has overflowed to +infinity), the Prim loop of executarPrim ends with
every vertex marked naMst and with n - 1 MST edges that form a spanning tree: the edge set
is acyclic and links all vertices, and each recorded edge joins the parent pai of a vertex v
to v, two distinct vertices of the graph, with the weight the graph gives that pair. -/
theorem primMST_arvore_geradora (dist : ℚ × ℚ → ℚ × ℚ → ℚ) (pts : List (ℚ × ℚ))
    (hn : 1 ≤ pts.length) (hdist : ∀ p ∈ pts, ∀ q ∈ pts, dist p q < pesoMax) :
    ∃ g, primMST (construir dist false pts) = .ok g ∧
      g.vertices.length = pts.length ∧
      (∀ v ∈ g.vertices, v.naMst = true) ∧
      g.nosMST.length = pts.length - 1 ∧
      Aciclico (pares g.nosMST) ∧
      (∀ u v, u < pts.length → v < pts.length → Ligados (pares g.nosMST) u v) ∧
      (∀ a ∈ g.nosMST, a.origem < pts.length ∧ a.destino < pts.length ∧
        a.origem ≠ a.destino ∧ a.peso = pesoPar dist pts a.origem a.destino ∧
        ∃ vd, g.vertices[a.destino]? = some vd ∧ vd.pai = (a.origem : Int)) := by
  have hmax : ∀ i j, i < pts.length → j < pts.length → i ≠ j →
      pesoPar dist pts i j < pesoMax :=
    fun i j hi hj _ => pesoPar_limites dist pts (fun w => w < pesoMax) hdist i j hi hj
  obtain ⟨g, hg, hb, htodos, hes, hlen⟩ := primMST_arvore dist pts hn hmax
  have hcon : ∀ x, x < pts.length → Ligados (pares g.nosMST) 0 x :=
    fun x hx => hb.hcon x (htodos x hx)
  refine ⟨g, hg, hb.hlen, ?_, by omega, ?_, ?_, ?_⟩
  · intro v hv
    obtain ⟨i, hi⟩ := List.mem_iff_getElem?.1 hv
    have hil : i < pts.length := by rw [← hb.hlen]; exact (List.getElem?_eq_some.1 hi).1
    obtain ⟨w, hw, hwn⟩ := htodos i hil
    rw [hi] at hw
    cases hw
    exact hwn
  · exact aciclico_of_arvore pts.length _ hes (by simp only [pares, List.length_map]; exact hlen)
      hcon
  · intro u v hu hv
    exact (hcon u hu).symm.trans (hcon v hv)
  · intro a ha
    obtain ⟨h1, h2, h3, h4, h5⟩ := hb.hnos a ha
    exact ⟨by rw [← hb.hlen]; exact emMST_lt g _ h1, by rw [← hb.hlen]; exact emMST_lt g _ h2,
      h4, h3, h5⟩

/-- Witness for the amended claim C5: the points (0,0), (0,1), (0,2), (10,10). -/
theorem primMST_arvore_geradora_witness :
    ∃ g, primMST (construir distMili false [(0, 0), (0, 1), (0, 2), (10, 10)]) = .ok g ∧
      g.vertices.length = [((0 : ℚ), (0 : ℚ)), (0, 1), (0, 2), (10, 10)].length ∧
      (∀ v ∈ g.vertices, v.naMst = true) ∧
      g.nosMST.length = [((0 : ℚ), (0 : ℚ)), (0, 1), (0, 2), (10, 10)].length - 1 ∧
      Aciclico (pares g.nosMST) ∧
      (∀ u v, u < [((0 : ℚ), (0 : ℚ)), (0, 1), (0, 2), (10, 10)].length →
        v < [((0 : ℚ), (0 : ℚ)), (0, 1), (0, 2), (10, 10)].length →
        Ligados (pares g.nosMST) u v) ∧
      (∀ a ∈ g.nosMST, a.origem < [((0 : ℚ), (0 : ℚ)), (0, 1), (0, 2), (10, 10)].length ∧
        a.destino < [((0 : ℚ), (0 : ℚ)), (0, 1), (0, 2), (10, 10)].length ∧
        a.origem ≠ a.destino ∧
        a.peso = pesoPar distMili [(0, 0), (0, 1), (0, 2), (10, 10)] a.origem a.destino ∧
        ∃ vd, g.vertices[a.destino]? = some vd ∧ vd.pai = (a.origem : Int)) :=
  primMST_arvore_geradora distMili [(0, 0), (0, 1), (0, 2), (10, 10)] (by decide) (by decide)

/-- With more edges to remove than the MST has, the pruning loop of executarPrim
dereferences the end of the MST list. -/
theorem executarPrim_fora_dos_limites (dist : ℚ × ℚ → ℚ × ℚ → ℚ) (pts : List (ℚ × ℚ))
    (hn : 1 ≤ pts.length) (hdist : ∀ p ∈ pts, ∀ q ∈ pts, dist p q < pesoMax)
    (k : Nat) (hk : pts.length - 1 < k) :
    executarPrim (construir dist false pts) (k : Int) = .error .foraDosLimites := by
  have hmax : ∀ i j, i < pts.length → j < pts.length → i ≠ j →
      pesoPar dist pts i j < pesoMax :=
    fun i j hi hj _ => pesoPar_limites dist pts (fun w => w < pesoMax) hdist i j hi hj
  obtain ⟨g, hg, hb, _, _, hlen⟩ := primMST_arvore dist pts hn hmax
  have hordl : (ordenarMST g.nosMST g.arestasMST).length = g.nosMST.length := by
    rw [(ordenarMST_perm g.nosMST g.arestasMST).length_eq, hb.hord, List.length_range]
  have h2 := podarMST_erro g (k : Int) (by
    rw [Int.toNat_ofNat]
    exact podar_erro k _ _ (by rw [hordl]; omega))
  unfold executarPrim
  simp only [hg, h2, bind, Except.bind]

/-- Two runs with a removal count above the number of MST edges: one point with the removal
count 6 of main, and the four points (0,0), (0,1), (0,2), (10,10) with removal count 4. In
both the pruning loop steps past the last MST edge and writes through the end iterator of
the list, which the C++ standard leaves undefined; the embedding reports foraDosLimites. -/
theorem executarPrim_remocao_excessiva :
    erroPrim (executarPrim (construir distMili false [(0, 0)]) 6) = some .foraDosLimites ∧
    erroPrim (executarPrim (construir distMili false [(0, 0), (0, 1), (0, 2), (10, 10)]) 4) =
      some .foraDosLimites := by
  decide

/-- Claim C5, counterexample. For the points (0,0), (1,0), (10^200,0) the distance from the
third point to the other two is +infinity, which is not below the initial tentative weight,
the largest double: the Prim loop of executarPrim ends with the third vertex not marked
naMst and with one MST edge, not n - 1 = 2. -/
theorem primMST_arvore_geradora_contraexemplo :
    (grafoPrim (primMST (construir distDupla false [(0, 0), (1, 0), (longe, 0)]))).map
        (fun g => (g.vertices.map (fun v => v.naMst), g.nosMST)) =
      some ([true, true, false], [Aresta.mk 1000 0 1]) := by
  decide

end KruskalPrim

namespace KruskalPrim

/-! ## Prim and Kruskal on distinct weights -/

/-- Paths stay among the vertices the edges join. -/
theorem ligados_dentro (n : Nat) (es : List (Nat × Nat)) (hes : ∀ e ∈ es, e.1 < n ∧ e.2 < n)
    (x y : Nat) (h : Ligados es x y) : x = y ∨ (x < n ∧ y < n) := by
  induction h with
  | rel a b hab => exact Or.inr (hes _ hab)
  | refl a => exact Or.inl rfl
  | symm a b _ ih =>
    rcases ih with h | h
    · exact Or.inl h.symm
    · exact Or.inr ⟨h.2, h.1⟩
  | trans a b c _ _ ih1 ih2 =>
    rcases ih1 with h1 | h1
    · rw [h1]; exact ih2
    · rcases ih2 with h2 | h2
      · rw [← h2]; exact Or.inr h1
      · exact Or.inr ⟨h1.1, h2.2⟩

/-- The order given by the sort of the MST list is by decreasing weight. -/
theorem ordenarMST_sorted (nos : List Aresta) (ordem : List Nat) :
    (ordenarMST nos ordem).Pairwise
      (fun a b => ((nos[a]?).map (fun x => x.peso)).getD 0 ≥
        ((nos[b]?).map (fun x => x.peso)).getD 0) := by
  haveI : IsTotal Nat (fun a b => ((nos[a]?).map (fun x => x.peso)).getD 0 ≥
      ((nos[b]?).map (fun x => x.peso)).getD 0) := ⟨fun a b => le_total _ _⟩
  haveI : IsTrans Nat (fun a b => ((nos[a]?).map (fun x => x.peso)).getD 0 ≥
      ((nos[b]?).map (fun x => x.peso)).getD 0) := ⟨fun a b c h1 h2 => le_trans h2 h1⟩
  exact List.sorted_insertionSort _ ordem

/-- Claim C6, counterexample. For the points (0,0), (1,0), (10^200,0) the distance from the
third point to the other two is +infinity, which is not below the initial tentative weight,
the largest double: the Prim loop of executarPrim leaves the single edge between the first
two vertices in the MST list, which is not a spanning tree of the three vertices, as no path
reaches the third. -/
theorem primMST_peso_minimo_contraexemplo :
    nosPrim (primMST (construir distDupla false [(0, 0), (1, 0), (longe, 0)])) =
      some [Aresta.mk 1000 0 1] ∧
    ¬ ArvoreGeradora 3 (pares [Aresta.mk 1000 0 1]) := by
  refine ⟨by decide, ?_⟩
  rintro ⟨_, _, h⟩
  have := ligados_dentro 2 (pares [Aresta.mk 1000 0 1]) (by decide) 0 2
    (h 0 2 (by decide) (by decide))
  omega

end KruskalPrim

namespace KruskalPrim

end KruskalPrim

namespace KruskalPrim

end KruskalPrim

namespace KruskalPrim

/-! ## Labelling an already labelled graph -/

/-- The labelling loop skips every vertex that has a group. -/
theorem rotular_rotulado (fuel : Nat) (g : Grafo) (hrot : ∀ v ∈ g.vertices, v.grupo ≠ 0) :
    ∀ (L : List Nat) (c : Nat), (∀ i ∈ L, i < g.vertices.length) →
      rotular fuel L g c = .ok (g, c) := by
  intro L
  induction L with
  | nil => intro c _; rfl
  | cons i L ih =>
    intro c hL
    have hi : i < g.vertices.length := hL i (List.mem_cons_self _ _)
    have hv : g.vertices[i]? = some g.vertices[i] := List.getElem?_eq_getElem hi
    rw [rotular_cons]
    simp only [obter_ok hv, bind, Except.bind]
    rw [if_neg (hrot _ (List.getElem_mem hi))]
    exact ih c (fun j hj => hL j (List.mem_cons_of_mem _ hj))

/-- Claim C11. On a graph in which every vertex has a non-zero group, the labelling pass of
executarPrim (the loop that calls agruparPrim for each vertex of group 0) returns the graph
unchanged; and a call of agruparPrim on a vertex whose group is not 0 returns the graph
unchanged, whatever the group passed. -/
theorem rotulacao_idempotente (g : Grafo) :
    ((∀ v ∈ g.vertices, v.grupo ≠ 0) → rotularGrupos g = .ok g) ∧
    (∀ (i : Nat) (v : Vertice), g.vertices[i]? = some v → v.grupo ≠ 0 →
      ∀ fuel grupo : Nat, agruparPrim (fuel + 1) g i grupo = .ok g) := by
  constructor
  · intro hrot
    unfold rotularGrupos
    rw [rotular_rotulado _ g hrot (List.range g.size) 0
      (fun i hi => by simpa [Grafo.size] using hi)]
    rfl
  · intro i v hv hg fuel grupo
    rw [agruparPrim_succ]
    simp only [obter_ok hv, bind, Except.bind]
    rw [if_neg hg]
    rfl

/-- Witness for claim C11: the graph executarPrim leaves for the points (0,0), (0,1), (0,2),
(10,10) with one edge removed; labelling it again, or calling agruparPrim on its vertex 3
with group 7, changes nothing. -/
theorem rotulacao_idempotente_witness :
    ∃ g, executarPrim (construir distMili false [(0, 0), (0, 1), (0, 2), (10, 10)])
        ((1 : Nat) : Int) = .ok g ∧
      rotularGrupos g = .ok g ∧ agruparPrim (4 + 1) g 3 7 = .ok g := by
  obtain ⟨hpos, hmax⟩ := limites_de_dist distMili [(0, 0), (0, 1), (0, 2), (10, 10)]
    (by decide)
  obtain ⟨g1, g3, c, _, _, _, _, hg3, hl3, _, _, _, _, _, _, _, r2, _⟩ :=
    executarPrim_spec distMili [(0, 0), (0, 1), (0, 2), (10, 10)] (by decide) hpos hmax 1
      (by decide)
  have hrot : ∀ v ∈ g3.vertices, v.grupo ≠ 0 := by
    intro v hv
    obtain ⟨i, hi, hvi⟩ := List.getElem_of_mem hv
    have h1 := (r2 i (by rw [← hl3]; exact hi)).1
    rw [grupoDe_eq (List.getElem?_eq_getElem hi), hvi] at h1
    omega
  have h3 : 3 < g3.vertices.length := by rw [hl3]; decide
  exact ⟨g3, hg3, (rotulacao_idempotente g3).1 hrot,
    (rotulacao_idempotente g3).2 3 g3.vertices[3] (List.getElem?_eq_getElem h3)
      (hrot _ (List.getElem_mem h3)) 4 7⟩

end KruskalPrim

namespace KruskalPrim

/-! ## The graph built by adicionarVertice -/

theorem completo_length (dist : ℚ × ℚ → ℚ × ℚ → ℚ) (pts : List (ℚ × ℚ)) :
    (completo dist pts).length = pts.length * (pts.length - 1) / 2 := by
  induction pts using List.reverseRecOn with
  | nil => rfl
  | append_singleton pts p ih =>
    rw [completo_snoc, List.length_append, ih, List.length_map, List.length_range,
      List.length_append, List.length_singleton, Nat.triangle_succ]

theorem completo_nodup (dist : ℚ × ℚ → ℚ × ℚ → ℚ) (pts : List (ℚ × ℚ)) :
    (completo dist pts).Nodup := by
  induction pts using List.reverseRecOn with
  | nil => exact List.nodup_nil
  | append_singleton pts p ih =>
    rw [completo_snoc, List.nodup_append]
    refine ⟨ih, ?_, ?_⟩
    · apply List.Nodup.map_on _ (List.nodup_range _)
      intro x _ y _ h
      exact (Aresta.mk.injEq _ _ _ _ _ _ ▸ h).2.2
    · intro a ha hb
      obtain ⟨_, h2, _⟩ := (mem_completo dist pts a).1 ha
      obtain ⟨j, _, hj⟩ := List.mem_map.1 hb
      rw [← hj] at h2
      simp only at h2
      omega

/-- A list without repetition holds exactly one entry with a property that singles out one
of its entries. -/
theorem length_filter_unico {α : Type} [DecidableEq α] (l : List α) (a : α) (p : α → Bool)
    (hnd : l.Nodup) (ha : a ∈ l) (hp : ∀ x ∈ l, (p x = true ↔ x = a)) :
    (l.filter p).length = 1 := by
  rw [← List.countP_eq_length_filter, ← List.count_eq_one_of_mem hnd ha, List.count_eq_countP]
  apply List.countP_congr
  intro x hx
  rw [hp x hx]
  simp

theorem adjacentesDe_length (dist : ℚ × ℚ → ℚ × ℚ → ℚ) (pts : List (ℚ × ℚ)) (i : Nat)
    (hi : i < pts.length) : (adjacentesDe dist pts i).length = pts.length - 1 := by
  unfold adjacentesDe
  rw [List.length_map]
  have h := List.Nodup.erase_eq_filter (List.nodup_range pts.length) i
  have h2 : (List.range pts.length).filter (fun j => decide (j ≠ i)) =
      (List.range pts.length).filter (fun x => x != i) := by
    apply List.filter_congr
    intro x _
    by_cases hx : x = i <;> simp [hx]
  rw [h2, ← h, List.length_erase_of_mem (List.mem_range.2 hi), List.length_range]

theorem adjacentesDe_unico (dist : ℚ × ℚ → ℚ × ℚ → ℚ) (pts : List (ℚ × ℚ)) (i j : Nat)
    (hj : j < pts.length) (hji : j ≠ i) :
    ((adjacentesDe dist pts i).filter (fun p => decide (p.2 = j))).length = 1 := by
  apply length_filter_unico _ (pesoPar dist pts i j, j)
  · unfold adjacentesDe
    apply List.Nodup.map_on _ ((List.nodup_range _).filter _)
    intro x _ y _ h
    exact (Prod.mk.injEq _ _ _ _ ▸ h).2
  · exact (mem_adjacentesDe dist pts i _).2 ⟨hj, hji, rfl⟩
  · intro x hx
    obtain ⟨_, _, h3⟩ := (mem_adjacentesDe dist pts i x).1 hx
    simp only [decide_eq_true_eq]
    constructor
    · intro h
      apply Prod.ext
      · rw [h3, h]
      · exact h
    · intro h; rw [h]

/-- Claim C12. After one adicionarVertice per input point on an empty graph, with n the
number of points: in Kruskal mode arestas has n(n-1)/2 records, every record joins two
distinct vertices of the graph, every pair of distinct vertices has exactly one record, and
all adjacency lists are empty; in Prim mode arestas is empty and vertex i has n-1 adjacency
entries, exactly one for each other vertex j and none for any other index, and the weight of
the entry for j is also the weight of the entry of j for i. -/
theorem construir_arestas_completas (dist : ℚ × ℚ → ℚ × ℚ → ℚ) (pts : List (ℚ × ℚ)) :
    ((construir dist true pts).arestas.length = pts.length * (pts.length - 1) / 2 ∧
      (construir dist true pts).vertices.length = pts.length ∧
      (∀ a ∈ (construir dist true pts).arestas,
        a.origem < pts.length ∧ a.destino < pts.length ∧ a.origem ≠ a.destino) ∧
      (∀ i j, i < pts.length → j < pts.length → i ≠ j →
        ((construir dist true pts).arestas.filter (fun a =>
          decide ((a.origem = i ∧ a.destino = j) ∨ (a.origem = j ∧ a.destino = i)))).length
          = 1) ∧
      (∀ v ∈ (construir dist true pts).vertices, v.adjacentes = [])) ∧
    ((construir dist false pts).arestas = [] ∧
      (construir dist false pts).vertices.length = pts.length ∧
      (∀ (i : Nat) (v : Vertice), (construir dist false pts).vertices[i]? = some v →
        v.adjacentes.length = pts.length - 1 ∧
        (∀ p ∈ v.adjacentes, p.2 < pts.length ∧ p.2 ≠ i) ∧
        (∀ j, j < pts.length → j ≠ i →
          (v.adjacentes.filter (fun p => decide (p.2 = j))).length = 1) ∧
        (∀ (w : ℚ) (j : Nat), (w, j) ∈ v.adjacentes →
          ∃ vj, (construir dist false pts).vertices[j]? = some vj ∧
            (w, i) ∈ vj.adjacentes))) := by
  rw [construir_kruskal, construir_prim]
  simp only
  refine ⟨⟨completo_length dist pts, by simp, ?_, ?_, ?_⟩, trivial, by simp, ?_⟩
  · intro a ha
    obtain ⟨h1, h2, _⟩ := (mem_completo dist pts a).1 ha
    exact ⟨h2, by omega, by omega⟩
  · -- the record of the pair is the one created when the later of the two was added
    intro i j hi hj hij
    apply length_filter_unico _
      (Aresta.mk (pesoPar dist pts (max i j) (min i j)) (max i j) (min i j))
      _ (completo_nodup dist pts)
    · apply (mem_completo dist pts _).2
      simp only
      refine ⟨?_, ?_, trivial⟩
      · rcases Nat.lt_or_gt_of_ne hij with h | h
        · rw [max_eq_right (le_of_lt h), min_eq_left (le_of_lt h)]; exact h
        · rw [max_eq_left (le_of_lt h), min_eq_right (le_of_lt h)]; exact h
      · exact max_lt hi hj
    · intro x hx
      obtain ⟨h1, h2, h3⟩ := (mem_completo dist pts x).1 hx
      simp only [decide_eq_true_eq]
      constructor
      · intro h
        have hmm : x.origem = max i j ∧ x.destino = min i j := by
          rcases h with ⟨ha, hb⟩ | ⟨ha, hb⟩
          · rw [ha, hb] at h1
            rw [ha, hb, max_eq_left (le_of_lt h1), min_eq_right (le_of_lt h1)]
            exact ⟨rfl, rfl⟩
          · rw [ha, hb] at h1
            rw [ha, hb, max_eq_right (le_of_lt h1), min_eq_left (le_of_lt h1)]
            exact ⟨rfl, rfl⟩
        cases x
        simp only at hmm h3
        rw [Aresta.mk.injEq]
        exact ⟨by rw [h3, hmm.1, hmm.2], hmm.1, hmm.2⟩
      · intro h
        rw [h]
        simp only
        rcases Nat.lt_or_gt_of_ne hij with h | h
        · right
          rw [max_eq_right (le_of_lt h), min_eq_left (le_of_lt h)]
          exact ⟨rfl, rfl⟩
        · left
          rw [max_eq_left (le_of_lt h), min_eq_right (le_of_lt h)]
          exact ⟨rfl, rfl⟩
  · intro v hv
    obtain ⟨p, _, hp⟩ := List.mem_map.1 hv
    rw [← hp]
  · intro i v hv
    have hi : i < pts.length := by
      have := (List.getElem?_eq_some.1 hv).1
      simpa using this
    rw [getElem?_vertices_construir dist pts i hi] at hv
    have hadj : v.adjacentes = adjacentesDe dist pts i := by
      rw [← Option.some.inj hv]; rfl
    rw [hadj]
    refine ⟨adjacentesDe_length dist pts i hi, ?_, ?_, ?_⟩
    · intro p hp
      obtain ⟨h1, h2, _⟩ := (mem_adjacentesDe dist pts i p).1 hp
      exact ⟨h1, h2⟩
    · intro j hj hji
      exact adjacentesDe_unico dist pts i j hj hji
    · intro w j hw
      obtain ⟨h1, h2, h3⟩ := (mem_adjacentesDe dist pts i (w, j)).1 hw
      simp only at h1 h2 h3
      refine ⟨verticeDe dist pts j, getElem?_vertices_construir dist pts j h1, ?_⟩
      apply (mem_adjacentesDe dist pts j (w, i)).2
      simp only
      exact ⟨hi, fun h => h2 h.symm, by rw [h3]; exact pesoPar_comm dist pts i j⟩

/-- Witness for claim C12: four points give 6 records in Kruskal mode, and in Prim mode the
adjacency list of vertex 3 holds the distances to the vertices 0, 1 and 2, in thousandths. -/
theorem construir_arestas_completas_witness :
    ((construir distMili true [(0, 0), (0, 1), (0, 2), (10, 10)]).arestas.length = 6 ∧
      ((construir distMili false [(0, 0), (0, 1), (0, 2), (10, 10)]).vertices.map
        (fun v => v.adjacentes))[3]? = some [(14142, 0), (13453, 1), (12806, 2)]) ∧
    (construir distMili true [(0, 0), (0, 1), (0, 2), (10, 10)]).arestas.length =
      [((0 : ℚ), (0 : ℚ)), (0, 1), (0, 2), (10, 10)].length *
        ([((0 : ℚ), (0 : ℚ)), (0, 1), (0, 2), (10, 10)].length - 1) / 2 :=
  ⟨by decide,
    (construir_arestas_completas distMili [(0, 0), (0, 1), (0, 2), (10, 10)]).1.1⟩

end KruskalPrim

namespace KruskalPrim

/-! ## The pruning step -/

/-- Claim C13, amended. For a graph built in Prim mode from n >= 1 points, with every
distance computed for the input points a finite double (at least 0 and below the largest
double: no square has overflowed to +infinity), and 0 <= k <= n - 1, the pruning step of
executarPrim, run on the result of the Prim loop, overwrites with -1 the weight of the first
k edges of the sorted MST list, k distinct edges, and of no other edge (so exactly k of the
n - 1 edges end with weight -1); it changes no end point and no other weight; and every
pruned edge weighed at least as much as every edge left unpruned. -/
theorem podarMST_k_mais_pesadas (dist : ℚ × ℚ → ℚ × ℚ → ℚ) (pts : List (ℚ × ℚ))
    (hn : 1 ≤ pts.length) (hdist : ∀ p ∈ pts, ∀ q ∈ pts, 0 ≤ dist p q ∧ dist p q < pesoMax)
    (k : Nat) (hk : k ≤ pts.length - 1) :
    ∃ g1 g2, primMST (construir dist false pts) = .ok g1 ∧ podarMST g1 (k : Int) = .ok g2 ∧
      g2.vertices = g1.vertices ∧
      g1.nosMST.length = pts.length - 1 ∧ g2.nosMST.length = pts.length - 1 ∧
      (g2.arestasMST.take k).Nodup ∧ (g2.arestasMST.take k).length = k ∧
      (∀ id ∈ g2.arestasMST.take k, id < pts.length - 1) ∧
      (∀ (id : Nat) (a : Aresta), g1.nosMST[id]? = some a →
        ∃ a', g2.nosMST[id]? = some a' ∧ a'.origem = a.origem ∧ a'.destino = a.destino ∧
          (id ∈ g2.arestasMST.take k → a'.peso = -1) ∧
          (id ∉ g2.arestasMST.take k → a'.peso = a.peso)) ∧
      (g2.nosMST.filter (fun a => decide (a.peso = -1))).length = k ∧
      (∀ (id id' : Nat) (a a' : Aresta), id ∈ g2.arestasMST.take k →
        id' ∉ g2.arestasMST.take k → g1.nosMST[id]? = some a → g1.nosMST[id']? = some a' →
        a.peso ≥ a'.peso) := by
  obtain ⟨hpos, hmax⟩ := limites_de_dist dist pts hdist
  obtain ⟨g1, hg1, hb, _, _, hlen⟩ := primMST_arvore dist pts hn hmax
  have hperm := ordenarMST_perm g1.nosMST g1.arestasMST
  have hordl : (ordenarMST g1.nosMST g1.arestasMST).length = g1.nosMST.length := by
    rw [hperm.length_eq, hb.hord, List.length_range]
  have hordnd : (ordenarMST g1.nosMST g1.arestasMST).Nodup := by
    rw [hperm.nodup_iff, hb.hord]; exact List.nodup_range _
  have hordmem : ∀ id, id ∈ ordenarMST g1.nosMST g1.arestasMST ↔ id < g1.nosMST.length := by
    intro id
    rw [hperm.mem_iff, hb.hord]
    exact List.mem_range
  have hpeso : ∀ a ∈ g1.nosMST, a.peso ≥ 0 := by
    intro a ha
    obtain ⟨q1, q2, q3, _⟩ := hb.hnos a ha
    rw [q3]
    exact hpos _ _ (by rw [← hb.hlen]; exact emMST_lt g1 _ q1)
      (by rw [← hb.hlen]; exact emMST_lt g1 _ q2)
  obtain ⟨nos', hpod, hnl, hform⟩ := podar_ok k (ordenarMST g1.nosMST g1.arestasMST) g1.nosMST
    (by rw [hordl]; omega)
  have hg2 := podarMST_eq g1 (k : Int) nos' (by rw [Int.toNat_ofNat]; exact hpod)
  refine ⟨g1, _, hg1, hg2, rfl, by omega, by simp only; omega, ?_, ?_, ?_, ?_, ?_, ?_⟩
  · exact hordnd.sublist (List.take_sublist _ _)
  · simp only [List.length_take]
    rw [hordl]; omega
  · intro id hid
    have := (hordmem id).1 (List.mem_of_mem_take hid)
    omega
  · intro id a ha
    simp only
    by_cases hin : id ∈ (ordenarMST g1.nosMST g1.arestasMST).take k
    · refine ⟨{ a with peso := -1 }, ?_, rfl, rfl, fun _ => rfl, fun h => absurd hin h⟩
      rw [hform id, ha]
      simp only [Option.map_some', if_pos hin]
    · refine ⟨a, ?_, rfl, rfl, fun h => absurd h hin, fun _ => rfl⟩
      rw [hform id, ha]
      simp only [Option.map_some', if_neg hin]
  · -- the edges of weight -1 are those that are no longer of weight at least 0
    simp only
    have hviv := podar_vivos k (ordenarMST g1.nosMST g1.arestasMST) g1.nosMST hordnd
      (by
        intro id hid
        have hlt := (hordmem id).1 hid
        exact ⟨g1.nosMST[id], List.getElem?_eq_getElem hlt, hpeso _ (List.getElem_mem hlt)⟩)
      (by rw [hordl]; omega) nos' hpod
    have hall : g1.nosMST.filter (fun a => decide (a.peso ≥ 0)) = g1.nosMST :=
      List.filter_eq_self.2 (fun a ha => by simpa using hpeso a ha)
    rw [hall] at hviv
    have hsplit := List.length_eq_length_filter_add (l := nos')
      (fun a => decide (a.peso ≥ 0))
    have hneg : nos'.filter (fun a => decide (a.peso = -1)) =
        nos'.filter (fun a => !decide (a.peso ≥ 0)) := by
      apply List.filter_congr
      intro a' ha'
      obtain ⟨id, hid⟩ := List.mem_iff_getElem?.1 ha'
      rw [hform id] at hid
      cases hT : g1.nosMST[id]? with
      | none => rw [hT] at hid; simp at hid
      | some a =>
        rw [hT] at hid
        simp only [Option.map_some', Option.some.injEq] at hid
        have hap := hpeso a (List.mem_iff_getElem?.2 ⟨id, hT⟩)
        by_cases hin : id ∈ (ordenarMST g1.nosMST g1.arestasMST).take k
        · rw [if_pos hin] at hid
          rw [← hid]
          simp only
          norm_num
        · rw [if_neg hin] at hid
          rw [← hid]
          have h1 : ¬ a.peso = -1 := by
            intro h; rw [h] at hap; norm_num at hap
          simp [h1, hap]
    rw [hneg]
    omega
  · intro id id' a a' hin hout ha ha'
    simp only at hin hout
    have hsorted := ordenarMST_sorted g1.nosMST g1.arestasMST
    rw [← List.take_append_drop k (ordenarMST g1.nosMST g1.arestasMST)] at hsorted
    have hcut := (List.pairwise_append.1 hsorted).2.2
    have hmem' : id' ∈ ordenarMST g1.nosMST g1.arestasMST :=
      (hordmem id').2 (List.getElem?_eq_some.1 ha').1
    rw [← List.take_append_drop k (ordenarMST g1.nosMST g1.arestasMST)] at hmem'
    rcases List.mem_append.1 hmem' with h | h
    · exact absurd h hout
    · have := hcut id hin id' h
      rw [ha, ha'] at this
      exact this

/-- Witness for the amended claim C13: the points (0,0), (0,1), (0,2), (10,10) with k = 1;
the edge pruned is the MST edge allocated last, the one that reaches (10,10). -/
theorem podarMST_k_mais_pesadas_witness :
    ∃ g1 g2, primMST (construir distMili false [(0, 0), (0, 1), (0, 2), (10, 10)]) = .ok g1 ∧
      podarMST g1 ((1 : Nat) : Int) = .ok g2 ∧
      g2.vertices = g1.vertices ∧
      g1.nosMST.length = [((0 : ℚ), (0 : ℚ)), (0, 1), (0, 2), (10, 10)].length - 1 ∧
      g2.nosMST.length = [((0 : ℚ), (0 : ℚ)), (0, 1), (0, 2), (10, 10)].length - 1 ∧
      (g2.arestasMST.take 1).Nodup ∧ (g2.arestasMST.take 1).length = 1 ∧
      (∀ id ∈ g2.arestasMST.take 1,
        id < [((0 : ℚ), (0 : ℚ)), (0, 1), (0, 2), (10, 10)].length - 1) ∧
      (∀ (id : Nat) (a : Aresta), g1.nosMST[id]? = some a →
        ∃ a', g2.nosMST[id]? = some a' ∧ a'.origem = a.origem ∧ a'.destino = a.destino ∧
          (id ∈ g2.arestasMST.take 1 → a'.peso = -1) ∧
          (id ∉ g2.arestasMST.take 1 → a'.peso = a.peso)) ∧
      (g2.nosMST.filter (fun a => decide (a.peso = -1))).length = 1 ∧
      (∀ (id id' : Nat) (a a' : Aresta), id ∈ g2.arestasMST.take 1 →
        id' ∉ g2.arestasMST.take 1 → g1.nosMST[id]? = some a → g1.nosMST[id']? = some a' →
        a.peso ≥ a'.peso) :=
  podarMST_k_mais_pesadas distMili [(0, 0), (0, 1), (0, 2), (10, 10)] (by decide) (by decide)
    1 (by decide)

/-- Claim C13, counterexample. For the points (0,0), (1,0), (10^200,0) the distance from
the third point to the other two is +infinity and the MST list ends with one edge, not
n - 1 = 2; with k = 1 the pruning step overwrites the weight of that edge and leaves no
edge unpruned, where n - 1 - k = 1 edge should keep its weight. -/
theorem podarMST_k_mais_pesadas_contraexemplo :
    (grafoPrim (primMST (construir distDupla false [(0, 0), (1, 0), (longe, 0)]) >>=
      fun g1 => podarMST g1 ((1 : Nat) : Int))).map (fun g => g.nosMST) =
      some [Aresta.mk (-1) 0 1] := by
  decide

end KruskalPrim

namespace KruskalPrim

/-! ## The scan loop of executarKruskal, turn by turn -/

/-- Once the count of groups has met the target the scan does nothing. -/
theorem kruskalLaco_parado (G : Int) (es : List Aresta) (u : UnionFind) :
    kruskalLaco G es u G = (u, G) ∧ kruskalUnioes G es u G = [] := by
  cases es with
  | nil => exact ⟨rfl, rfl⟩
  | cons a es => simp [kruskalLaco, kruskalUnioes]

/-- Scanning a list is scanning a first part of it and then the rest from the state
reached. -/
theorem kruskalLaco_append (G : Int) (fs : List Aresta) :
    ∀ (es : List Aresta) (u : UnionFind) (qtd : Int),
      kruskalLaco G (es ++ fs) u qtd =
        kruskalLaco G fs (kruskalLaco G es u qtd).1 (kruskalLaco G es u qtd).2 ∧
      kruskalUnioes G (es ++ fs) u qtd =
        kruskalUnioes G es u qtd ++
          kruskalUnioes G fs (kruskalLaco G es u qtd).1 (kruskalLaco G es u qtd).2 := by
  intro es
  induction es with
  | nil => intro u qtd; exact ⟨rfl, rfl⟩
  | cons a es ih =>
    intro u qtd
    by_cases hG : qtd = G
    · subst hG
      have h1 := kruskalLaco_parado qtd (a :: (es ++ fs)) u
      have h2 := kruskalLaco_parado qtd (a :: es) u
      have h3 := kruskalLaco_parado qtd fs u
      rw [List.cons_append, h1.1, h1.2, h2.1, h2.2, h3.1, h3.2]
      exact ⟨rfl, rfl⟩
    · by_cases hr : u.find a.origem = u.find a.destino
      · have hk : ∀ l, kruskalLaco G (a :: l) u qtd = kruskalLaco G l u qtd := by
          intro l; simp [kruskalLaco, hG, hr]
        have hku : ∀ l, kruskalUnioes G (a :: l) u qtd = kruskalUnioes G l u qtd := by
          intro l; simp [kruskalUnioes, hG, hr]
        rw [List.cons_append, hk, hku, hk, hku]
        exact ih u qtd
      · have hk : ∀ l, kruskalLaco G (a :: l) u qtd =
            kruskalLaco G l (u.Union a.origem a.destino) (qtd - 1) := by
          intro l; simp [kruskalLaco, hG, hr]
        have hku : ∀ l, kruskalUnioes G (a :: l) u qtd =
            a :: kruskalUnioes G l (u.Union a.origem a.destino) (qtd - 1) := by
          intro l; simp [kruskalUnioes, hG, hr]
        rw [List.cons_append, hk, hku, hk, hku, List.cons_append]
        obtain ⟨h1, h2⟩ := ih (u.Union a.origem a.destino) (qtd - 1)
        exact ⟨h1, by rw [h2]⟩

/-- The invariant of the scan loop in terms of the edges on which Union was called: they
form a forest whose components are the classes of the union-find. -/
theorem kruskalUnioes_spec (n : Nat) (G : Int) (es : List Aresta)
    (hes : ∀ a ∈ es, a.origem < n ∧ a.destino < n) :
    ∀ (u : UnionFind) (qtd : Int) (A : List (Nat × Nat)), u.Valido → u.pai.length = n →
      (∀ x y, x < n → y < n → (u.find x = u.find y ↔ Ligados A x y)) →
      (∀ e ∈ A, e.1 < n ∧ e.2 < n) →
      qtd = (numComponentes n A : Int) → Floresta A →
      (∀ x y, x < n → y < n →
        ((kruskalLaco G es u qtd).1.find x = (kruskalLaco G es u qtd).1.find y ↔
          Ligados ((pares (kruskalUnioes G es u qtd)).reverse ++ A) x y)) ∧
      (kruskalLaco G es u qtd).2 =
        (numComponentes n ((pares (kruskalUnioes G es u qtd)).reverse ++ A) : Int) ∧
      Floresta ((pares (kruskalUnioes G es u qtd)).reverse ++ A) ∧
      (∀ e ∈ kruskalUnioes G es u qtd, e ∈ es) := by
  induction es with
  | nil =>
    intro u qtd A _ _ hrep _ hq hfl
    refine ⟨?_, ?_, ?_, ?_⟩
    · simpa [kruskalLaco, kruskalUnioes, pares] using hrep
    · simpa [kruskalLaco, kruskalUnioes, pares] using hq
    · simpa [kruskalUnioes, pares] using hfl
    · simp [kruskalUnioes]
  | cons a es ih =>
    intro u qtd A hv hl hrep hA hq hfl
    have hes2 : ∀ a ∈ es, a.origem < n ∧ a.destino < n :=
      fun b hb => hes b (List.mem_cons_of_mem _ hb)
    obtain ⟨ha1, ha2⟩ := hes a (List.mem_cons_self _ _)
    by_cases hG : qtd = G
    · subst hG
      have h1 := kruskalLaco_parado qtd (a :: es) u
      rw [h1.1, h1.2]
      refine ⟨?_, ?_, ?_, ?_⟩
      · simpa [pares] using hrep
      · simpa [pares] using hq
      · simpa [pares] using hfl
      · simp
    · by_cases hr : u.find a.origem = u.find a.destino
      · have hk : kruskalLaco G (a :: es) u qtd = kruskalLaco G es u qtd := by
          simp [kruskalLaco, hG, hr]
        have hku : kruskalUnioes G (a :: es) u qtd = kruskalUnioes G es u qtd := by
          simp [kruskalUnioes, hG, hr]
        rw [hk, hku]
        obtain ⟨h1, h2, h3, h4⟩ := ih hes2 u qtd A hv hl hrep hA hq hfl
        exact ⟨h1, h2, h3, fun e he => List.mem_cons_of_mem _ (h4 e he)⟩
      · have hlig : ¬ Ligados A a.origem a.destino := fun h => hr ((hrep _ _ ha1 ha2).2 h)
        obtain ⟨hv2, hspec⟩ := UnionFind.Union_spec u hv a.origem a.destino
          (by rw [hl]; exact ha1) (by rw [hl]; exact ha2)
        have hnc := numComponentes_cons_novo n (a.origem, a.destino) A ha1 ha2 hlig
        have hk : kruskalLaco G (a :: es) u qtd =
            kruskalLaco G es (u.Union a.origem a.destino) (qtd - 1) := by
          simp [kruskalLaco, hG, hr]
        have hku : kruskalUnioes G (a :: es) u qtd =
            a :: kruskalUnioes G es (u.Union a.origem a.destino) (qtd - 1) := by
          simp [kruskalUnioes, hG, hr]
        have hlist : (pares (a :: kruskalUnioes G es (u.Union a.origem a.destino)
            (qtd - 1))).reverse ++ A =
            (pares (kruskalUnioes G es (u.Union a.origem a.destino) (qtd - 1))).reverse ++
              ((a.origem, a.destino) :: A) := by
          simp [pares]
        rw [hk, hku, hlist]
        obtain ⟨h1, h2, h3, h4⟩ := ih hes2 (u.Union a.origem a.destino) (qtd - 1)
          ((a.origem, a.destino) :: A) hv2
          (by rw [UnionFind.Union_length]; exact hl)
          (by
            intro x y hx hy
            rw [hspec x y, ligados_cons, hrep x y hx hy, hrep x _ hx ha1, hrep x _ hx ha2,
              hrep _ y ha1 hy, hrep _ y ha2 hy])
          (by
            intro e he
            rcases List.mem_cons.1 he with rfl | he
            · exact ⟨ha1, ha2⟩
            · exact hA e he)
          (by rw [hq]; omega)
          ⟨hlig, hfl⟩
        refine ⟨h1, h2, h3, ?_⟩
        intro e he
        rcases List.mem_cons.1 he with rfl | he
        · exact List.mem_cons_self _ _
        · exact List.mem_cons_of_mem _ (h4 e he)

/-- When the edges are as many as the components they save, every edge is a bridge. -/
theorem aciclico_of_contagem (n : Nat) (es : List (Nat × Nat))
    (hes : ∀ e ∈ es, e.1 < n ∧ e.2 < n) (h3 : numComponentes n es + es.length = n) :
    Aciclico es := by
  intro i hi hl
  have hmem : ∀ e ∈ es, e = es.get ⟨i, hi⟩ ∨ e ∈ es.eraseIdx i := by
    intro e he
    obtain ⟨j, hj, hje⟩ := List.mem_iff_getElem.1 he
    by_cases hji : j = i
    · left; subst hji; exact hje.symm
    · right; exact List.mem_eraseIdx_iff_getElem.2 ⟨j, hj, hji, hje⟩
  have hsub : ∀ x y, Ligados es x y → Ligados (es.eraseIdx i) x y := by
    intro x y h
    apply Ligados.mono_ligados _ h
    intro a b hab
    rcases hmem _ hab with h1 | h1
    · rw [← h1] at hl; exact hl
    · exact Ligados.aresta h1
  have h1 : numComponentes n (es.eraseIdx i) = numComponentes n es :=
    numComponentes_congr n (fun x y =>
      ⟨hsub x y, Ligados.mono (fun e he => List.mem_of_mem_eraseIdx he)⟩)
  have h2 := numComponentes_ge n (es.eraseIdx i)
    (fun e he => hes e (List.mem_of_mem_eraseIdx he))
  rw [h1, List.length_eraseIdx] at h2
  simp only [hi, if_true] at h2
  omega

end KruskalPrim

namespace KruskalPrim

/-- The state of the scan loop after any number of turns, for a graph built by main. -/
theorem kruskalEstado_spec (dist : ℚ × ℚ → ℚ × ℚ → ℚ) (pts : List (ℚ × ℚ)) (G : Int)
    (i : Nat) :
    (∀ x y, x < pts.length → y < pts.length →
      ((kruskalEstado (construir dist true pts) G i).1.find x =
          (kruskalEstado (construir dist true pts) G i).1.find y ↔
        Ligados (pares (kruskalAceitas (construir dist true pts) G i)).reverse x y)) ∧
    (kruskalEstado (construir dist true pts) G i).2 =
      (numComponentes pts.length
        (pares (kruskalAceitas (construir dist true pts) G i)).reverse : Int) ∧
    Floresta (pares (kruskalAceitas (construir dist true pts) G i)).reverse ∧
    (∀ e ∈ kruskalAceitas (construir dist true pts) G i,
      e.origem < pts.length ∧ e.destino < pts.length) := by
  unfold kruskalEstado kruskalAceitas
  rw [construir_kruskal]
  simp only [Grafo.size, List.length_map]
  have hes : ∀ a ∈ (ordenarArestas (completo dist pts)).take i,
      a.origem < pts.length ∧ a.destino < pts.length := by
    intro a ha
    obtain ⟨h1, h2, _⟩ := (mem_completo dist pts a).1
      ((mem_ordenarArestas _ a).1 (List.mem_of_mem_take ha))
    exact ⟨h2, lt_trans h1 h2⟩
  obtain ⟨h1, h2, h3, h4⟩ := kruskalUnioes_spec pts.length G _ hes
    (UnionFind.criar pts.length) (pts.length : Int) [] (UnionFind.criar_valido _)
    (UnionFind.criar_length _)
    (by
      intro x y _ _
      rw [UnionFind.criar_find, UnionFind.criar_find, ligados_nil])
    (by simp) (by rw [numComponentes_nil]) trivial
  rw [List.append_nil] at h1 h2 h3
  exact ⟨h1, h2, h3, fun e he => hes e (h4 e he)⟩

/-- Claim C15. For a graph built in Kruskal mode, after the scan loop of executarKruskal has
visited any number i of edges of the sorted list: qtdGruposAtual is the number of distinct
roots find gives the n vertices; the edges on which Union was called form a forest (each of
them joined two vertices that the earlier ones did not link, and every one of them is a
bridge), and they are n - qtdGruposAtual; and the turn for the next edge e changes the state
only when the target is not met and the roots of the end points of e differ, in which case
it calls Union on e and takes 1 from qtdGruposAtual. -/
theorem kruskalLaco_invariante (dist : ℚ × ℚ → ℚ × ℚ → ℚ) (pts : List (ℚ × ℚ)) (G : Int)
    (i : Nat) :
    (kruskalEstado (construir dist true pts) G i).2 =
      (((Finset.range (construir dist true pts).size).image
        (kruskalEstado (construir dist true pts) G i).1.find).card : Int) ∧
    Floresta (pares (kruskalAceitas (construir dist true pts) G i)).reverse ∧
    Aciclico (pares (kruskalAceitas (construir dist true pts) G i)) ∧
    ((kruskalAceitas (construir dist true pts) G i).length : Int) =
      ((construir dist true pts).size : Int) - (kruskalEstado (construir dist true pts) G i).2 ∧
    (∀ e, (ordenarArestas (construir dist true pts).arestas)[i]? = some e →
      kruskalEstado (construir dist true pts) G (i + 1) =
        (if (kruskalEstado (construir dist true pts) G i).2 = G then
          kruskalEstado (construir dist true pts) G i
        else if (kruskalEstado (construir dist true pts) G i).1.find e.origem ≠
            (kruskalEstado (construir dist true pts) G i).1.find e.destino then
          ((kruskalEstado (construir dist true pts) G i).1.Union e.origem e.destino,
            (kruskalEstado (construir dist true pts) G i).2 - 1)
        else kruskalEstado (construir dist true pts) G i) ∧
      kruskalAceitas (construir dist true pts) G (i + 1) =
        kruskalAceitas (construir dist true pts) G i ++
          (if (kruskalEstado (construir dist true pts) G i).2 ≠ G ∧
              (kruskalEstado (construir dist true pts) G i).1.find e.origem ≠
                (kruskalEstado (construir dist true pts) G i).1.find e.destino then [e]
          else [])) := by
  obtain ⟨h1, h2, h3, h4⟩ := kruskalEstado_spec dist pts G i
  have hsize : (construir dist true pts).size = pts.length := by
    rw [construir_kruskal]; simp [Grafo.size]
  have hpar : ∀ e ∈ (pares (kruskalAceitas (construir dist true pts) G i)).reverse,
      e.1 < pts.length ∧ e.2 < pts.length := by
    intro e he
    obtain ⟨a, b⟩ := e
    obtain ⟨x, hx, hx1, hx2⟩ := (mem_pares _ a b).1 (List.mem_reverse.1 he)
    rw [← hx1, ← hx2]
    exact h4 x hx
  have hcnt := numComponentes_floresta pts.length _ hpar h3
  rw [List.length_reverse] at hcnt
  have hlen : (pares (kruskalAceitas (construir dist true pts) G i)).length =
      (kruskalAceitas (construir dist true pts) G i).length := by
    unfold pares; rw [List.length_map]
  refine ⟨?_, h3, ?_, ?_, ?_⟩
  · rw [h2, hsize]
    congr 1
    unfold numComponentes
    apply (card_image_eq_of_nucleo _ _ _ _).symm
    intro x hx y hy
    rw [rotulos_eq_iff]
    exact h1 x y (Finset.mem_range.1 hx) (Finset.mem_range.1 hy)
  · apply aciclico_of_contagem pts.length
    · intro e he
      exact hpar e (List.mem_reverse.2 he)
    · rw [← numComponentes_reverse]
      exact hcnt
  · rw [h2, hsize, ← hlen]
    omega
  · intro e he
    have htake : (ordenarArestas (construir dist true pts).arestas).take (i + 1) =
        (ordenarArestas (construir dist true pts).arestas).take i ++ [e] := by
      rw [List.take_succ, he]
      rfl
    obtain ⟨a1, a2⟩ := kruskalLaco_append G [e]
      ((ordenarArestas (construir dist true pts).arestas).take i)
      (UnionFind.criar (construir dist true pts).size) ((construir dist true pts).size : Int)
    constructor
    · show kruskalLaco G ((ordenarArestas (construir dist true pts).arestas).take (i + 1))
        _ _ = _
      rw [htake, a1]
      show kruskalLaco G [e] (kruskalEstado (construir dist true pts) G i).1
        (kruskalEstado (construir dist true pts) G i).2 = _
      generalize kruskalEstado (construir dist true pts) G i = r
      obtain ⟨u, q⟩ := r
      by_cases hq : q = G <;> by_cases hr : u.find e.origem = u.find e.destino <;>
        simp [kruskalLaco, hq, hr]
    · show kruskalUnioes G ((ordenarArestas (construir dist true pts).arestas).take (i + 1))
        _ _ = _
      rw [htake, a2]
      show kruskalAceitas (construir dist true pts) G i ++
        kruskalUnioes G [e] (kruskalEstado (construir dist true pts) G i).1
          (kruskalEstado (construir dist true pts) G i).2 = _
      congr 1
      generalize kruskalEstado (construir dist true pts) G i = r
      obtain ⟨u, q⟩ := r
      by_cases hq : q = G <;> by_cases hr : u.find e.origem = u.find e.destino <;>
        simp [kruskalUnioes, hq, hr]

/-- Witness for claim C15: the points (0,0), (1,0), (3,0) with target 2, after one turn:
one union was made and two groups are left. -/
theorem kruskalLaco_invariante_witness :
    ((kruskalEstado (construir distMili true [(0, 0), (1, 0), (3, 0)]) 2 1).2 = 2 ∧
      (kruskalAceitas (construir distMili true [(0, 0), (1, 0), (3, 0)]) 2 1).length = 1) ∧
    (kruskalEstado (construir distMili true [(0, 0), (1, 0), (3, 0)]) 2 1).2 =
      (((Finset.range (construir distMili true [(0, 0), (1, 0), (3, 0)]).size).image
        (kruskalEstado (construir distMili true [(0, 0), (1, 0), (3, 0)]) 2 1).1.find).card
        : Int) :=
  ⟨by decide, (kruskalLaco_invariante distMili [(0, 0), (1, 0), (3, 0)] 2 1).1⟩

end KruskalPrim

namespace KruskalPrim

/-! ## executarKruskal with a target outside 1..n -/

end KruskalPrim

namespace KruskalPrim

/-! ## Bounds safety of executarPrim -/

/-- The function executarPrim uses numArestasRemover only as the bound of the pruning loop,
which does not run for a bound below 1. -/
theorem executarPrim_toNat (g : Grafo) (k : Int) :
    executarPrim g k = executarPrim g ((k.toNat : Nat) : Int) := by
  unfold executarPrim podarMST
  rw [Int.toNat_ofNat]

/-- Claim C18, amended. A checked access outside a vector, or through the end of the MST
list, makes executarPrim fail with foraDosLimites. For a graph built in Prim mode from n
points, with every distance computed for the input points a finite double (at least 0 and
below the largest double: no square has overflowed to +infinity): with n >= 1 and
numArestasRemover k <= n - 1, executarPrim completes, so every vertex index it uses is one
of the graph and the pruning loop stays within the n - 1 MST edges; with n = 0 it fails at
the seed access to vertex 0; and with n >= 1 and k > n - 1 it fails in the pruning loop,
past the last MST edge. -/
theorem executarPrim_dentro_dos_limites (dist : ℚ × ℚ → ℚ × ℚ → ℚ) (pts : List (ℚ × ℚ))
    (hdist : ∀ p ∈ pts, ∀ q ∈ pts, 0 ≤ dist p q ∧ dist p q < pesoMax) (k : Int) :
    (1 ≤ pts.length → k ≤ (pts.length : Int) - 1 →
      ∃ g, executarPrim (construir dist false pts) k = .ok g) ∧
    (pts.length = 0 →
      executarPrim (construir dist false pts) k = .error .foraDosLimites) ∧
    (1 ≤ pts.length → (pts.length : Int) - 1 < k →
      executarPrim (construir dist false pts) k = .error .foraDosLimites) := by
  refine ⟨?_, ?_, ?_⟩
  · intro hn hk
    obtain ⟨hpos, hmax⟩ := limites_de_dist dist pts hdist
    obtain ⟨g1, g3, c, _, _, _, _, hg3, _⟩ :=
      executarPrim_spec dist pts hn hpos hmax k.toNat (by omega)
    exact ⟨g3, by rw [executarPrim_toNat]; exact hg3⟩
  · intro hn
    have : pts = [] := List.eq_nil_of_length_eq_zero hn
    subst this
    rfl
  · intro hn hk
    rw [executarPrim_toNat]
    exact executarPrim_fora_dos_limites dist pts hn (fun p hp q hq => (hdist p hp q hq).2)
      k.toNat (by omega)

/-- Witness for the amended claim C18: the points (0,0), (0,1), (0,2), (10,10) with removal
count 3 complete with four groups; with the removal count 6 of main they do not. -/
theorem executarPrim_dentro_dos_limites_witness :
    gruposPrim (executarPrim (construir distMili false [(0, 0), (0, 1), (0, 2), (10, 10)]) 3)
      = some [1, 2, 3, 4] ∧
    (∃ g, executarPrim (construir distMili false [(0, 0), (0, 1), (0, 2), (10, 10)]) 3
      = .ok g) ∧
    executarPrim (construir distMili false [(0, 0), (0, 1), (0, 2), (10, 10)]) 6 =
      .error .foraDosLimites :=
  ⟨by decide,
    (executarPrim_dentro_dos_limites distMili [(0, 0), (0, 1), (0, 2), (10, 10)] (by decide)
      3).1 (by decide) (by decide),
    (executarPrim_dentro_dos_limites distMili [(0, 0), (0, 1), (0, 2), (10, 10)] (by decide)
      6).2.2 (by decide) (by decide)⟩

/-- Claim C18, counterexample. For the two points (0,0), (10^200,0), n = 2, the only
distance is +infinity, which is not below the initial tentative weight: the Prim loop
records no MST edge. With k = 1 = n - 1 the pruning loop of executarPrim writes through the
end iterator of the empty MST list, an access out of range. -/
theorem executarPrim_dentro_dos_limites_contraexemplo :
    erroPrim (executarPrim (construir distDupla false [(0, 0), (longe, 0)])
      ((1 : Nat) : Int)) = some .foraDosLimites ∧
    nosPrim (primMST (construir distDupla false [(0, 0), (longe, 0)])) = some [] := by
  decide

end KruskalPrim

namespace KruskalPrim

/-! ## The four-point scenario -/

/-- Claim C16, counterexample. For the points (0,0), (0,1), (0,2), (10,10), numbered 0 to 3,
with distances in thousandths: the only MST edge at vertex 3 comes from vertex 2, the point
(0,2), and weighs 12806, the distance between (0,2) and (10,10); the distance between (0,1)
and (10,10) is 13453, and no MST edge joins the vertices 1 and 3. -/
theorem prim_quatro_pontos_contraexemplo :
    (nosPrim (primMST (construir distMili false [(0, 0), (0, 1), (0, 2), (10, 10)]))).map
        (fun nos => nos.filter (fun a => decide (a.origem = 3 ∨ a.destino = 3))) =
      some [Aresta.mk 12806 2 3] ∧
    distMili (10, 10) (0, 2) = 12806 ∧ distMili (10, 10) (0, 1) = 13453 := by
  decide

/-- Claim C16, amended. For the points (0,0), (0,1), (0,2), (10,10), with distances in
thousandths, the Prim loop of executarPrim records the MST edges 0-1 and 1-2 of weight 1000
and 2-3 of weight 12806: exactly one edge is incident to vertex 3, the point (10,10), it
joins it to (0,2) at their distance, about 12.81, and it is the one edge of maximum weight;
with removal count 1 it is the edge whose weight becomes -1, and the groups are 1, 1, 1, 2. -/
theorem prim_quatro_pontos :
    nosPrim (primMST (construir distMili false [(0, 0), (0, 1), (0, 2), (10, 10)])) =
      some [Aresta.mk 1000 0 1, Aresta.mk 1000 1 2, Aresta.mk 12806 2 3] ∧
    distMili (10, 10) (0, 2) = 12806 ∧
    nosPrim (executarPrim (construir distMili false [(0, 0), (0, 1), (0, 2), (10, 10)]) 1) =
      some [Aresta.mk 1000 0 1, Aresta.mk 1000 1 2, Aresta.mk (-1) 2 3] ∧
    gruposPrim (executarPrim (construir distMili false [(0, 0), (0, 1), (0, 2), (10, 10)]) 1) =
      some [1, 1, 1, 2] := by
  decide

end KruskalPrim

namespace KruskalPrim

/-! ## Termination of agruparPrim -/

/-- Labelling an unlabelled vertex takes it out of the unlabelled ones. -/
theorem semRotulo_marcar (g : Grafo) (i : Nat) (v : Vertice) (hv : g.vertices[i]? = some v)
    (h0 : v.grupo = 0) (c : Nat) (hc : c ≠ 0) :
    (semRotulo (Grafo.mk (g.vertices.set i { v with grupo := c }) g.arestas g.nosMST
      g.arestasMST g.kruskal)).card < (semRotulo g).card := by
  have hi : i < g.vertices.length := (List.getElem?_eq_some.1 hv).1
  apply semRotulo_lt (by simp) _ i hi
  · rw [grupoDe_eq hv]; exact h0
  · rw [grupoDe_set g i v hv c i, if_pos rfl]; exact hc
  · intro x hx
    rw [grupoDe_set g i v hv c x]
    split
    · exact hc
    · exact hx

/-- The loop of agruparPrim over the edges of a vertex, for recursive calls that do not run
out of depth and only add labels. -/
theorem agruparLaco_geral (c fuel : Nat) (i : Nat)
    (IH : ∀ g j, (semRotulo g).card < fuel →
      agruparPrim fuel g j c ≠ .error .semCombustivel ∧
      ∀ g', agruparPrim fuel g j c = .ok g' →
        g'.vertices.length = g.vertices.length ∧
        ∀ x, grupoDe g x ≠ 0 → grupoDe g' x ≠ 0) :
    ∀ (L : List Nat) (h : Grafo), (semRotulo h).card < fuel →
      L.foldlM (agruparPasso (fun g2 j => agruparPrim fuel g2 j c) i) h ≠
        .error .semCombustivel ∧
      ∀ h', L.foldlM (agruparPasso (fun g2 j => agruparPrim fuel g2 j c) i) h = .ok h' →
        h'.vertices.length = h.vertices.length ∧
        ∀ x, grupoDe h x ≠ 0 → grupoDe h' x ≠ 0 := by
  intro L
  induction L with
  | nil =>
    intro h _
    refine ⟨by simp [pure, Except.pure], ?_⟩
    intro h' hh
    simp only [List.foldlM_nil, pure, Except.pure, Except.ok.injEq] at hh
    subst hh
    exact ⟨rfl, fun _ hx => hx⟩
  | cons no L ih =>
    intro h hcard
    rw [List.foldlM_cons]
    cases hpasso : agruparPasso (fun g2 j => agruparPrim fuel g2 j c) i h no with
    | error e =>
      simp only [bind, Except.bind]
      refine ⟨?_, fun h' hh => (by cases hh)⟩
      intro he
      cases he
      -- the turn ran out of depth: only a recursive call can
      unfold agruparPasso at hpasso
      cases ha : obter h.nosMST no with
      | error e2 =>
        rw [ha] at hpasso
        simp only [bind, Except.bind] at hpasso
        unfold obter at ha
        split at ha
        · cases ha
        · cases ha
          cases hpasso
      | ok a =>
        rw [ha] at hpasso
        simp only [bind, Except.bind] at hpasso
        split at hpasso
        · split at hpasso
          · exact (IH h _ hcard).1 hpasso
          · exact (IH h _ hcard).1 hpasso
        · cases hpasso
    | ok h1 =>
      simp only [bind, Except.bind]
      have hh1 : h1.vertices.length = h.vertices.length ∧
          ∀ x, grupoDe h x ≠ 0 → grupoDe h1 x ≠ 0 := by
        unfold agruparPasso at hpasso
        cases ha : obter h.nosMST no with
        | error e2 =>
          rw [ha] at hpasso
          simp only [bind, Except.bind] at hpasso
          cases hpasso
        | ok a =>
          rw [ha] at hpasso
          simp only [bind, Except.bind] at hpasso
          split at hpasso
          · split at hpasso
            · exact (IH h _ hcard).2 h1 hpasso
            · exact (IH h _ hcard).2 h1 hpasso
          · simp only [pure, Except.pure, Except.ok.injEq] at hpasso
            subst hpasso
            exact ⟨rfl, fun _ hx => hx⟩
      have hcard1 : (semRotulo h1).card < fuel :=
        lt_of_le_of_lt (semRotulo_le hh1.1 hh1.2) hcard
      obtain ⟨r1, r2⟩ := ih h1 hcard1
      refine ⟨r1, ?_⟩
      intro h' hh
      obtain ⟨q1, q2⟩ := r2 h' hh
      exact ⟨by rw [q1, hh1.1], fun x hx => q2 x (hh1.2 x hx)⟩

/-- On every graph, a call of agruparPrim with a non-zero group and a depth bound above the
number of unlabelled vertices does not run out of depth; when it completes it has only added
labels, and the start vertex has one. -/
theorem agruparPrim_geral (c : Nat) (hc : c ≠ 0) :
    ∀ (fuel : Nat) (g : Grafo) (i : Nat), (semRotulo g).card < fuel →
      agruparPrim fuel g i c ≠ .error .semCombustivel ∧
      ∀ g', agruparPrim fuel g i c = .ok g' →
        g'.vertices.length = g.vertices.length ∧
        (∀ x, grupoDe g x ≠ 0 → grupoDe g' x ≠ 0) ∧
        (i < g.vertices.length → grupoDe g' i ≠ 0) := by
  intro fuel
  induction fuel with
  | zero => intro g i h; omega
  | succ fuel ih =>
    intro g i hcard
    rw [agruparPrim_succ]
    cases hv : g.vertices[i]? with
    | none =>
      have : obter g.vertices i = .error .foraDosLimites := by simp [obter, hv]
      simp only [this, bind, Except.bind]
      exact ⟨fun h => (by cases h), fun g' h => (by cases h)⟩
    | some v =>
      simp only [obter_ok hv, bind, Except.bind]
      by_cases hg0 : v.grupo = 0
      · rw [if_pos hg0]
        have hcard1 := semRotulo_marcar g i v hv hg0 c hc
        have IH : ∀ g j, (semRotulo g).card < fuel →
            agruparPrim fuel g j c ≠ .error .semCombustivel ∧
            ∀ g', agruparPrim fuel g j c = .ok g' →
              g'.vertices.length = g.vertices.length ∧
              ∀ x, grupoDe g x ≠ 0 → grupoDe g' x ≠ 0 := by
          intro g j hgj
          refine ⟨(ih g j hgj).1, ?_⟩
          intro g' hg'
          exact ⟨((ih g j hgj).2 g' hg').1, ((ih g j hgj).2 g' hg').2.1⟩
        obtain ⟨r1, r2⟩ := agruparLaco_geral c fuel i IH v.arestas
          (Grafo.mk (g.vertices.set i { v with grupo := c }) g.arestas g.nosMST
            g.arestasMST g.kruskal) (by omega)
        refine ⟨r1, ?_⟩
        intro g' hg'
        obtain ⟨q1, q2⟩ := r2 g' hg'
        have hi1 : grupoDe (Grafo.mk (g.vertices.set i { v with grupo := c }) g.arestas
            g.nosMST g.arestasMST g.kruskal) i ≠ 0 := by
          rw [grupoDe_set g i v hv c i, if_pos rfl]; exact hc
        refine ⟨by rw [q1]; simp, ?_, fun _ => q2 i hi1⟩
        intro x hx
        apply q2 x
        rw [grupoDe_set g i v hv c x]
        split
        · exact hc
        · exact hx
      · rw [if_neg hg0]
        refine ⟨fun h => (by cases h), ?_⟩
        intro g' hg'
        simp only [pure, Except.pure, Except.ok.injEq] at hg'
        subst hg'
        exact ⟨rfl, fun _ hx => hx, fun _ => by rw [grupoDe_eq hv]; exact hg0⟩

end KruskalPrim

namespace KruskalPrim

/-- A turn of the loop of agruparPrim that did not run out of depth is the same with deeper
recursive calls. -/
theorem agruparPasso_mais (c fuel : Nat)
    (IH : ∀ g j, agruparPrim fuel g j c ≠ .error .semCombustivel →
      agruparPrim (fuel + 1) g j c = agruparPrim fuel g j c)
    (i : Nat) (h : Grafo) (no : Nat)
    (hne : agruparPasso (fun g2 j => agruparPrim fuel g2 j c) i h no ≠
      .error .semCombustivel) :
    agruparPasso (fun g2 j => agruparPrim (fuel + 1) g2 j c) i h no =
      agruparPasso (fun g2 j => agruparPrim fuel g2 j c) i h no := by
  unfold agruparPasso at hne ⊢
  cases ha : obter h.nosMST no with
  | error e => rfl
  | ok a =>
    rw [ha] at hne
    simp only [bind, Except.bind] at hne ⊢
    split
    · next hp =>
      rw [if_pos hp] at hne
      split
      · next ho => rw [if_pos ho] at hne; exact IH _ _ hne
      · next ho => rw [if_neg ho] at hne; exact IH _ _ hne
    · rfl

theorem agruparLaco_mais (c fuel : Nat)
    (IH : ∀ g j, agruparPrim fuel g j c ≠ .error .semCombustivel →
      agruparPrim (fuel + 1) g j c = agruparPrim fuel g j c)
    (i : Nat) :
    ∀ (L : List Nat) (h : Grafo),
      L.foldlM (agruparPasso (fun g2 j => agruparPrim fuel g2 j c) i) h ≠
        .error .semCombustivel →
      L.foldlM (agruparPasso (fun g2 j => agruparPrim (fuel + 1) g2 j c) i) h =
        L.foldlM (agruparPasso (fun g2 j => agruparPrim fuel g2 j c) i) h := by
  intro L
  induction L with
  | nil => intro h _; rfl
  | cons no L ih =>
    intro h hne
    rw [List.foldlM_cons] at hne
    rw [List.foldlM_cons, List.foldlM_cons]
    cases hp : agruparPasso (fun g2 j => agruparPrim fuel g2 j c) i h no with
    | error e =>
      rw [hp] at hne
      simp only [bind, Except.bind] at hne
      rw [agruparPasso_mais c fuel IH i h no (by rw [hp]; exact hne), hp]
      rfl
    | ok h1 =>
      rw [hp] at hne
      simp only [bind, Except.bind] at hne
      rw [agruparPasso_mais c fuel IH i h no (by rw [hp]; exact fun hh => (by cases hh)), hp]
      simp only [bind, Except.bind]
      exact ih h1 hne

/-- A call of agruparPrim that did not run out of depth is the same with a larger bound. -/
theorem agruparPrim_mais (c : Nat) :
    ∀ (fuel : Nat) (g : Grafo) (i : Nat), agruparPrim fuel g i c ≠ .error .semCombustivel →
      agruparPrim (fuel + 1) g i c = agruparPrim fuel g i c := by
  intro fuel
  induction fuel with
  | zero => intro g i h; exact absurd rfl h
  | succ fuel ih =>
    intro g i hne
    rw [agruparPrim_succ] at hne
    rw [agruparPrim_succ (fuel + 1), agruparPrim_succ fuel]
    cases hv : obter g.vertices i with
    | error e => rfl
    | ok v =>
      rw [hv] at hne
      simp only [bind, Except.bind] at hne ⊢
      split
      · next hg =>
        rw [if_pos hg] at hne
        exact agruparLaco_mais c fuel ih i _ _ hne
      · rfl

theorem agruparPrim_mais_d (c : Nat) (fuel : Nat) (g : Grafo) (i : Nat)
    (hne : agruparPrim fuel g i c ≠ .error .semCombustivel) :
    ∀ d, agruparPrim (fuel + d) g i c = agruparPrim fuel g i c := by
  intro d
  induction d with
  | zero => rfl
  | succ d ih =>
    rw [← Nat.add_assoc, agruparPrim_mais c (fuel + d) g i (by rw [ih]; exact hne), ih]

/-- With group 0 passed as label, a call of agruparPrim never completes on the graph that
the Prim loop and the sort leave for the points (0,0) and (1,0): its two vertices are
unlabelled and joined by an MST edge of weight 1000. -/
theorem agruparPrim_grupo_zero :
    ∀ fuel : Nat,
      agruparPrim fuel (Grafo.mk
        [Vertice.mk [(1000, 1)] 0 (-1) true 0 0 0 [0],
          Vertice.mk [(1000, 0)] 1000 0 true 1 0 0 [0]]
        [] [Aresta.mk 1000 0 1] [0] false) 0 0 = .error .semCombustivel ∧
      agruparPrim fuel (Grafo.mk
        [Vertice.mk [(1000, 1)] 0 (-1) true 0 0 0 [0],
          Vertice.mk [(1000, 0)] 1000 0 true 1 0 0 [0]]
        [] [Aresta.mk 1000 0 1] [0] false) 1 0 = .error .semCombustivel := by
  intro fuel
  induction fuel with
  | zero => exact ⟨rfl, rfl⟩
  | succ fuel ih =>
    have h1 : ((1000 : ℚ) ≥ 0) := by norm_num
    have h2 : ¬ ((0 : Nat) = 1) := by decide
    constructor
    · rw [agruparPrim_succ]
      simp only [obter, List.getElem?_cons_zero, bind, Except.bind, if_true,
        List.foldlM_cons, List.foldlM_nil, agruparPasso, List.set_cons_zero]
      simp only [h1, if_true, if_pos]
      exact (by rw [ih.2])
    · rw [agruparPrim_succ]
      simp only [obter, List.getElem?_cons_succ, List.getElem?_cons_zero, bind, Except.bind,
        if_true, List.foldlM_cons, List.foldlM_nil, agruparPasso, List.set_cons_succ,
        List.set_cons_zero]
      simp only [h1, if_true]
      simp only [h2, if_false]
      exact (by rw [ih.1])

end KruskalPrim

namespace KruskalPrim

/-! ## The Prim loop, turn by turn -/

theorem Relaxou.nenhum (v : Nat) (g : Grafo) (fila : FilaDePrioridade) :
    Relaxou v g fila g fila :=
  ⟨rfl, rfl, fun _ h => h, fun _ vb hvb =>
    ⟨vb, hvb, le_refl _, fun _ => rfl, fun h => absurd rfl h⟩⟩

theorem Relaxou.seguir {v : Nat} {g g1 g2 : Grafo} {f f1 f2 : FilaDePrioridade}
    (h1 : Relaxou v g f g1 f1) (h2 : Relaxou v g1 f1 g2 f2) : Relaxou v g f g2 f2 := by
  refine ⟨h2.hnos.trans h1.hnos, h2.hlen.trans h1.hlen,
    fun x hx => h2.hfila x (h1.hfila x hx), ?_⟩
  intro b vb hvb
  obtain ⟨vb1, hvb1, hle1, heq1, hne1⟩ := h1.hvert b vb hvb
  obtain ⟨vb2, hvb2, hle2, heq2, hne2⟩ := h2.hvert b vb1 hvb1
  refine ⟨vb2, hvb2, le_trans hle2 hle1, ?_, ?_⟩
  · intro h
    have h3 : vb1.peso = vb.peso := le_antisymm hle1 (by rw [← h]; exact hle2)
    rw [heq2 (by rw [h, h3]), heq1 h3]
  · intro h
    by_cases h21 : vb2.peso = vb1.peso
    · have e2 := heq2 h21
      subst e2
      exact ⟨(hne1 h).1, (hne1 h).2.1, h2.hfila _ (hne1 h).2.2⟩
    · obtain ⟨a1, a2, a3⟩ := hne2 h21
      by_cases h10 : vb1.peso = vb.peso
      · have e1 := heq1 h10
        subst e1
        exact ⟨a1, a2, a3⟩
      · obtain ⟨b1, b2, _⟩ := hne1 h10
        refine ⟨b1, ?_, a3⟩
        rw [a2, b2]

/-- One turn of the loop over the adjacent vertices. -/
theorem relaxar_relaxou (v : Nat) (g : Grafo) (fila : FilaDePrioridade) (p : ℚ × Nat)
    (g' : Grafo) (fila' : FilaDePrioridade) (h : relaxar v (g, fila) p = .ok (g', fila')) :
    Relaxou v g fila g' fila' := by
  cases ha : g.vertices[p.2]? with
  | none =>
    have : obter g.vertices p.2 = .error .foraDosLimites := by simp [obter, ha]
    simp only [relaxar, this, bind, Except.bind] at h
    cases h
  | some a =>
    rw [relaxar_eq v g fila p a ha] at h
    split at h
    · next hc =>
      simp only [Except.ok.injEq, Prod.mk.injEq] at h
      obtain ⟨hg, hf⟩ := h
      subst hg; subst hf
      have hlt : p.2 < g.vertices.length := (List.getElem?_eq_some.1 ha).1
      refine ⟨rfl, by simp, ?_, ?_⟩
      · intro x hx
        simp only [FilaDePrioridade.push, List.mem_append]
        exact Or.inl hx
      · intro b vb hvb
        by_cases hb : b = p.2
        · subst hb
          rw [ha] at hvb
          cases hvb
          refine ⟨{ a with peso := p.1, pai := (v : Int) }, ?_, le_of_lt hc.2, ?_, ?_⟩
          · simp only
            exact List.getElem?_set_self hlt
          · intro h
            simp only at h
            exact absurd h (ne_of_lt hc.2)
          · intro _
            refine ⟨hc.1, rfl, ?_⟩
            simp [FilaDePrioridade.push]
        · refine ⟨vb, ?_, le_refl _, fun _ => rfl, fun h => absurd rfl h⟩
          simp only
          rw [List.getElem?_set_ne (fun h => hb h.symm)]
          exact hvb
    · simp only [Except.ok.injEq, Prod.mk.injEq] at h
      obtain ⟨hg, hf⟩ := h
      subst hg; subst hf
      exact Relaxou.nenhum v g fila

/-- The whole loop over the adjacent vertices. -/
theorem relaxarLaco_relaxou (v : Nat) :
    ∀ (adjs : List (ℚ × Nat)) (g : Grafo) (fila : FilaDePrioridade) (g' : Grafo)
      (fila' : FilaDePrioridade), adjs.foldlM (relaxar v) (g, fila) = .ok (g', fila') →
      Relaxou v g fila g' fila' := by
  intro adjs
  induction adjs with
  | nil =>
    intro g fila g' fila' h
    simp only [List.foldlM_nil, pure, Except.pure, Except.ok.injEq, Prod.mk.injEq] at h
    obtain ⟨hg, hf⟩ := h
    subst hg; subst hf
    exact Relaxou.nenhum v g fila
  | cons p adjs ih =>
    intro g fila g' fila' h
    rw [List.foldlM_cons] at h
    cases hp : relaxar v (g, fila) p with
    | error e =>
      rw [hp] at h
      simp only [bind, Except.bind] at h
      cases h
    | ok s =>
      rw [hp] at h
      simp only [bind, Except.bind] at h
      obtain ⟨g1, f1⟩ := s
      exact (relaxar_relaxou v g fila p g1 f1 hp).seguir (ih g1 f1 g' fila' h)

/-- The loop of executarPrim is its body, turn after turn. -/
theorem primLaco_passo_eq (fuel : Nat) (g : Grafo) (fila : FilaDePrioridade) :
    primLaco (fuel + 1) g fila =
      (match fila.top with
      | none => pure g
      | some par => do
        let s ← primPasso g fila par
        primLaco fuel s.1 s.2) := by
  rw [primLaco_succ]
  cases fila.top with
  | none => rfl
  | some par =>
    simp only [primPasso]
    cases hv : obter g.vertices par.2 with
    | error e => rfl
    | ok v =>
      simp only [bind, Except.bind]
      cases hnm : v.naMst with
      | true => simp [pure, Except.pure]
      | false =>
        simp only [Bool.false_eq_true, if_false]
        by_cases hpai : v.pai ≥ 0
        · simp only [hpai, and_self, and_true, true_and, if_true]
          cases g.adicionarArestaMST v.peso v.pai.toNat par.2 with
          | error e => rfl
          | ok g1 =>
            simp only
            cases obter g1.vertices par.2 with
            | error e => rfl
            | ok v1 => rfl
        · simp only [hpai, false_and, if_false, pure, Except.pure]
          cases obter g.vertices par.2 with
          | error e => rfl
          | ok v1 => rfl

/-- The Prim part of executarPrim is the seed followed by the loop. -/
theorem primMST_inicio (g : Grafo) :
    primMST g = (do
      let s ← primInicio g
      primLaco (combustivelPrim s.1) s.1 s.2) := by
  unfold primMST primInicio
  cases obter g.vertices 0 with
  | error e => rfl
  | ok v => rfl

end KruskalPrim

namespace KruskalPrim

/-! ## Tentative weights never exceed the initial one -/

theorem teto_set (vs : List Vertice) (i : Nat) (x : Vertice)
    (hvs : ∀ v ∈ vs, v.peso ≤ pesoMax) (hx : x.peso ≤ pesoMax) :
    ∀ v ∈ vs.set i x, v.peso ≤ pesoMax := by
  intro v hv
  rcases List.mem_or_eq_of_mem_set hv with h | h
  · exact hvs v h
  · rw [h]; exact hx

theorem obter_mem {vs : List Vertice} {i : Nat} {v : Vertice} (h : obter vs i = .ok v) :
    v ∈ vs := by
  unfold obter at h
  cases hi : vs[i]? with
  | none => rw [hi] at h; cases h
  | some w =>
    rw [hi] at h
    cases h
    exact List.mem_iff_getElem?.2 ⟨i, hi⟩

/-- Recording an MST edge changes no tentative weight. -/
theorem adicionarArestaMST_teto (g g' : Grafo) (peso : ℚ) (a b : Nat)
    (h : g.adicionarArestaMST peso a b = .ok g') (ht : Teto g) : Teto g' := by
  unfold Grafo.adicionarArestaMST at h
  simp only [bind, Except.bind] at h
  cases ha : obter g.vertices a with
  | error e => rw [ha] at h; cases h
  | ok va =>
    rw [ha] at h
    simp only at h
    cases hb : obter (g.vertices.set a { va with arestas := va.arestas ++ [g.nosMST.length] }) b with
    | error e => rw [hb] at h; cases h
    | ok vb =>
      rw [hb] at h
      simp only [pure, Except.pure, Except.ok.injEq] at h
      rw [← h]
      have h1 : ∀ v ∈ g.vertices.set a { va with arestas := va.arestas ++ [g.nosMST.length] },
          v.peso ≤ pesoMax := teto_set _ _ _ ht (ht va (obter_mem ha))
      exact teto_set _ _ _ h1 (h1 vb (obter_mem hb))

/-- The loop over the adjacent vertices raises no tentative weight. -/
theorem relaxou_teto (x : Nat) (g g' : Grafo) (fila fila' : FilaDePrioridade)
    (hr : Relaxou x g fila g' fila') (ht : Teto g) : Teto g' := by
  intro v hv
  obtain ⟨b, hb⟩ := List.mem_iff_getElem?.1 hv
  have hbl : b < g.vertices.length := by
    rw [← hr.hlen]; exact (List.getElem?_eq_some.1 hb).1
  obtain ⟨vb', hvb', hle, _⟩ := hr.hvert b g.vertices[b] (List.getElem?_eq_getElem hbl)
  rw [hb] at hvb'
  cases hvb'
  exact le_trans hle (ht _ (List.getElem_mem hbl))

/-- One turn of the Prim loop raises no tentative weight. -/
theorem primPasso_teto (g g' : Grafo) (fila fila' : FilaDePrioridade) (par : ℚ × Nat)
    (h : primPasso g fila par = .ok (g', fila')) (ht : Teto g) : Teto g' := by
  unfold primPasso at h
  simp only [bind, Except.bind] at h
  cases hv : obter g.vertices par.2 with
  | error e => rw [hv] at h; cases h
  | ok v =>
    rw [hv] at h
    simp only at h
    cases hnm : v.naMst with
    | true =>
      rw [hnm] at h
      simp only [if_true, pure, Except.pure, Except.ok.injEq, Prod.mk.injEq] at h
      rw [← h.1]; exact ht
    | false =>
      rw [hnm] at h
      simp only [Bool.false_eq_true, if_false, and_true] at h
      have resto : ∀ (g1 : Grafo) (v1 : Vertice), Teto g1 → obter g1.vertices par.2 = .ok v1 →
          List.foldlM (relaxar par.2)
            (Grafo.mk (g1.vertices.set par.2 { v1 with naMst := true }) g1.arestas g1.nosMST
              g1.arestasMST g1.kruskal, fila.pop) v1.adjacentes = Except.ok (g', fila') →
          Teto g' := by
        intro g1 v1 ht1 hv1 h1
        have hr := relaxarLaco_relaxou par.2 _ _ _ _ _ h1
        apply relaxou_teto par.2 _ g' _ fila' hr
        exact teto_set _ _ _ ht1 (ht1 v1 (obter_mem hv1))
      by_cases hp : v.pai ≥ 0
      · rw [if_pos hp] at h
        cases hg1 : g.adicionarArestaMST v.peso v.pai.toNat par.2 with
        | error e => rw [hg1] at h; cases h
        | ok g1 =>
          rw [hg1] at h
          simp only at h
          cases hv1 : obter g1.vertices par.2 with
          | error e => rw [hv1] at h; cases h
          | ok v1 =>
            rw [hv1] at h
            exact resto g1 v1 (adicionarArestaMST_teto g g1 _ _ _ hg1 ht) hv1 h
      · rw [if_neg hp] at h
        simp only [pure, Except.pure] at h
        cases hv1 : obter g.vertices par.2 with
        | error e => rw [hv1] at h; cases h
        | ok v1 =>
          rw [hv1] at h
          exact resto g v1 ht hv1 h

/-- The Prim loop raises no tentative weight. -/
theorem primEstado_teto :
    ∀ (t : Nat) (g g' : Grafo) (fila fila' : FilaDePrioridade),
      primEstado t g fila = .ok (g', fila') → Teto g → Teto g' := by
  intro t
  induction t with
  | zero =>
    intro g g' fila fila' h ht
    simp only [primEstado, pure, Except.pure, Except.ok.injEq, Prod.mk.injEq] at h
    rw [← h.1]; exact ht
  | succ t ih =>
    intro g g' fila fila' h ht
    simp only [primEstado] at h
    cases htop : fila.top with
    | none =>
      rw [htop] at h
      simp only [pure, Except.pure, Except.ok.injEq, Prod.mk.injEq] at h
      rw [← h.1]; exact ht
    | some par =>
      rw [htop] at h
      simp only [bind, Except.bind] at h
      cases hp : primPasso g fila par with
      | error e => rw [hp] at h; cases h
      | ok s =>
        rw [hp] at h
        exact ih s.1 g' s.2 fila' h (primPasso_teto g s.1 fila s.2 par hp ht)

/-- The seed of the Prim loop leaves every tentative weight at pesoMax, and that of vertex 0
at 0. -/
theorem primInicio_teto (dist : ℚ × ℚ → ℚ × ℚ → ℚ) (pts : List (ℚ × ℚ)) (g0 : Grafo)
    (fila0 : FilaDePrioridade)
    (h : primInicio (construir dist false pts) = .ok (g0, fila0)) : Teto g0 := by
  rw [construir_prim] at h
  unfold primInicio at h
  simp only [bind, Except.bind] at h
  cases hv : obter ((List.range pts.length).map (verticeDe dist pts)) 0 with
  | error e => rw [hv] at h; cases h
  | ok v0 =>
    rw [hv] at h
    simp only [pure, Except.pure, Except.ok.injEq, Prod.mk.injEq] at h
    rw [← h.1]
    apply teto_set
    · intro v hv'
      obtain ⟨i, _, hi⟩ := List.mem_map.1 hv'
      rw [← hi]
      exact le_refl _
    · show (0 : ℚ) ≤ pesoMax
      decide

end KruskalPrim

namespace KruskalPrim

/-- The turn for a pair whose vertex is already in the MST only pops the pair. -/
theorem primPasso_velho (g : Grafo) (fila : FilaDePrioridade) (par : ℚ × Nat) (vv : Vertice)
    (hvv : g.vertices[par.2]? = some vv) (hnm : vv.naMst = true) :
    primPasso g fila par = .ok (g, fila.pop) := by
  unfold primPasso
  simp only [obter_ok hvv, bind, Except.bind, hnm, if_true]
  rfl

/-- The turn for a pair whose vertex is outside the MST and has a parent. -/
theorem primPasso_novo (g : Grafo) (fila : FilaDePrioridade) (par : ℚ × Nat) (vv : Vertice)
    (hvv : g.vertices[par.2]? = some vv) (hnm : vv.naMst = false) (u : Nat)
    (hpu : vv.pai = (u : Int)) (vu : Vertice) (hvu : g.vertices[u]? = some vu)
    (huv : u ≠ par.2) :
    primPasso g fila par =
      vv.adjacentes.foldlM (relaxar par.2) (Grafo.mk
        ((g.vertices.set u { vu with arestas := vu.arestas ++ [g.nosMST.length] }).set par.2
          { vv with arestas := vv.arestas ++ [g.nosMST.length], naMst := true })
        g.arestas (g.nosMST ++ [Aresta.mk vv.peso u par.2])
        (g.arestasMST ++ [g.nosMST.length]) g.kruskal, fila.pop) := by
  unfold primPasso
  have hcond : vv.pai ≥ 0 ∧ vv.naMst = false := ⟨by rw [hpu]; exact Int.ofNat_nonneg _, hnm⟩
  have htn : vv.pai.toNat = u := by rw [hpu]; rfl
  have hvl : par.2 < g.vertices.length := (List.getElem?_eq_some.1 hvv).1
  have hv1 : ((g.vertices.set u { vu with arestas := vu.arestas ++ [g.nosMST.length] }).set par.2
      { vv with arestas := vv.arestas ++ [g.nosMST.length] })[par.2]? =
      some { vv with arestas := vv.arestas ++ [g.nosMST.length] } :=
    List.getElem?_set_self (by simp only [List.length_set]; exact hvl)
  have hnt : ¬ (vv.naMst = true) := by rw [hnm]; decide
  simp only [obter_ok hvv, bind, Except.bind]
  rw [if_neg hnt, if_pos hcond, htn, adicionarArestaMST_eq g vv.peso u par.2 vu vv hvu hvv huv]
  simp only [obter_ok hv1, List.set_set]

/-- The turn for a pair whose vertex is outside the MST and has no parent. -/
theorem primPasso_semente (g : Grafo) (fila : FilaDePrioridade) (par : ℚ × Nat) (vv : Vertice)
    (hvv : g.vertices[par.2]? = some vv) (hnm : vv.naMst = false) (hpai : vv.pai = -1) :
    primPasso g fila par =
      vv.adjacentes.foldlM (relaxar par.2) (Grafo.mk
        (g.vertices.set par.2 { vv with naMst := true }) g.arestas g.nosMST g.arestasMST
        g.kruskal, fila.pop) := by
  unfold primPasso
  have hnt : ¬ (vv.naMst = true) := by rw [hnm]; decide
  have hcond : ¬ (vv.pai ≥ 0 ∧ vv.naMst = false) := by
    rw [hpai]; intro h; exact absurd h.1 (by decide)
  simp only [obter_ok hvv, bind, Except.bind]
  rw [if_neg hnt, if_neg hcond]
  simp only [pure, Except.pure, obter_ok hvv]

/-- One turn of the Prim loop keeps the invariant and lowers the measure, whatever the
distances are. -/
theorem primPasso_base (dist : ℚ × ℚ → ℚ × ℚ → ℚ) (pts : List (ℚ × ℚ))
    (g : Grafo) (fila : FilaDePrioridade) (par : ℚ × Nat)
    (hb : PrimBase dist pts g fila) (hch : Chave dist pts g (fun _ _ => True))
    (hteto : Teto g) (htop : fila.top = some par) :
    ∃ g' fila', primPasso g fila par = .ok (g', fila') ∧
      PrimBase dist pts g' fila' ∧ Chave dist pts g' (fun _ _ => True) ∧
      medida g' fila' < medida g fila := by
  obtain ⟨hpar, _⟩ := top_spec fila par htop
  obtain ⟨vv, hvv, _⟩ := hb.hfila par hpar
  have hpl := pop_length fila par htop
  cases hnm : vv.naMst with
  | true =>
    refine ⟨g, fila.pop, primPasso_velho g fila par vv hvv hnm, ?_, hch, ?_⟩
    · refine ⟨hb.hlen, hb.hest, hb.hord, hb.hnos, hb.hares, hb.hflor, hb.hcon, hb.hmm, hb.h0,
        hb.hpai, ?_, ?_⟩
      · intro b vb hvb hvbn hpos
        apply mem_pop_of_ne fila par htop _ (hb.hpend b vb hvb hvbn hpos)
        intro h
        have h2 : b = par.2 := by rw [← h]
        rw [h2, hvv] at hvb
        cases hvb
        rw [hnm] at hvbn
        cases hvbn
      · intro q hq
        exact hb.hfila q (mem_pop fila par htop q hq)
    · unfold medida
      omega
  | false =>
    obtain ⟨u, vu, hpu, hvu, huv, hb2, hch2⟩ :=
      marcar_base dist pts g fila par hb hch htop vv hvv hnm
        (hteto vv (List.mem_iff_getElem?.2 ⟨par.2, hvv⟩))
    have hadjv : vv.adjacentes = adjacentesDe dist pts par.2 := (hb.hest _ vv hvv).1
    have hvl : par.2 < g.vertices.length := (List.getElem?_eq_some.1 hvv).1
    have hemv : emMST (Grafo.mk
        ((g.vertices.set u { vu with arestas := vu.arestas ++ [g.nosMST.length] }).set par.2
          { vv with arestas := vv.arestas ++ [g.nosMST.length], naMst := true })
        g.arestas (g.nosMST ++ [Aresta.mk vv.peso u par.2])
        (g.arestasMST ++ [g.nosMST.length]) g.kruskal) par.2 :=
      ⟨_, List.getElem?_set_self (by simp only [List.length_set]; exact hvl), rfl⟩
    obtain ⟨g', fila', hfold, hb3, hch3, hl3, hem3, hpv3⟩ :=
      relaxar_laco dist pts par.2 vv.adjacentes
        (by
          intro p hp
          rw [hadjv] at hp
          obtain ⟨h1, _, h3⟩ := (mem_adjacentesDe dist pts par.2 p).1 hp
          exact ⟨h1, h3⟩)
        _ fila.pop _ hb2 hemv hch2
    refine ⟨g', fila', ?_, hb3, ?_, ?_⟩
    · rw [primPasso_novo g fila par vv hvv hnm u hpu vu hvu huv]
      exact hfold
    · apply chave_completa dist pts g' fila' par.2 hb3 ((hem3 _).2 hemv)
      rw [← hadjv]
      exact hch3
    · unfold medida
      rw [hpv3]
      simp only
      have h1 : (g.vertices.set u { vu with arestas := vu.arestas ++ [g.nosMST.length] })[par.2]? =
          some vv := by
        rw [List.getElem?_set_ne huv]; exact hvv
      have h2 := porVisitar_marcar
        (g.vertices.set u { vu with arestas := vu.arestas ++ [g.nosMST.length] }) par.2 vv
        { vv with arestas := vv.arestas ++ [g.nosMST.length], naMst := true } h1 hnm rfl
      have h3 := porVisitar_set g.vertices u vu
        { vu with arestas := vu.arestas ++ [g.nosMST.length] } hvu rfl rfl
      omega

end KruskalPrim

namespace KruskalPrim

/-- The sum of the lengths of the adjacency lists main builds. -/
theorem soma_adjacentes (dist : ℚ × ℚ → ℚ × ℚ → ℚ) (pts : List (ℚ × ℚ)) :
    (((List.range pts.length).map (verticeDe dist pts)).map
      (fun v => v.adjacentes.length)).sum = pts.length * (pts.length - 1) := by
  rw [List.map_map]
  have h : ∀ i ∈ List.range pts.length,
      ((fun v : Vertice => v.adjacentes.length) ∘ verticeDe dist pts) i =
        (fun _ => pts.length - 1) i := by
    intro i hi
    exact adjacentesDe_length dist pts i (List.mem_range.1 hi)
  rw [List.map_congr_left h]
  simp

end KruskalPrim

namespace KruskalPrim

/-- The seed of executarPrim and its first turn, on a graph built by main from at least one
point. -/
theorem primInicio_spec (dist : ℚ × ℚ → ℚ × ℚ → ℚ) (pts : List (ℚ × ℚ)) (hn : 0 < pts.length) :
    ∃ (g0 : Grafo) (v0 : Vertice) (g1 : Grafo) (fila1 : FilaDePrioridade),
      primInicio (construir dist false pts) =
        .ok (g0, (FilaDePrioridade.mk []).push (0, 0)) ∧
      g0.vertices.length = pts.length ∧ g0.nosMST = [] ∧
      g0.vertices[0]? = some v0 ∧ v0.naMst = false ∧ v0.pai = -1 ∧ v0.peso = 0 ∧
      (∀ u, ¬ emMST g0 u) ∧
      medida g0 ((FilaDePrioridade.mk []).push (0, 0)) = 1 + pts.length * (pts.length - 1) ∧
      combustivelPrim g0 = 2 + pts.length * (pts.length - 1) ∧
      v0.adjacentes.foldlM (relaxar 0) (Grafo.mk (g0.vertices.set 0 { v0 with naMst := true })
        g0.arestas g0.nosMST g0.arestasMST g0.kruskal, FilaDePrioridade.mk []) =
        .ok (g1, fila1) ∧
      primPasso g0 ((FilaDePrioridade.mk []).push (0, 0)) (0, 0) = .ok (g1, fila1) ∧
      PrimBase dist pts g1 fila1 ∧ Chave dist pts g1 (fun _ _ => True) ∧
      medida g1 fila1 < medida g0 ((FilaDePrioridade.mk []).push (0, 0)) := by
  obtain ⟨v0, hv0def⟩ : ∃ v0, v0 = verticeDe dist pts 0 := ⟨_, rfl⟩
  have hv0 := getElem?_vertices_construir dist pts 0 hn
  rw [← hv0def] at hv0
  have hnm0 : v0.naMst = false := by rw [hv0def]; rfl
  have hpai0 : v0.pai = -1 := by rw [hv0def]; rfl
  have hadj0 : v0.adjacentes = adjacentesDe dist pts 0 := by rw [hv0def]; rfl
  have hl0 : 0 < ((List.range pts.length).map (verticeDe dist pts)).length := by simpa using hn
  have hv1 : (((List.range pts.length).map (verticeDe dist pts)).set 0
      { v0 with peso := 0 })[0]? = some { v0 with peso := 0 } :=
    List.getElem?_set_self hl0
  obtain ⟨hb2, hch2⟩ := base_semente dist pts hn v0 hv0def
  have hem0 : emMST (Grafo.mk
      (((List.range pts.length).map (verticeDe dist pts)).set 0
        { v0 with peso := 0, naMst := true }) [] [] [] false) 0 := hb2.h0
  obtain ⟨g', fila', hfold, hb3, hch3, hl3, hem3, hpv3⟩ :=
    relaxar_laco dist pts 0 v0.adjacentes
      (by
        intro p hp
        rw [hadj0] at hp
        obtain ⟨h1, _, h3⟩ := (mem_adjacentesDe dist pts 0 p).1 hp
        exact ⟨h1, h3⟩)
      _ (FilaDePrioridade.mk []) _ hb2 hem0 hch2
  have hch4 : Chave dist pts g' (fun _ _ => True) := by
    apply chave_completa dist pts g' fila' 0 hb3 ((hem3 0).2 hem0)
    rw [← hadj0]
    exact hch3
  have hnaMst : ∀ v ∈ ((List.range pts.length).map (verticeDe dist pts)).set 0
      { v0 with peso := 0 }, v.naMst = false := by
    intro v hv
    rcases List.mem_iff_getElem?.1 hv with ⟨i, hi⟩
    rcases getElem?_set_some hi with ⟨_, h2, _⟩ | ⟨_, h2⟩
    · rw [h2]; exact hnm0
    · have hil : i < pts.length := by
        have := (List.getElem?_eq_some.1 h2).1
        simpa using this
      rw [getElem?_vertices_construir dist pts i hil] at h2
      rw [← Option.some.inj h2]; rfl
  have hpv0 : porVisitar (((List.range pts.length).map (verticeDe dist pts)).set 0
      { v0 with peso := 0 }) = pts.length * (pts.length - 1) := by
    rw [porVisitar_set _ 0 v0 { v0 with peso := 0 } hv0 rfl rfl, porVisitar_inicial,
      soma_adjacentes]
    intro v hv
    obtain ⟨i, hi, hvi⟩ := List.mem_map.1 hv
    rw [← hvi]; rfl
  have hpop : ((FilaDePrioridade.mk []).push (0, 0)).pop = FilaDePrioridade.mk [] := by
    unfold FilaDePrioridade.pop
    have htop : ((FilaDePrioridade.mk []).push (0, 0)).top = some (0, 0) := rfl
    rw [htop]
    simp [FilaDePrioridade.push]
  have hfold2 : ({ v0 with peso := 0 } : Vertice).adjacentes.foldlM (relaxar 0) (Grafo.mk
      ((((List.range pts.length).map (verticeDe dist pts)).set 0 { v0 with peso := 0 }).set 0
        { ({ v0 with peso := 0 } : Vertice) with naMst := true }) [] [] [] false,
      FilaDePrioridade.mk []) = .ok (g', fila') := by
    simp only [List.set_set]
    exact hfold
  refine ⟨Grafo.mk (((List.range pts.length).map (verticeDe dist pts)).set 0
      { v0 with peso := 0 }) [] [] [] false, { v0 with peso := 0 }, g', fila',
    ?_, by simp, rfl, hv1, hnm0, hpai0, rfl, ?_, ?_, ?_, hfold2, ?_, hb3, hch4, ?_⟩
  · rw [construir_prim]
    unfold primInicio
    simp only [obter_ok hv0, bind, Except.bind]
    rfl
  · rintro u ⟨w, hw, hwm⟩
    rw [hnaMst w (List.mem_iff_getElem?.2 ⟨u, hw⟩)] at hwm
    cases hwm
  · unfold medida
    simp only [FilaDePrioridade.push, List.nil_append, List.length_singleton]
    rw [hpv0]
  · unfold combustivelPrim
    simp only
    rw [← porVisitar_inicial _ hnaMst, hpv0]
  · rw [primPasso_semente _ _ (0, 0) { v0 with peso := 0 } hv1 hnm0 hpai0, hpop]
    exact hfold2
  · unfold medida
    rw [hpv3]
    simp only [FilaDePrioridade.push, List.nil_append, List.length_singleton]
    rw [hpv0]
    have h2 := porVisitar_marcar ((List.range pts.length).map (verticeDe dist pts)) 0
      v0 { v0 with peso := 0, naMst := true } hv0 hnm0 rfl
    have h3 := porVisitar_inicial ((List.range pts.length).map (verticeDe dist pts)) (by
      intro v hv
      obtain ⟨i, hi, hvi⟩ := List.mem_map.1 hv
      rw [← hvi]; rfl)
    rw [soma_adjacentes] at h3
    simp only [List.length_nil, zero_add] at hl3
    omega

end KruskalPrim

namespace KruskalPrim

theorem primEstado_succ (t : Nat) (g : Grafo) (fila : FilaDePrioridade) :
    primEstado (t + 1) g fila =
      (match fila.top with
      | none => pure (g, fila)
      | some par => do
        let s ← primPasso g fila par
        primEstado t s.1 s.2) := by
  rfl

/-- From a state that satisfies the invariant the loop reaches a state after any number of
turns, whatever the distances are; the measure has gone down by the number of turns, unless
the queue is empty. -/
theorem primEstado_base (dist : ℚ × ℚ → ℚ × ℚ → ℚ) (pts : List (ℚ × ℚ)) :
    ∀ (t : Nat) (g : Grafo) (fila : FilaDePrioridade), PrimBase dist pts g fila →
      Chave dist pts g (fun _ _ => True) → Teto g →
      ∃ g' fila', primEstado t g fila = .ok (g', fila') ∧ PrimBase dist pts g' fila' ∧
        Chave dist pts g' (fun _ _ => True) ∧ Teto g' ∧
        (medida g' fila' + t ≤ medida g fila ∨ fila'.pendentes = []) := by
  intro t
  induction t with
  | zero =>
    intro g fila hb hch ht
    exact ⟨g, fila, rfl, hb, hch, ht, Or.inl (le_refl _)⟩
  | succ t ih =>
    intro g fila hb hch ht
    rw [primEstado_succ]
    cases htop : fila.top with
    | none => exact ⟨g, fila, rfl, hb, hch, ht, Or.inr (top_none fila htop)⟩
    | some par =>
      obtain ⟨g1, fila1, hp, hb1, hch1, hm1⟩ := primPasso_base dist pts g fila par hb hch ht htop
      obtain ⟨g', fila', he, hb', hch', ht', hm'⟩ :=
        ih g1 fila1 hb1 hch1 (primPasso_teto g g1 fila fila1 par hp ht)
      refine ⟨g', fila', ?_, hb', hch', ht', ?_⟩
      · simp only [hp, bind, Except.bind]
        exact he
      · rcases hm' with hm' | hm'
        · exact Or.inl (by omega)
        · exact Or.inr hm'

/-- When the state after t turns has an empty queue, the loop run with a bound above t ends
in that state. -/
theorem primEstado_laco :
    ∀ (t : Nat) (g : Grafo) (fila : FilaDePrioridade) (g' : Grafo) (fila' : FilaDePrioridade),
      primEstado t g fila = .ok (g', fila') → fila'.top = none →
      ∀ d, primLaco (t + 1 + d) g fila = .ok g' := by
  intro t
  induction t with
  | zero =>
    intro g fila g' fila' h htop d
    simp only [primEstado, pure, Except.pure, Except.ok.injEq, Prod.mk.injEq] at h
    obtain ⟨h1, h2⟩ := h
    subst h1; subst h2
    rw [show 0 + 1 + d = d + 1 by omega, primLaco_passo_eq, htop]
    rfl
  | succ t ih =>
    intro g fila g' fila' h htop d
    rw [primEstado_succ] at h
    rw [show t + 1 + 1 + d = (t + 1 + d) + 1 by omega, primLaco_passo_eq]
    cases htp : fila.top with
    | none =>
      rw [htp] at h
      simp only [pure, Except.pure, Except.ok.injEq, Prod.mk.injEq] at h
      rw [h.1]
      rfl
    | some par =>
      rw [htp] at h
      simp only at h ⊢
      cases hp : primPasso g fila par with
      | error e =>
        rw [hp] at h
        simp only [bind, Except.bind] at h
        cases h
      | ok s =>
        rw [hp] at h
        simp only [bind, Except.bind] at h ⊢
        exact ih s.1 s.2 g' fila' h htop d

/-- The Prim loop ends, whatever the distances are: for n >= 1 points, while the queue is
not empty the turns made and the pairs pending are together at most 1 + n(n-1); after
1 + n(n-1) turns the queue is empty and the state is what primMST returns. -/
theorem primEstado_final (dist : ℚ × ℚ → ℚ × ℚ → ℚ) (pts : List (ℚ × ℚ))
    (hn : 1 ≤ pts.length) :
    ∃ g0 fila0 g, primInicio (construir dist false pts) = .ok (g0, fila0) ∧
      (∀ t g' fila', primEstado t g0 fila0 = .ok (g', fila') → fila'.pendentes ≠ [] →
        t + fila'.pendentes.length ≤ 1 + pts.length * (pts.length - 1)) ∧
      primEstado (1 + pts.length * (pts.length - 1)) g0 fila0 =
        .ok (g, FilaDePrioridade.mk []) ∧
      primMST (construir dist false pts) = .ok g := by
  obtain ⟨g0, v0, g1, fila1, hini, _, _, _, _, _, _, _, hmed, hcomb, _, hpasso, hb1, hch1,
    hm1⟩ := primInicio_spec dist pts hn
  have ht1 : Teto g1 :=
    primPasso_teto g0 g1 _ fila1 (0, 0) hpasso (primInicio_teto dist pts g0 _ hini)
  have htop0 : ((FilaDePrioridade.mk []).push (0, 0)).top = some (0, 0) := rfl
  have hsucc : ∀ t, primEstado (t + 1) g0 ((FilaDePrioridade.mk []).push (0, 0)) =
      primEstado t g1 fila1 := by
    intro t
    rw [primEstado_succ, htop0]
    simp only [hpasso, bind, Except.bind]
  obtain ⟨g, fila, he, _, _, _, hm⟩ :=
    primEstado_base dist pts (pts.length * (pts.length - 1)) g1 fila1 hb1 hch1 ht1
  have hvazia : fila = FilaDePrioridade.mk [] := by
    have : fila.pendentes = [] := by
      rcases hm with hm | hm
      · have h0 : fila.pendentes.length = 0 := by
          unfold medida at hm hm1 hmed
          omega
        exact List.eq_nil_of_length_eq_zero h0
      · exact hm
    cases fila
    simp only at this
    rw [this]
  subst hvazia
  have hfinal : primEstado (1 + pts.length * (pts.length - 1)) g0
      ((FilaDePrioridade.mk []).push (0, 0)) = .ok (g, FilaDePrioridade.mk []) := by
    rw [Nat.add_comm, hsucc]
    exact he
  refine ⟨g0, _, g, hini, ?_, hfinal, ?_⟩
  · intro t g' fila' ht hne
    cases t with
    | zero =>
      simp only [primEstado, pure, Except.pure, Except.ok.injEq, Prod.mk.injEq] at ht
      rw [← ht.2]
      simp [FilaDePrioridade.push]
    | succ t =>
      rw [hsucc] at ht
      obtain ⟨g2, fila2, he2, _, _, _, hm2⟩ := primEstado_base dist pts t g1 fila1 hb1 hch1 ht1
      rw [he2] at ht
      simp only [Except.ok.injEq, Prod.mk.injEq] at ht
      obtain ⟨ht1, ht2⟩ := ht
      subst ht1; subst ht2
      rcases hm2 with hm2 | hm2
      · unfold medida at hm2 hm1 hmed
        omega
      · exact absurd hm2 hne
  · rw [primMST_inicio]
    simp only [hini, bind, Except.bind]
    rw [hcomb]
    have := primEstado_laco (1 + pts.length * (pts.length - 1)) g0 _ g _ hfinal rfl 0
    rw [show 1 + pts.length * (pts.length - 1) + 1 + 0 =
      2 + pts.length * (pts.length - 1) by omega] at this
    exact this

end KruskalPrim

namespace KruskalPrim

/-! ## Termination of agruparPrim and of the Prim loop -/

/-- Claim C17. First part: on every graph and from every start vertex, a call of agruparPrim
with a label (a group number other than 0, the mark of an unlabelled vertex; executarPrim
passes 1, 2, ...) never runs out of depth when the chain of nested calls may hold, below the
first call, as many recursive calls as there are unlabelled vertices, at most n; a larger
bound gives the same result; a call on a labelled vertex returns the graph at once, a call
on an unlabelled vertex labels it before it runs its loop of recursive calls, and a call
that completes leaves no more unlabelled vertices than it found, fewer when the start vertex
was unlabelled. Second part: for a graph built in Prim mode from n points, whatever the
distances are: with n = 0 the seed access to vertex 0 fails and the loop is not entered;
with n >= 1, after any number t of turns of the Prim loop that leave the queue non-empty,
t pairs were popped and the pushed pairs, these and the pending ones, are at most
1 + n(n-1); after 1 + n(n-1) turns the queue is empty, and this final state is what the Prim
part of executarPrim returns. -/
theorem agruparPrim_e_primLaco_terminam :
    (∀ (g : Grafo) (i grupo : Nat), grupo ≠ 0 →
      (semRotulo g).card ≤ g.vertices.length ∧
      (∀ fuel, (semRotulo g).card < fuel →
        agruparPrim fuel g i grupo ≠ .error .semCombustivel ∧
        agruparPrim fuel g i grupo = agruparPrim ((semRotulo g).card + 1) g i grupo ∧
        ∀ g', agruparPrim fuel g i grupo = .ok g' →
          (semRotulo g').card ≤ (semRotulo g).card ∧
          (i ∈ semRotulo g → (semRotulo g').card < (semRotulo g).card)) ∧
      (∀ (fuel : Nat) (v : Vertice), g.vertices[i]? = some v →
        (v.grupo ≠ 0 → agruparPrim (fuel + 1) g i grupo = .ok g) ∧
        (v.grupo = 0 →
          agruparPrim (fuel + 1) g i grupo =
            v.arestas.foldlM (agruparPasso (fun g2 j => agruparPrim fuel g2 j grupo) i)
              (Grafo.mk (g.vertices.set i { v with grupo := grupo }) g.arestas g.nosMST
                g.arestasMST g.kruskal) ∧
          (semRotulo (Grafo.mk (g.vertices.set i { v with grupo := grupo }) g.arestas
            g.nosMST g.arestasMST g.kruskal)).card < (semRotulo g).card))) ∧
    (∀ (dist : ℚ × ℚ → ℚ × ℚ → ℚ) (pts : List (ℚ × ℚ)),
      pts.length = 0 → primMST (construir dist false pts) = .error .foraDosLimites) ∧
    (∀ (dist : ℚ × ℚ → ℚ × ℚ → ℚ) (pts : List (ℚ × ℚ)), 1 ≤ pts.length →
      ∃ g0 fila0 g, primInicio (construir dist false pts) = .ok (g0, fila0) ∧
        (∀ t g' fila', primEstado t g0 fila0 = .ok (g', fila') → fila'.pendentes ≠ [] →
          t + fila'.pendentes.length ≤ 1 + pts.length * (pts.length - 1)) ∧
        primEstado (1 + pts.length * (pts.length - 1)) g0 fila0 =
          .ok (g, FilaDePrioridade.mk []) ∧
        primMST (construir dist false pts) = .ok g) := by
  refine ⟨?_, ?_, ?_⟩
  · intro g i grupo hc
    refine ⟨semRotulo_card_le g, ?_, ?_⟩
    · intro fuel hfuel
      have h1 := agruparPrim_geral grupo hc fuel g i hfuel
      have h2 := agruparPrim_geral grupo hc ((semRotulo g).card + 1) g i (by omega)
      refine ⟨h1.1, ?_, ?_⟩
      · have := agruparPrim_mais_d grupo ((semRotulo g).card + 1) g i h2.1
          (fuel - ((semRotulo g).card + 1))
        rw [show (semRotulo g).card + 1 + (fuel - ((semRotulo g).card + 1)) = fuel by omega]
          at this
        exact this
      · intro g' hg'
        obtain ⟨q1, q2, q3⟩ := h1.2 g' hg'
        refine ⟨semRotulo_le q1 q2, ?_⟩
        intro hi
        simp only [semRotulo, Finset.mem_filter, Finset.mem_range] at hi
        exact semRotulo_lt q1 q2 i hi.1 hi.2 (q3 hi.1)
    · intro fuel v hv
      constructor
      · intro hg
        rw [agruparPrim_succ]
        simp only [obter_ok hv, bind, Except.bind]
        rw [if_neg hg]
        rfl
      · intro hg
        refine ⟨?_, semRotulo_marcar g i v hv hg grupo hc⟩
        rw [agruparPrim_succ]
        simp only [obter_ok hv, bind, Except.bind]
        rw [if_pos hg]
  · intro dist pts hn
    have : pts = [] := List.eq_nil_of_length_eq_zero hn
    subst this
    rfl
  · intro dist pts hn
    exact primEstado_final dist pts hn

/-- Witness for claim C17: a call of agruparPrim with group 1 from vertex 0 of the graph the
Prim loop builds for the points (0,0) and (1,0), with depth bound 3, completes; and the Prim
loop for the points (0,0), (1,0), (10^200,0), two of whose distances overflow, has ended
after 7 turns. -/
theorem agruparPrim_e_primLaco_terminam_witness :
    agruparPrim 3 (Grafo.mk
        [Vertice.mk [(1000, 1)] 0 (-1) true 0 0 0 [0],
          Vertice.mk [(1000, 0)] 1000 0 true 1 0 0 [0]]
        [] [Aresta.mk 1000 0 1] [0] false) 0 1 ≠ .error .semCombustivel ∧
    ∃ g0 fila0 g, primInicio (construir distDupla false [(0, 0), (1, 0), (longe, 0)]) =
        .ok (g0, fila0) ∧
      primEstado 7 g0 fila0 = .ok (g, FilaDePrioridade.mk []) ∧
      primMST (construir distDupla false [(0, 0), (1, 0), (longe, 0)]) = .ok g := by
  refine ⟨((agruparPrim_e_primLaco_terminam.1 _ 0 1 (by decide)).2.1 3 ?_).1, ?_⟩
  · exact lt_of_le_of_lt (semRotulo_card_le _) (by decide)
  · obtain ⟨g0, fila0, g, h1, _, h3, h4⟩ :=
      agruparPrim_e_primLaco_terminam.2.2 distDupla [(0, 0), (1, 0), (longe, 0)] (by decide)
    exact ⟨g0, fila0, g, h1, h3, h4⟩

end KruskalPrim

namespace KruskalPrim

/-! ## Stale pairs in the Prim loop -/

end KruskalPrim
